import Mathlib

/-!
Verification of the posting-list combinators, the facet subsystem, the
multi-valued fast field and the cascaded FST map of this search-engine
repository.  Doc ids and bytes are modelled as `Nat`; byte strings as
`List Nat`.  Each definition is a shallow embedding of the corresponding
Rust item; comments name the source file.
-/

/-- Result of `DocSet::skip_next`, from `postings` (`SkipResult` enum). -/
inductive SkipResult where
  | Reached
  | OverStep
  | SEnd
deriving DecidableEq, Repr

/-- Modelled from the spec: the base `DocSet` over a sorted vector of doc ids
(`VecPostings`, whose source is not under `src/`; §4.7 gives the contract:
`advance` moves to the next doc or terminates, `doc()` is undefined before the
first `advance`).  `cur = none` is the pre-start state. -/
structure VecPostings where
  cur : Option Nat
  remaining : List Nat
deriving DecidableEq, Repr

/-- Builds the pre-start `VecPostings` over the given ascending doc list. -/
def VecPostings.fromList (l : List Nat) : VecPostings := ⟨none, l⟩

/-- Current doc of a `VecPostings` (garbage value 0 before the first advance,
matching the unspecified `doc()` of the contract). -/
def VecPostings.doc (v : VecPostings) : Nat := v.cur.getD 0

/-- Modelled from the spec: `advance` of the base `DocSet` (§4.7): move to the
next doc, returning false iff exhausted. -/
def VecPostings.advance : VecPostings → Bool × VecPostings
  | ⟨c, []⟩ => (false, ⟨c, []⟩)
  | ⟨_, x :: xs⟩ => (true, ⟨some x, xs⟩)

/-- Loop of the base skip: walk the pending docs until one is `≥ target`. -/
def vecSkipGo (target : Nat) : Option Nat → List Nat → SkipResult × VecPostings
  | c, [] => (SkipResult.SEnd, ⟨c, []⟩)
  | _, x :: xs =>
    if x > target then (SkipResult.OverStep, ⟨some x, xs⟩)
    else if x = target then (SkipResult.Reached, ⟨some x, xs⟩)
    else vecSkipGo target (some x) xs

/-- Modelled from the spec: `skip_next` of the base `DocSet` (§4.7 and the
default trait implementation): advance at least once, then keep advancing
until the current doc is `≥ target`; classify the outcome. -/
def VecPostings.skipNext (target : Nat) (v : VecPostings) :
    SkipResult × VecPostings :=
  vecSkipGo target v.cur v.remaining

/-- Head item of the union heap, from `src/postings/union_all.rs` (`HeapItem`):
current doc of one child and the child's ordinal. -/
structure HeapItem where
  doc : Nat
  ord : Nat
deriving DecidableEq, Repr

/-- State of `UnionAllDocSet` from `src/postings/union_all.rs`, specialised to
two children (`docsets[0]`, `docsets[1]`; the constructor asserts at least two
children and every claim builds it from `[A, B]`).  `queue` models the
`BinaryHeap` contents; the heap order is irrelevant, only the minimum is
observed, so the model keeps insertion order and selects the minimum
explicitly. -/
structure UnionAllDocSet where
  c0 : VecPostings
  c1 : VecPostings
  queue : List HeapItem
  finished : Bool
  doc : Nat
deriving DecidableEq, Repr

/-- Child of ordinal `ord` (`self.docsets[ord]`). -/
def UnionAllDocSet.child (s : UnionAllDocSet) (ord : Nat) : VecPostings :=
  if ord = 0 then s.c0 else s.c1

/-- Replaces the child of ordinal `ord`. -/
def UnionAllDocSet.setChild (s : UnionAllDocSet) (ord : Nat) (c : VecPostings) :
    UnionAllDocSet :=
  if ord = 0 then { s with c0 := c } else { s with c1 := c }

/-- Selects the queue item with the smallest doc (ties resolved towards the
earlier item, standing in for the unspecified tie order of the Rust
`BinaryHeap`; equal-doc ties never change the emitted doc). -/
def minHeapItem : List HeapItem → Option HeapItem
  | [] => none
  | it :: rest =>
    match minHeapItem rest with
    | none => some it
    | some it2 => if it.doc ≤ it2.doc then some it else some it2

/-- From `UnionAllDocSet::from(Vec<TDocSet>)`: advance every child and push a
heap item for each child that produced a doc. -/
def mkUnionAll (a b : List Nat) : UnionAllDocSet :=
  let (oka, ca) := VecPostings.advance (VecPostings.fromList a)
  let (okb, cb) := VecPostings.advance (VecPostings.fromList b)
  { c0 := ca
    c1 := cb
    queue := (if oka then [⟨ca.doc, 0⟩] else []) ++ (if okb then [⟨cb.doc, 1⟩] else [])
    finished := false
    doc := 0 }

/-- From `UnionAllDocSet::advance_head`: record the doc of the minimal head,
advance that child, and either update its head or pop it from the queue. -/
def UnionAllDocSet.advanceHead (s : UnionAllDocSet) : UnionAllDocSet :=
  match minHeapItem s.queue with
  | none => s
  | some it =>
    let (ok, c) := (s.child it.ord).advance
    if ok then
      { s with
        doc := it.doc
        queue := s.queue.map (fun (j : HeapItem) =>
          if j.ord = it.ord then ⟨c.doc, j.ord⟩ else j) }
        |>.setChild it.ord c
    else
      { s with doc := it.doc, queue := s.queue.filter (fun j => j.ord ≠ it.ord) }
        |>.setChild it.ord c

/-- From `UnionAllDocSet::advance`. -/
def UnionAllDocSet.advance (s : UnionAllDocSet) : Bool × UnionAllDocSet :=
  if s.finished then (false, s)
  else if s.queue.isEmpty then (false, { s with finished := true })
  else (true, s.advanceHead)

/-- One step of the `for item in &mut heap_items` loop of
`UnionAllDocSet::skip_next`: returns the updated item (`none` when the child
reported `End` and the item is retained out), the updated child, and whether
this item set `found`. -/
def skipNextItem (target : Nat) (it : HeapItem) (c : VecPostings) :
    Option HeapItem × VecPostings × Bool :=
  if it.doc = target then (some it, c, true)
  else if it.doc > target then (some it, c, false)
  else
    match c.skipNext target with
    | (SkipResult.Reached, c2) => (some ⟨target, it.ord⟩, c2, true)
    | (SkipResult.OverStep, c2) => (some ⟨c2.doc, it.ord⟩, c2, false)
    | (SkipResult.SEnd, c2) => (none, c2, false)

/-- The item loop of `UnionAllDocSet::skip_next` over the whole queue. -/
def skipNextQueue (target : Nat) (s : UnionAllDocSet) :
    List HeapItem → List HeapItem × UnionAllDocSet × Bool
  | [] => ([], s, false)
  | it :: rest =>
    let (it2, c2, f) := skipNextItem target it (s.child it.ord)
    let (rest2, s2, f2) := skipNextQueue target (s.setChild it.ord c2) rest
    (it2.toList ++ rest2, s2, f || f2)

/-- From `UnionAllDocSet::skip_next`. -/
def UnionAllDocSet.skipNext (target : Nat) (s : UnionAllDocSet) :
    SkipResult × UnionAllDocSet :=
  if s.finished then (SkipResult.SEnd, s)
  else
    let (q2, s2, found) := skipNextQueue target s s.queue
    if q2.isEmpty then (SkipResult.SEnd, { s2 with queue := [], finished := true })
    else
      let s3 := { s2 with queue := q2, doc := if found then target else s2.doc }
      if found then (SkipResult.Reached, s3)
      else (SkipResult.OverStep, s3.advanceHead)

/-- State of `UnionDocSet` from `src/postings/union.rs`: the inner
`UnionAllDocSet` plus the last emitted doc used for de-duplication. -/
structure UnionDocSet where
  inner : UnionAllDocSet
  current : Option Nat
deriving DecidableEq, Repr

/-- From `UnionDocSet::from(Vec<TDocSet>)`. -/
def mkUnion (a b : List Nat) : UnionDocSet := ⟨mkUnionAll a b, none⟩

/-- Current doc of the union (`UnionDocSet::doc` delegates to the inner set). -/
def UnionDocSet.doc (s : UnionDocSet) : Nat := s.inner.doc

/-- From `UnionDocSet::advance`: advance the inner set; if it lands on the doc
just emitted, skip the inner set past it; record the emitted doc. -/
def UnionDocSet.advance (s : UnionDocSet) : Bool × UnionDocSet :=
  let (ok, inner) := s.inner.advance
  if !ok then (false, { s with inner := inner })
  else if some inner.doc = s.current then
    match inner.skipNext (inner.doc + 1) with
    | (SkipResult.SEnd, inner2) => (false, { s with inner := inner2 })
    | (_, inner2) => (true, ⟨inner2, some inner2.doc⟩)
  else (true, ⟨inner, some inner.doc⟩)

/-- From `UnionDocSet::skip_next`. -/
def UnionDocSet.skipNext (target : Nat) (s : UnionDocSet) :
    SkipResult × UnionDocSet :=
  match s.inner.skipNext target with
  | (SkipResult.SEnd, inner2) => (SkipResult.SEnd, { s with inner := inner2 })
  | (res, inner2) => (res, ⟨inner2, some inner2.doc⟩)

/-- State of `DifferenceDocSet` from `src/postings/difference.rs`. -/
structure DifferenceDocSet where
  left : VecPostings
  right : VecPostings
  rightFinished : Bool
deriving DecidableEq, Repr

/-- From `DifferenceDocSet::new`: advance `right` once at construction. -/
def mkDifference (a b : List Nat) : DifferenceDocSet :=
  let (ok, r) := VecPostings.advance (VecPostings.fromList b)
  ⟨VecPostings.fromList a, r, !ok⟩

/-- Current doc of the difference (`doc()` returns `left.doc()`). -/
def DifferenceDocSet.doc (s : DifferenceDocSet) : Nat := s.left.doc

/-- Fuelled body of `DifferenceDocSet::advance`; the fuel is one more than the
length of `left.remaining`, which bounds the iterations of the `loop` because
every iteration consumes one element of `left`. -/
def DifferenceDocSet.advanceF : Nat → DifferenceDocSet → Bool × DifferenceDocSet
  | 0, s => (false, s)
  | n + 1, s =>
    match s.left.advance with
    | (false, l2) => (false, { s with left := l2 })
    | (true, l2) =>
      let s2 := { s with left := l2 }
      if s.rightFinished || l2.doc < s.right.doc then (true, s2)
      else if l2.doc = s.right.doc then DifferenceDocSet.advanceF n s2
      else
        match s.right.skipNext l2.doc with
        | (SkipResult.Reached, r2) => DifferenceDocSet.advanceF n { s2 with right := r2 }
        | (SkipResult.OverStep, r2) => (true, { s2 with right := r2 })
        | (SkipResult.SEnd, r2) => (true, { s2 with right := r2, rightFinished := true })

/-- From `DifferenceDocSet::advance`: the `loop` advancing `left` until a doc
not present in `right` is found. -/
def DifferenceDocSet.advance (s : DifferenceDocSet) : Bool × DifferenceDocSet :=
  DifferenceDocSet.advanceF (s.left.remaining.length + 1) s

/-- From `DifferenceDocSet::skip_next`. -/
def DifferenceDocSet.skipNext (target : Nat) (s : DifferenceDocSet) :
    SkipResult × DifferenceDocSet :=
  match s.left.skipNext target with
  | (SkipResult.SEnd, l2) => (SkipResult.SEnd, { s with left := l2 })
  | (res, l2) =>
    let s2 := { s with left := l2 }
    if s.rightFinished || l2.doc < s.right.doc then (res, s2)
    else if l2.doc = s.right.doc then
      match s2.left.advance with
      | (true, l3) => (SkipResult.OverStep, { s2 with left := l3 })
      | (false, l3) => (SkipResult.SEnd, { s2 with left := l3 })
    else
      match s.right.skipNext l2.doc with
      | (SkipResult.Reached, r2) =>
        match DifferenceDocSet.advance { s2 with right := r2 } with
        | (true, s3) => (SkipResult.OverStep, s3)
        | (false, s3) => (SkipResult.SEnd, s3)
      | (SkipResult.OverStep, r2) => (res, { s2 with right := r2 })
      | (SkipResult.SEnd, r2) => (res, { s2 with right := r2, rightFinished := true })

/-! Measure lemmas used to justify the fuel of the emission functions. -/

/-- Size measure of a `UnionAllDocSet`: total pending elements plus live heads. -/
def uaM (s : UnionAllDocSet) : Nat :=
  s.c0.remaining.length + s.c1.remaining.length + s.queue.length

theorem vec_advance_true_len {v v2 : VecPostings}
    (h : v.advance = (true, v2)) : v2.remaining.length < v.remaining.length := by
  cases v with
  | mk c rem =>
    cases rem with
    | nil => simp [VecPostings.advance] at h
    | cons x xs =>
      simp only [VecPostings.advance, Prod.mk.injEq] at h
      rw [← h.2]
      simp

theorem vec_advance_false_eq {v v2 : VecPostings}
    (h : v.advance = (false, v2)) : v2 = v := by
  cases v with
  | mk c rem =>
    cases rem with
    | nil =>
      simp only [VecPostings.advance, Prod.mk.injEq] at h
      exact h.2.symm
    | cons x xs => simp [VecPostings.advance] at h

theorem vecSkipGo_len_le (t : Nat) (c : Option Nat) (rem : List Nat) :
    (vecSkipGo t c rem).2.remaining.length ≤ rem.length := by
  induction rem generalizing c with
  | nil => simp [vecSkipGo]
  | cons x xs ih =>
    simp only [vecSkipGo]
    split
    · simp
    · split
      · simp
      · exact Nat.le_trans (ih (some x)) (by simp)

theorem vec_skipNext_len_le (t : Nat) (v : VecPostings) :
    (VecPostings.skipNext t v).2.remaining.length ≤ v.remaining.length :=
  vecSkipGo_len_le t v.cur v.remaining

theorem minHeapItem_mem {q : List HeapItem} {it : HeapItem}
    (h : minHeapItem q = some it) : it ∈ q := by
  induction q generalizing it with
  | nil => simp [minHeapItem] at h
  | cons a rest ih =>
    simp only [minHeapItem] at h
    cases hr : minHeapItem rest with
    | none =>
      rw [hr] at h
      simp only [Option.some.injEq] at h
      simp [← h]
    | some it2 =>
      rw [hr] at h
      dsimp only at h
      by_cases hle : a.doc ≤ it2.doc
      · rw [if_pos hle] at h
        simp only [Option.some.injEq] at h
        simp [← h]
      · rw [if_neg hle] at h
        simp only [Option.some.injEq] at h
        subst h
        exact List.mem_cons_of_mem _ (ih hr)

theorem minHeapItem_eq_none {q : List HeapItem}
    (h : minHeapItem q = none) : q = [] := by
  cases q with
  | nil => rfl
  | cons a rest =>
    simp only [minHeapItem] at h
    cases hr : minHeapItem rest with
    | none => rw [hr] at h; simp at h
    | some it2 => rw [hr] at h; by_cases hle : a.doc ≤ it2.doc <;> simp [hle] at h

theorem filter_len_lt {α : Type} {p : α → Bool} {l : List α} {a : α}
    (ha : a ∈ l) (hpa : p a = false) : (l.filter p).length < l.length := by
  induction l with
  | nil => simp at ha
  | cons b rest ih =>
    rcases List.mem_cons.mp ha with hb | hrest
    · subst hb
      simp only [List.filter, hpa]
      exact Nat.lt_succ_of_le (List.length_filter_le p rest)
    · simp only [List.filter]
      cases hp : p b
      · exact Nat.lt_succ_of_lt (ih hrest)
      · simpa using ih hrest

theorem setChild_queue (s : UnionAllDocSet) (o : Nat) (c : VecPostings) :
    (s.setChild o c).queue = s.queue := by
  unfold UnionAllDocSet.setChild
  split <;> rfl

theorem setChild_doc (s : UnionAllDocSet) (o : Nat) (c : VecPostings) :
    (s.setChild o c).doc = s.doc := by
  unfold UnionAllDocSet.setChild
  split <;> rfl

theorem setChild_finished (s : UnionAllDocSet) (o : Nat) (c : VecPostings) :
    (s.setChild o c).finished = s.finished := by
  unfold UnionAllDocSet.setChild
  split <;> rfl

theorem uaM_setChild (s : UnionAllDocSet) (o : Nat) (c : VecPostings) :
    uaM (s.setChild o c) + (s.child o).remaining.length
      = uaM s + c.remaining.length := by
  unfold UnionAllDocSet.setChild UnionAllDocSet.child uaM
  split <;> simp <;> omega

theorem setChild_c0_eq (s : UnionAllDocSet) (o : Nat) (c : VecPostings) :
    (s.setChild o c).c0 = if o = 0 then c else s.c0 := by
  unfold UnionAllDocSet.setChild
  split <;> simp_all

theorem setChild_c1_eq (s : UnionAllDocSet) (o : Nat) (c : VecPostings) :
    (s.setChild o c).c1 = if o = 0 then s.c1 else c := by
  unfold UnionAllDocSet.setChild
  split <;> simp_all

theorem child_eq (s : UnionAllDocSet) (o : Nat) :
    s.child o = if o = 0 then s.c0 else s.c1 := rfl

theorem uaM_mod_setChild (s : UnionAllDocSet) (d : Nat) (q : List HeapItem)
    (o : Nat) (c : VecPostings) :
    uaM (({ s with doc := d, queue := q } : UnionAllDocSet).setChild o c)
        + (s.child o).remaining.length
      = s.c0.remaining.length + s.c1.remaining.length + q.length
        + c.remaining.length := by
  unfold UnionAllDocSet.setChild UnionAllDocSet.child uaM
  split <;> simp <;> omega

theorem uaM_advanceHead_lt {s : UnionAllDocSet} (hq : s.queue ≠ []) :
    uaM s.advanceHead < uaM s := by
  cases hm : minHeapItem s.queue with
  | none => exact absurd (minHeapItem_eq_none hm) hq
  | some it =>
    have hmem := minHeapItem_mem hm
    cases hadv : (s.child it.ord).advance with
    | mk ok c =>
      unfold UnionAllDocSet.advanceHead
      rw [hm]
      dsimp only
      rw [hadv]
      dsimp only
      cases ok with
      | true =>
        have hlt := vec_advance_true_len hadv
        rw [if_pos rfl]
        have h2 := uaM_mod_setChild s it.doc
          (s.queue.map (fun (j : HeapItem) =>
            if j.ord = it.ord then ⟨c.doc, j.ord⟩ else j)) it.ord c
        simp only [List.length_map] at h2
        simp only [uaM, child_eq] at *
        split at h2 <;> split at hlt <;> omega
      | false =>
        have hceq : c = s.child it.ord := vec_advance_false_eq hadv
        have hq2 : (s.queue.filter (fun j => j.ord ≠ it.ord)).length
            < s.queue.length := filter_len_lt hmem (by simp)
        rw [if_neg (by simp)]
        have h3 : c.remaining.length = (s.child it.ord).remaining.length := by
          rw [hceq]
        rw [child_eq] at h3
        simp only [uaM, setChild_queue, setChild_c0_eq, setChild_c1_eq]
        by_cases ho : it.ord = 0 <;> simp [ho] at * <;> omega

theorem uaM_advanceHead_le (s : UnionAllDocSet) : uaM s.advanceHead ≤ uaM s := by
  by_cases hq : s.queue = []
  · have hm : minHeapItem s.queue = none := by rw [hq]; rfl
    unfold UnionAllDocSet.advanceHead
    rw [hm]
  · exact Nat.le_of_lt (uaM_advanceHead_lt hq)

theorem ua_advance_uaM {s s2 : UnionAllDocSet}
    (h : s.advance = (true, s2)) : uaM s2 < uaM s := by
  unfold UnionAllDocSet.advance at h
  by_cases hf : s.finished
  · simp [hf] at h
  · by_cases hq : s.queue.isEmpty
    · simp [hf, hq] at h
    · simp only [hf, hq, if_false, Bool.false_eq_true, if_neg, Prod.mk.injEq,
        not_false_iff] at h
      rw [← h.2]
      exact uaM_advanceHead_lt (by simpa using hq)

theorem skipNextItem_child_le (t : Nat) (it : HeapItem) (c : VecPostings) :
    (skipNextItem t it c).2.1.remaining.length ≤ c.remaining.length := by
  unfold skipNextItem
  split
  · simp
  · split
    · simp
    · cases hsk : c.skipNext t with
      | mk res c2 =>
        have hle := vec_skipNext_len_le t c
        rw [hsk] at hle
        cases res <;> simpa using hle

theorem skipNextQueue_spec (t : Nat) (s : UnionAllDocSet) (q : List HeapItem) :
    ∀ q2 s2 f, skipNextQueue t s q = (q2, s2, f) →
      q2.length ≤ q.length ∧ s2.queue = s.queue ∧ s2.finished = s.finished ∧
      s2.doc = s.doc ∧ s2.c0.remaining.length ≤ s.c0.remaining.length ∧
      s2.c1.remaining.length ≤ s.c1.remaining.length := by
  induction q generalizing s with
  | nil =>
    intro q2 s2 f h
    simp only [skipNextQueue, Prod.mk.injEq] at h
    obtain ⟨h1, h2, _⟩ := h
    simp [← h1, ← h2]
  | cons it rest ih =>
    intro q2 s2 f h
    simp only [skipNextQueue] at h
    cases hit : skipNextItem t it (s.child it.ord) with
    | mk it2 rest0 =>
      cases rest0 with
      | mk c2 f1 =>
        rw [hit] at h
        dsimp only at h
        cases hrec : skipNextQueue t (s.setChild it.ord c2) rest with
        | mk rq rest1 =>
          cases rest1 with
          | mk s9 f2 =>
            rw [hrec] at h
            dsimp only at h
            simp only [Prod.mk.injEq] at h
            obtain ⟨hq2, hs2, hf⟩ := h
            subst hq2
            subst hs2
            subst hf
            have hchild := skipNextItem_child_le t it (s.child it.ord)
            rw [hit] at hchild
            dsimp only at hchild
            obtain ⟨ha, hb, hc, hd, he, hf2⟩ := ih (s.setChild it.ord c2) rq s9 f2 hrec
            rw [child_eq] at hchild
            rw [setChild_queue] at hb
            rw [setChild_finished] at hc
            rw [setChild_doc] at hd
            rw [setChild_c0_eq] at he
            rw [setChild_c1_eq] at hf2
            refine ⟨?_, hb, hc, hd, ?_, ?_⟩
            · have hlen : it2.toList.length ≤ 1 := by cases it2 <;> simp
              simp only [List.length_append, List.length_cons]
              omega
            · by_cases ho : it.ord = 0 <;> simp [ho] at he hchild ⊢ <;> omega
            · by_cases ho : it.ord = 0 <;> simp [ho] at hf2 hchild ⊢ <;> omega

theorem ua_skipNext_uaM (t : Nat) (s : UnionAllDocSet) :
    uaM (UnionAllDocSet.skipNext t s).2 ≤ uaM s := by
  unfold UnionAllDocSet.skipNext
  by_cases hf : s.finished
  · simp [hf]
  · simp only [hf, if_neg, Bool.false_eq_true, not_false_iff, if_false]
    cases hsq : skipNextQueue t s s.queue with
    | mk q2 rest =>
      cases rest with
      | mk s2 found =>
        obtain ⟨ha, hb, hc, hd, he, hf2⟩ := skipNextQueue_spec t s s.queue q2 s2 found hsq
        dsimp only
        by_cases hq2 : q2.isEmpty
        · simp only [hq2, if_pos]
          simp only [uaM]
          simp only [List.length_nil]
          omega
        · simp only [hq2, if_neg, Bool.false_eq_true, not_false_iff, if_false]
          have hm3 : uaM { s2 with queue := q2, doc := if found then t else s2.doc } ≤ uaM s := by
            simp only [uaM]
            omega
          by_cases hfound : found
          · simp only [hfound, if_pos]
            exact hm3
          · simp only [hfound, if_neg, Bool.false_eq_true, not_false_iff, if_false]
            exact Nat.le_trans (uaM_advanceHead_le _) hm3

/-! Emission and reference iteration.  The Rust loops are modelled with an
explicit fuel that is always at least the measure of the state, so that every
function computes; congruence lemmas recover fuel-free unfolding equations. -/

/-- Fuelled list of docs produced by successive `advance() == true` calls of a
`UnionAllDocSet`. -/
def emitUAF : Nat → UnionAllDocSet → List Nat
  | 0, _ => []
  | n + 1, s =>
    match s.advance with
    | (false, _) => []
    | (true, s2) => s2.doc :: emitUAF n s2

/-- Docs emitted by a `UnionAllDocSet` across all successful `advance` calls. -/
def UnionAllDocSet.emit (s : UnionAllDocSet) : List Nat := emitUAF (uaM s + 1) s

theorem emitUAF_congr : ∀ (n : Nat) {m : Nat} {s : UnionAllDocSet},
    uaM s < n → uaM s < m → emitUAF n s = emitUAF m s := by
  intro n
  induction n with
  | zero => intro m s h1 _; exact absurd h1 (Nat.not_lt_zero _)
  | succ n ih =>
    intro m s h1 h2
    cases m with
    | zero => exact absurd h2 (Nat.not_lt_zero _)
    | succ m =>
      simp only [emitUAF]
      cases hadv : s.advance with
      | mk ok s2 =>
        cases ok with
        | false => rfl
        | true =>
          have hm := ua_advance_uaM hadv
          dsimp only
          congr 1
          exact ih (by omega) (by omega)

theorem ua_emit_eq (s : UnionAllDocSet) :
    s.emit = match s.advance with
      | (false, _) => []
      | (true, s2) => s2.doc :: s2.emit := by
  unfold UnionAllDocSet.emit
  conv_lhs => rw [emitUAF]
  cases hadv : s.advance with
  | mk ok s2 =>
    cases ok with
    | false => rfl
    | true =>
      have hm := ua_advance_uaM hadv
      dsimp only
      congr 1
      show emitUAF (uaM s) s2 = emitUAF (uaM s2 + 1) s2
      exact emitUAF_congr (uaM s) (by omega) (by omega)

/-- Fuelled list of docs produced by successive `advance() == true` calls of a
`UnionDocSet`. -/
def emitUF : Nat → UnionDocSet → List Nat
  | 0, _ => []
  | n + 1, s =>
    match s.advance with
    | (false, _) => []
    | (true, s2) => s2.doc :: emitUF n s2

/-- Docs emitted by a `UnionDocSet` across all successful `advance` calls. -/
def UnionDocSet.emit (s : UnionDocSet) : List Nat := emitUF (uaM s.inner + 1) s

theorem u_advance_uaM {s s2 : UnionDocSet}
    (h : s.advance = (true, s2)) : uaM s2.inner < uaM s.inner := by
  unfold UnionDocSet.advance at h
  cases hadv : s.inner.advance with
  | mk ok inner =>
    rw [hadv] at h
    cases ok with
    | false => simp at h
    | true =>
      have hm := ua_advance_uaM hadv
      dsimp only [Bool.not_true] at h
      rw [if_neg (by simp)] at h
      by_cases hc : some inner.doc = s.current
      · rw [if_pos hc] at h
        cases hsk : inner.skipNext (inner.doc + 1) with
        | mk res inner2 =>
          have hle := ua_skipNext_uaM (inner.doc + 1) inner
          rw [hsk] at hle
          dsimp only at hle
          rw [hsk] at h
          cases res <;> simp only [Prod.mk.injEq] at h
          · rw [← h.2]; dsimp only; omega
          · rw [← h.2]; dsimp only; omega
          · exact absurd h.1 Bool.false_ne_true
      · rw [if_neg hc] at h
        simp only [Prod.mk.injEq] at h
        rw [← h.2]
        exact hm

theorem emitUF_congr : ∀ (n : Nat) {m : Nat} {s : UnionDocSet},
    uaM s.inner < n → uaM s.inner < m → emitUF n s = emitUF m s := by
  intro n
  induction n with
  | zero => intro m s h1 _; exact absurd h1 (Nat.not_lt_zero _)
  | succ n ih =>
    intro m s h1 h2
    cases m with
    | zero => exact absurd h2 (Nat.not_lt_zero _)
    | succ m =>
      simp only [emitUF]
      cases hadv : s.advance with
      | mk ok s2 =>
        cases ok with
        | false => rfl
        | true =>
          have hm := u_advance_uaM hadv
          dsimp only
          congr 1
          exact ih (by omega) (by omega)

theorem u_emit_eq (s : UnionDocSet) :
    s.emit = match s.advance with
      | (false, _) => []
      | (true, s2) => s2.doc :: s2.emit := by
  unfold UnionDocSet.emit
  conv_lhs => rw [emitUF]
  cases hadv : s.advance with
  | mk ok s2 =>
    cases ok with
    | false => rfl
    | true =>
      have hm := u_advance_uaM hadv
      dsimp only
      congr 1
      show emitUF (uaM s.inner) s2 = emitUF (uaM s2.inner + 1) s2
      exact emitUF_congr (uaM s.inner) (by omega) (by omega)

theorem diff_advanceF_left : ∀ (n : Nat) (s : DifferenceDocSet) {b : Bool}
    {s2 : DifferenceDocSet}, DifferenceDocSet.advanceF n s = (b, s2) →
    s2.left.remaining.length ≤ s.left.remaining.length ∧
      (b = true → s2.left.remaining.length < s.left.remaining.length) := by
  intro n
  induction n with
  | zero =>
    intro s b s2 h
    simp only [DifferenceDocSet.advanceF, Prod.mk.injEq] at h
    rw [← h.1, ← h.2]
    exact ⟨Nat.le_refl _, by intro hb; cases hb⟩
  | succ n ih =>
    intro s b s2 h
    simp only [DifferenceDocSet.advanceF] at h
    cases hl : s.left.advance with
    | mk ok l2 =>
      rw [hl] at h
      cases ok with
      | false =>
        have heq := vec_advance_false_eq hl
        simp only [Prod.mk.injEq] at h
        rw [← h.1, ← h.2, heq]
        exact ⟨Nat.le_refl _, by intro hb; cases hb⟩
      | true =>
        have hlt := vec_advance_true_len hl
        dsimp only at h
        by_cases h1 : (s.rightFinished || decide (l2.doc < s.right.doc)) = true
        · rw [if_pos h1] at h
          simp only [Prod.mk.injEq] at h
          rw [← h.2]
          exact ⟨Nat.le_of_lt hlt, fun _ => hlt⟩
        · rw [if_neg h1] at h
          by_cases h2 : l2.doc = s.right.doc
          · rw [if_pos h2] at h
            have := ih _ h
            dsimp only at this
            exact ⟨Nat.le_trans this.1 (Nat.le_of_lt hlt), fun hb =>
              Nat.lt_of_le_of_lt (this.1) hlt⟩
          · rw [if_neg h2] at h
            cases hsk : s.right.skipNext l2.doc with
            | mk res r2 =>
              rw [hsk] at h
              cases res with
              | Reached =>
                dsimp only at h
                have := ih _ h
                dsimp only at this
                exact ⟨Nat.le_trans this.1 (Nat.le_of_lt hlt), fun hb =>
                  Nat.lt_of_le_of_lt (this.1) hlt⟩
              | OverStep =>
                simp only [Prod.mk.injEq] at h
                rw [← h.2]
                exact ⟨Nat.le_of_lt hlt, fun _ => hlt⟩
              | SEnd =>
                simp only [Prod.mk.injEq] at h
                rw [← h.2]
                exact ⟨Nat.le_of_lt hlt, fun _ => hlt⟩

theorem diff_advance_left {s : DifferenceDocSet} {b : Bool} {s2 : DifferenceDocSet}
    (h : s.advance = (b, s2)) :
    s2.left.remaining.length ≤ s.left.remaining.length ∧
      (b = true → s2.left.remaining.length < s.left.remaining.length) :=
  diff_advanceF_left _ s h

/-- Fuelled list of docs produced by successive `advance() == true` calls of a
`DifferenceDocSet`. -/
def emitDF : Nat → DifferenceDocSet → List Nat
  | 0, _ => []
  | n + 1, s =>
    match s.advance with
    | (false, _) => []
    | (true, s2) => s2.doc :: emitDF n s2

/-- Docs emitted by a `DifferenceDocSet` across all successful `advance`
calls. -/
def DifferenceDocSet.emit (s : DifferenceDocSet) : List Nat :=
  emitDF (s.left.remaining.length + 1) s

theorem emitDF_congr : ∀ (n : Nat) {m : Nat} {s : DifferenceDocSet},
    s.left.remaining.length < n → s.left.remaining.length < m →
    emitDF n s = emitDF m s := by
  intro n
  induction n with
  | zero => intro m s h1 _; exact absurd h1 (Nat.not_lt_zero _)
  | succ n ih =>
    intro m s h1 h2
    cases m with
    | zero => exact absurd h2 (Nat.not_lt_zero _)
    | succ m =>
      simp only [emitDF]
      cases hadv : s.advance with
      | mk ok s2 =>
        cases ok with
        | false => rfl
        | true =>
          have hm := (diff_advance_left hadv).2 rfl
          dsimp only
          congr 1
          exact ih (by omega) (by omega)

theorem diff_emit_eq (s : DifferenceDocSet) :
    s.emit = match s.advance with
      | (false, _) => []
      | (true, s2) => s2.doc :: s2.emit := by
  unfold DifferenceDocSet.emit
  conv_lhs => rw [emitDF]
  cases hadv : s.advance with
  | mk ok s2 =>
    cases ok with
    | false => rfl
    | true =>
      have hm := (diff_advance_left hadv).2 rfl
      dsimp only
      congr 1
      show emitDF s.left.remaining.length s2 = emitDF (s2.left.remaining.length + 1) s2
      exact emitDF_congr _ (by omega) (by omega)

/-- One operation applied to a doc set: a call of `advance` or of
`skip_next target`. -/
inductive DocSetOp where
  | adv
  | skip (target : Nat)
deriving DecidableEq, Repr

/-- Docs observed at `advance() == true` returns while applying an arbitrary
sequence of operations to a `UnionAllDocSet`. -/
def runUA : UnionAllDocSet → List DocSetOp → List Nat
  | _, [] => []
  | s, DocSetOp.adv :: ops =>
    match s.advance with
    | (true, s2) => s2.doc :: runUA s2 ops
    | (false, s2) => runUA s2 ops
  | s, DocSetOp.skip t :: ops => runUA (UnionAllDocSet.skipNext t s).2 ops

/-- Docs observed at `advance() == true` returns while applying an arbitrary
sequence of operations to a `UnionDocSet`. -/
def runU : UnionDocSet → List DocSetOp → List Nat
  | _, [] => []
  | s, DocSetOp.adv :: ops =>
    match s.advance with
    | (true, s2) => s2.doc :: runU s2 ops
    | (false, s2) => runU s2 ops
  | s, DocSetOp.skip t :: ops => runU (UnionDocSet.skipNext t s).2 ops

/-- Docs observed at `advance() == true` returns while applying an arbitrary
sequence of operations to a `DifferenceDocSet`. -/
def runD : DifferenceDocSet → List DocSetOp → List Nat
  | _, [] => []
  | s, DocSetOp.adv :: ops =>
    match s.advance with
    | (true, s2) => s2.doc :: runD s2 ops
    | (false, s2) => runD s2 ops
  | s, DocSetOp.skip t :: ops => runD (DifferenceDocSet.skipNext t s).2 ops

/-- Fuelled reference process for skip equivalence: call `advance` until the
current doc is at least the target (or the set is exhausted) and classify the
outcome like `skip_next` does. -/
def advanceUntilUAF : Nat → Nat → UnionAllDocSet → SkipResult × UnionAllDocSet
  | 0, _, s => (SkipResult.SEnd, s)
  | n + 1, t, s =>
    match s.advance with
    | (false, s2) => (SkipResult.SEnd, s2)
    | (true, s2) =>
      if s2.doc > t then (SkipResult.OverStep, s2)
      else if s2.doc = t then (SkipResult.Reached, s2)
      else advanceUntilUAF n t s2

/-- Advance a `UnionAllDocSet` until the first doc `≥ target`, the reference
behaviour that the spec equates with `skip_next`. -/
def UnionAllDocSet.advanceUntil (t : Nat) (s : UnionAllDocSet) :
    SkipResult × UnionAllDocSet :=
  advanceUntilUAF (uaM s + 1) t s

theorem advanceUntilUAF_congr : ∀ (n : Nat) {m t : Nat} {s : UnionAllDocSet},
    uaM s < n → uaM s < m → advanceUntilUAF n t s = advanceUntilUAF m t s := by
  intro n
  induction n with
  | zero => intro m t s h1 _; exact absurd h1 (Nat.not_lt_zero _)
  | succ n ih =>
    intro m t s h1 h2
    cases m with
    | zero => exact absurd h2 (Nat.not_lt_zero _)
    | succ m =>
      simp only [advanceUntilUAF]
      cases hadv : s.advance with
      | mk ok s2 =>
        cases ok with
        | false => rfl
        | true =>
          have hm := ua_advance_uaM hadv
          dsimp only
          by_cases hgt : s2.doc > t
          · rw [if_pos hgt, if_pos hgt]
          · rw [if_neg hgt, if_neg hgt]
            by_cases heq : s2.doc = t
            · rw [if_pos heq, if_pos heq]
            · rw [if_neg heq, if_neg heq]
              exact ih (by omega) (by omega)

theorem ua_advanceUntil_eq (t : Nat) (s : UnionAllDocSet) :
    s.advanceUntil t = match s.advance with
      | (false, s2) => (SkipResult.SEnd, s2)
      | (true, s2) =>
        if s2.doc > t then (SkipResult.OverStep, s2)
        else if s2.doc = t then (SkipResult.Reached, s2)
        else s2.advanceUntil t := by
  unfold UnionAllDocSet.advanceUntil
  conv_lhs => rw [advanceUntilUAF]
  cases hadv : s.advance with
  | mk ok s2 =>
    cases ok with
    | false => rfl
    | true =>
      have hm := ua_advance_uaM hadv
      dsimp only
      by_cases hgt : s2.doc > t
      · rw [if_pos hgt, if_pos hgt]
      · rw [if_neg hgt, if_neg hgt]
        by_cases heq : s2.doc = t
        · rw [if_pos heq, if_pos heq]
        · rw [if_neg heq, if_neg heq]
          exact advanceUntilUAF_congr _ (by omega) (by omega)

/-- Fuelled reference process for skip equivalence on a `UnionDocSet`. -/
def advanceUntilUF : Nat → Nat → UnionDocSet → SkipResult × UnionDocSet
  | 0, _, s => (SkipResult.SEnd, s)
  | n + 1, t, s =>
    match s.advance with
    | (false, s2) => (SkipResult.SEnd, s2)
    | (true, s2) =>
      if s2.doc > t then (SkipResult.OverStep, s2)
      else if s2.doc = t then (SkipResult.Reached, s2)
      else advanceUntilUF n t s2

/-- Advance a `UnionDocSet` until the first doc `≥ target`. -/
def UnionDocSet.advanceUntil (t : Nat) (s : UnionDocSet) :
    SkipResult × UnionDocSet :=
  advanceUntilUF (uaM s.inner + 1) t s

/-- Fuelled reference process for skip equivalence on a `DifferenceDocSet`. -/
def advanceUntilDF : Nat → Nat → DifferenceDocSet → SkipResult × DifferenceDocSet
  | 0, _, s => (SkipResult.SEnd, s)
  | n + 1, t, s =>
    match s.advance with
    | (false, s2) => (SkipResult.SEnd, s2)
    | (true, s2) =>
      if s2.doc > t then (SkipResult.OverStep, s2)
      else if s2.doc = t then (SkipResult.Reached, s2)
      else advanceUntilDF n t s2

/-- Advance a `DifferenceDocSet` until the first doc `≥ target`. -/
def DifferenceDocSet.advanceUntil (t : Nat) (s : DifferenceDocSet) :
    SkipResult × DifferenceDocSet :=
  advanceUntilDF (s.left.remaining.length + 1) t s

example : (mkUnionAll [1, 3, 9] [3, 4, 9, 18]).emit = [1, 3, 3, 4, 9, 9, 18] := by decide
example : (mkUnion [1, 3, 9] [3, 4, 9, 18]).emit = [1, 3, 4, 9, 18] := by decide
example : (mkDifference [1, 2, 3, 9, 14] [3, 4, 9, 12]).emit = [1, 2, 14] := by decide

/-! Facet encoding and collector, from `src/schema/facet.rs`,
`src/analyzer/facet_analyzer.rs` and `src/collector/facet_collector.rs`.
Bytes are `Nat`s below 256; facet-encoded values are byte lists. -/

/-- The facet step separator `SEP_BYTE = 31u8` (`0x1F`) of
`src/schema/facet.rs`. -/
def SEP_BYTE : Nat := 31

/-- From `facet_depth` in `src/collector/facet_collector.rs`: `0` for empty
bytes, otherwise one more than the number of `0u8` bytes (the code filters on
`*b == 0u8`). -/
def facet_depth (facet_bytes : List Nat) : Nat :=
  if facet_bytes.isEmpty then 0
  else (facet_bytes.filter (fun b => b = 0)).length + 1

/-- Stated from the claim for comparison: depth as the number of `0x1F`
separators plus one (zero for the empty root). -/
def facetDepthSpec (facet_bytes : List Nat) : Nat :=
  if facet_bytes.isEmpty then 0
  else (facet_bytes.filter (fun b => b = SEP_BYTE)).length + 1

/-- Strict byte-lexicographic order on byte strings, the order of the fst term
dictionaries (a proper prefix sorts first). -/
def bytesLt : List Nat → List Nat → Bool
  | [], [] => false
  | [], _ :: _ => true
  | _ :: _, [] => false
  | a :: as_, b :: bs => a < b || (a = b && bytesLt as_ bs)

/-- Non-strict byte-lexicographic order. -/
def bytesLe (a b : List Nat) : Bool := !bytesLt b a

/-- From `FacetCounts::facets` in `src/collector/facet_collector.rs` for a
non-root `root`: the dictionary range is `ge(root.encoded_bytes())` and
`lt(root.encoded_bytes() ++ [1u8])`.  Modelled from the spec for the missing
term-dictionary code: a range stream yields exactly the keys inside the
bounds (§4.2). -/
def inCodeRange (root k : List Nat) : Bool :=
  bytesLe root k && bytesLt k (root ++ [1])

/-- The set the claim describes: the root facet itself together with every
descendant (encoded as the root, a `0x1F` separator, then more bytes). -/
def isSelfOrDescendant (root k : List Nat) : Bool :=
  k == root || (root ++ [SEP_BYTE]).isPrefixOf k

/-- From the `Iterator` for `FacetIteratorWithDepth` in
`src/collector/facet_collector.rs`: walk the merged `(facet bytes, summed
count)` stream; at each key of the target depth emit the previous bucket
(unless its accumulator is zero or absent) and restart the accumulator with
the key's own count; keys of other depths only add to the accumulator; a final
bucket is emitted when the stream ends.  When no emission happens at a
target-depth key, the `self.current_count += facet_count` line after the `if`
runs as well. -/
def withDepthLoop (target : Nat) :
    List (List Nat × Nat) → Option (List Nat) → Nat → List (List Nat × Nat)
  | [], curF, curC =>
    match curF with
    | none => []
    | some f => [(f, curC)]
  | (bytes, cnt) :: rest, curF, curC =>
    if facet_depth bytes = target then
      match curF with
      | some f =>
        if curC ≠ 0 then (f, curC) :: withDepthLoop target rest (some bytes) cnt
        else withDepthLoop target rest (some bytes) (cnt + cnt)
      | none => withDepthLoop target rest (some bytes) (cnt + cnt)
    else withDepthLoop target rest curF (curC + cnt)

/-- From `FacetCounts::with_depth`: buckets at depth
`facet_depth(root) + depth` over the merged stream. -/
def facetsWithDepth (root : List Nat) (depth : Nat)
    (stream : List (List Nat × Nat)) : List (List Nat × Nat) :=
  withDepthLoop (facet_depth root + depth) stream none 0

/-- From the `Iterator` for `FacetIterator` in
`src/collector/facet_collector.rs`: emit every key of the merged stream whose
summed count is positive. -/
def facetIter (stream : List (List Nat × Nat)) : List (List Nat × Nat) :=
  stream.filter (fun kv => 0 < kv.2)

/-- Models `iter().position(|b| b == 31u8)` of the Rust byte search: the index
of the first separator, if any. -/
def position31 : List Nat → Option Nat
  | [] => none
  | x :: xs =>
    if x = SEP_BYTE then some 0 else (position31 xs).map (fun p => p + 1)

/-- From `FacetTokenStream::advance` in `src/analyzer/facet_analyzer.rs`: one
search step; the next separator is looked up from `pos + 1` on, defaulting to
the end of the input.  The emitted token is the accumulated
`token.term.push_str` prefix, i.e. the input up to the new position. -/
def facetTokensF : Nat → Nat → List Nat → List (List Nat)
  | 0, _, _ => []
  | fuel + 1, pos, b =>
    if pos = b.length then []
    else
      let next :=
        match position31 (b.drop (pos + 1)) with
        | some p => p + pos + 1
        | none => b.length
      b.take next :: facetTokensF fuel next b

/-- Token terms produced by the facet tokenizer on encoded bytes `b`. -/
def facetTokens (b : List Nat) : List (List Nat) :=
  facetTokensF (b.length + 1) 0 b

/-- From `escape_slashes` in `src/schema/facet.rs`: the regex `[\\/]` with the
replacement string `"\\/"`, so every `/` (47) and every `\` (92) inside a step
is replaced by the two bytes `\` `/` (92, 47). -/
def escapeSlashes (s : List Nat) : List Nat :=
  s.flatMap (fun c => if c = 47 ∨ c = 92 then [92, 47] else [c])

/-- From the `Display` impl for `Facet` in `src/schema/facet.rs`: split the
encoded bytes on `SEP_BYTE` and write a `/` (47) followed by the escaped step
for every step. -/
def facetToStringBytes (b : List Nat) : List Nat :=
  ((b.splitOn SEP_BYTE).map (fun step => 47 :: escapeSlashes step)).flatten

/-- Parser state of `Facet::from_str` (`enum State { Escaped, Idle }`). -/
inductive PState where
  | Escaped
  | Idle
deriving DecidableEq, Repr

/-- The character loop of `Facet::from_str` over `path_bytes[1..]`: `\` (92)
enters the escaped state, an unescaped `/` (47) emits `SEP_BYTE`, anything
else (or any escaped byte) is copied. -/
def fromStrLoop : PState → List Nat → List Nat
  | _, [] => []
  | PState.Idle, c :: rest =>
    if c = 92 then fromStrLoop PState.Escaped rest
    else if c = 47 then SEP_BYTE :: fromStrLoop PState.Idle rest
    else c :: fromStrLoop PState.Idle rest
  | PState.Escaped, c :: rest => c :: fromStrLoop PState.Idle rest

/-- From `Facet::from_str`: `none` models a panic — the
`assert!(!path.contains(SEP))` for an embedded `0x1F`, or the out-of-bounds
slice `&path_bytes[1..]` on empty input; otherwise the state machine runs on
the input after the leading `/`. -/
def facetFromStr (path : List Nat) : Option (List Nat) :=
  if SEP_BYTE ∈ path then none
  else if path.isEmpty then none
  else some (fromStrLoop PState.Idle (path.drop 1))

/-- From `Facet::from_path`: the steps (as byte strings, the bytes their
`Display` writes) joined by `SEP_BYTE`, with no validation of any kind. -/
def facetFromPath (steps : List (List Nat)) : List Nat :=
  List.intercalate [SEP_BYTE] steps

/-- Models `iter().enumerate().filter(|(_, b)| b == SEP_BYTE).map(|(pos, _)|
pos)`: the positions of the separator bytes, counting from `i`. -/
def sepPosAux : List Nat → Nat → List Nat
  | [], _ => []
  | c :: rest, i =>
    if c = SEP_BYTE then i :: sepPosAux rest (i + 1) else sepPosAux rest (i + 1)

/-- The separator positions of an encoded facet. -/
def sepPositions (b : List Nat) : List Nat := sepPosAux b 0

/-- From `Facet::prefixes` in `src/schema/facet.rs`: the prefix before every
separator position, then the whole encoding. -/
def facetPrefixes (b : List Nat) : List (List Nat) :=
  (sepPositions b).map (fun pos => b.take pos) ++ [b]

/-! Multi-valued fast field, from `src/fastfield/multivalued/writer.rs` and
`src/fastfield/multivalued/reader.rs`. -/

/-- The `doc_index` accumulated by repeated
`MultiValueIntFastFieldWriter::add_document`: the values of each document are
appended to `vals` first, then `next_doc` pushes `vals.len()`; each entry is
therefore the end offset of its document. -/
def docIndexAux : List (List Nat) → Nat → List Nat
  | [], _ => []
  | d :: rest, acc => (acc + d.length) :: docIndexAux rest (acc + d.length)

/-- The writer's `doc_index` after adding every document. -/
def writerDocIndex (docs : List (List Nat)) : List Nat := docIndexAux docs 0

/-- The writer's `vals` after adding every document. -/
def writerVals (docs : List (List Nat)) : List Nat := docs.flatten

/-- Modelled from the spec: the serialized `idx` column (§4.4: `idx[d]` is the
offset of doc `d`'s first value and `idx[num_docs]` a sentinel equal to
`len(vals)`; the column serializer is not under `src/`).  Given the writer's
end-offset `doc_index`, this is `0` followed by `doc_index`. -/
def idxColumn (docs : List (List Nat)) : List Nat := 0 :: writerDocIndex docs

/-- From `MultiValueIntFastFieldReader::get_vals`: read
`idx[doc]` and `idx[doc + 1]` and collect `vals[start..stop]`. -/
def getVals (idx vals : List Nat) (doc : Nat) : List Nat :=
  let start := idx.getD doc 0
  let stop := idx.getD (doc + 1) 0
  (List.range' start (stop - start)).map (fun i => vals.getD i 0)

/-! Cascaded fst map, from `src/datastruct/fstmap.rs`.  The external `fst`
crate is modelled from the spec as a sorted association list from byte keys to
`u64` values with exact `get` and `range().ge(k)` lookups.  The output file is
modelled as a list of entries (serialized values and serialized fst blocks);
an address is the index of an entry, standing in for the byte offset returned
by `counting_writer.bytes_written()` — faithful because every offset the code
stores is later used only to read back what was written there.  The
`CACHE_SIZE` flush threshold (2 MiB of fst bytes in the source) becomes a
parameter `cacheSize` counted in entries, standing in for the monotone
`bytes_written()` of a block builder. -/

/-- One entry of the modelled output file: a serialized value or a serialized
fst block (a sorted list of key/address pairs). -/
inductive FileEntry where
  | val : Nat → FileEntry
  | block : List (List Nat × Nat) → FileEntry
deriving DecidableEq, Repr

/-- Builder state of `FstMapBuilder`: the file written so far, the stack of
open fst block builders (index 0 is the leaf layer), and the last inserted
key. -/
structure FstMapBuilder where
  file : List FileEntry
  blockStack : List (List (List Nat × Nat))
  lastKey : List Nat
  cacheSize : Nat
deriving DecidableEq, Repr

/-- From `FstMapBuilder::new`: one empty leaf block builder. -/
def fstBuilderNew (cacheSize : Nat) : FstMapBuilder :=
  ⟨[], [[]], [], cacheSize⟩

/-- From `FstMapBuilder::insert_key_addr`, with the recursion over `layer_id`
expressed structurally over the stack suffix starting at that layer: push a
fresh builder when the layer does not exist; insert into the layer's block
while it is within the cache budget; otherwise flush the block to the file,
restart the layer with the new entry, and cascade the flushed block's address
into the layer above. -/
def insertKeyAddr (key : List Nat) (addr : Nat) (file : List FileEntry)
    (cacheSize : Nat) :
    List (List (List Nat × Nat)) → List FileEntry × List (List (List Nat × Nat))
  | [] => (file, [[(key, addr)]])
  | block :: upper =>
    if block.length ≤ cacheSize then (file, (block ++ [(key, addr)]) :: upper)
    else
      let newAddr := file.length
      let (file2, upper2) :=
        insertKeyAddr key newAddr (file ++ [FileEntry.block block]) cacheSize upper
      (file2, [(key, addr)] :: upper2)

/-- From `FstMapBuilder::insert`: serialize the value (recording its address),
feed the key into the leaf layer, and remember the key. -/
def fstInsert (key : List Nat) (value : Nat) (b : FstMapBuilder) : FstMapBuilder :=
  let valAddr := b.file.length
  let (file2, stack2) :=
    insertKeyAddr key valAddr (b.file ++ [FileEntry.val value]) b.cacheSize
      b.blockStack
  { file := file2, blockStack := stack2, lastKey := key, cacheSize := b.cacheSize }

/-- The finished map: the file entries, the address of the top block and the
depth (number of layers). -/
structure FstMap where
  file : List FileEntry
  topFstOffset : Nat
  depth : Nat
deriving DecidableEq, Repr

/-- The layer loop of `FstMapBuilder::finish`: each block after the first
closed one receives the last key pointing at the previously written block,
then is written out; the footer keeps the last offset and the depth. -/
def finishLoop : List (List (List Nat × Nat)) → List Nat → Nat → List FileEntry →
    Nat × List FileEntry
  | [], _, prevOffset, file => (prevOffset, file)
  | block :: rest, lastKey, prevOffset, file =>
    let block2 := if prevOffset ≠ 0 then block ++ [(lastKey, prevOffset)] else block
    finishLoop rest lastKey (file.length) (file ++ [FileEntry.block block2])

/-- From `FstMapBuilder::finish`. -/
def fstFinish (b : FstMapBuilder) : FstMap :=
  let (topOffset, file) := finishLoop b.blockStack b.lastKey 0 b.file
  ⟨file, topOffset, b.blockStack.length⟩

/-- Modelled from the spec: `get` of one fst block of the external `fst`
crate — exact lookup in a sorted association list. -/
def blockGet (key : List Nat) : List (List Nat × Nat) → Option Nat
  | [] => none
  | (k, v) :: rest => if k = key then some v else blockGet key rest

/-- Modelled from the spec: `range().ge(key).into_stream().next()` of the
external `fst` crate — the first entry whose key is `≥ key` in byte
order (entries are sorted, so the scan finds the smallest such key). -/
def blockGe (key : List Nat) : List (List Nat × Nat) → Option (List Nat × Nat)
  | [] => none
  | (k, v) :: rest => if bytesLe key k then some (k, v) else blockGe key rest

/-- Reads the fst block stored at `offset` (`read_fst` checks the length
prefix; the model indexes the file directly). -/
def readBlock (file : List FileEntry) (offset : Nat) : List (List Nat × Nat) :=
  match file.getD offset (FileEntry.block []) with
  | FileEntry.block b => b
  | FileEntry.val _ => []

/-- Reads the serialized value stored at `offset` (`FstMap::read_value`). -/
def readValue (file : List FileEntry) (offset : Nat) : Option Nat :=
  match file.getD offset (FileEntry.block []) with
  | FileEntry.val v => some v
  | FileEntry.block _ => none

/-- The descent loop of `FstMap::get`: `depth - 1` times, follow the first
entry `≥ key` of the current block down to the next block offset. -/
def fstDescend (file : List FileEntry) (key : List Nat) :
    Nat → Nat → Option Nat
  | offset, 0 => some offset
  | offset, steps + 1 =>
    match blockGe key (readBlock file offset) with
    | some (_, newOffset) => fstDescend file key newOffset steps
    | none => none

/-- From `FstMap::get`: empty (`depth == 0`) maps answer `None`; otherwise
descend `depth - 1` levels by `ge` range queries, then do an exact `get` in
the leaf block and deserialize the value it addresses. -/
def fstGet (m : FstMap) (key : List Nat) : Option Nat :=
  if m.depth = 0 then none
  else
    match fstDescend m.file key m.topFstOffset (m.depth - 1) with
    | none => none
    | some leafOffset =>
      match blockGet key (readBlock m.file leafOffset) with
      | some valAddr => readValue m.file valAddr
      | none => none

/-- Builds a map from a list of key/value pairs inserted in order with the
given cache budget. -/
def fstBuild (cacheSize : Nat) (kvs : List (List Nat × Nat)) : FstMap :=
  fstFinish (kvs.foldl (fun b kv => fstInsert kv.1 kv.2 b) (fstBuilderNew cacheSize))

/-! Lemmas about the facet tokenizer. -/

theorem position31_none {l : List Nat} (h : position31 l = none) : SEP_BYTE ∉ l := by
  induction l with
  | nil => simp
  | cons x xs ih =>
    simp only [position31] at h
    by_cases hx : x = SEP_BYTE
    · rw [if_pos hx] at h; cases h
    · rw [if_neg hx] at h
      cases hxs : position31 xs with
      | none =>
        simp only [List.mem_cons, not_or]
        exact ⟨fun he => hx he.symm, ih hxs⟩
      | some q => rw [hxs] at h; cases h

theorem position31_some {l : List Nat} {p : Nat} (h : position31 l = some p) :
    ∃ u v, l = u ++ SEP_BYTE :: v ∧ u.length = p ∧ SEP_BYTE ∉ u := by
  induction l generalizing p with
  | nil => simp [position31] at h
  | cons x xs ih =>
    simp only [position31] at h
    by_cases hx : x = SEP_BYTE
    · rw [if_pos hx] at h
      simp only [Option.some.injEq] at h
      exact ⟨[], xs, by simp [hx], by simp [← h], by simp⟩
    · rw [if_neg hx] at h
      cases hxs : position31 xs with
      | none => rw [hxs] at h; cases h
      | some q =>
        rw [hxs] at h
        simp only [Option.map_some', Option.some.injEq] at h
        obtain ⟨u, v, hdec, hlen, hnot⟩ := ih hxs
        refine ⟨x :: u, v, by simp [hdec], by simp [hlen, h], ?_⟩
        simp only [List.mem_cons, not_or]
        exact ⟨fun he => hx he.symm, hnot⟩

theorem sepPosAux_not_mem {l : List Nat} (h : SEP_BYTE ∉ l) (i : Nat) :
    sepPosAux l i = [] := by
  induction l generalizing i with
  | nil => rfl
  | cons c rest ih =>
    simp only [List.mem_cons, not_or] at h
    simp only [sepPosAux]
    rw [if_neg (fun he => h.1 he.symm)]
    exact ih h.2 _

theorem sepPosAux_append {u : List Nat} (h : SEP_BYTE ∉ u) (v : List Nat) (i : Nat) :
    sepPosAux (u ++ SEP_BYTE :: v) i
      = (i + u.length) :: sepPosAux v (i + u.length + 1) := by
  induction u generalizing i with
  | nil => simp [sepPosAux]
  | cons c rest ih =>
    simp only [List.mem_cons, not_or] at h
    have hstep : sepPosAux ((c :: rest) ++ SEP_BYTE :: v) i
        = sepPosAux (rest ++ SEP_BYTE :: v) (i + 1) := by
      show sepPosAux (c :: (rest ++ SEP_BYTE :: v)) i = _
      simp only [sepPosAux]
      rw [if_neg (fun he => h.1 he.symm)]
    rw [hstep, ih h.2 (i + 1), List.length_cons]
    have h1 : i + 1 + rest.length = i + (rest.length + 1) := by omega
    rw [h1]

theorem sepPosAux_length (l : List Nat) (i : Nat) :
    (sepPosAux l i).length = (l.filter (fun c => c = SEP_BYTE)).length := by
  induction l generalizing i with
  | nil => rfl
  | cons c rest ih =>
    by_cases hc : c = SEP_BYTE
    · subst hc
      simp [sepPosAux, List.filter_cons, ih]
    · simp [sepPosAux, List.filter_cons, hc, ih]

theorem facetTokensF_at_length (fuel : Nat) (b : List Nat) :
    facetTokensF fuel b.length b = [] := by
  cases fuel <;> simp [facetTokensF]

theorem facetTokensF_spec : ∀ (fuel : Nat) {pos : Nat} {b : List Nat},
    b.length - pos < fuel → pos < b.length →
    facetTokensF fuel pos b
      = (sepPosAux (b.drop (pos + 1)) (pos + 1)).map (fun q => b.take q) ++ [b] := by
  intro fuel
  induction fuel with
  | zero => intro pos b hf _; exact absurd hf (Nat.not_lt_zero _)
  | succ fuel ih =>
    intro pos b hf hp
    simp only [facetTokensF]
    rw [if_neg (Nat.ne_of_lt hp)]
    cases hpos : position31 (b.drop (pos + 1)) with
    | none =>
      dsimp only
      rw [sepPosAux_not_mem (position31_none hpos)]
      simp [List.take_length, facetTokensF_at_length]
    | some p =>
      dsimp only
      obtain ⟨u, v, hdec, hlen, hnot⟩ := position31_some hpos
      have hdl : (b.drop (pos + 1)).length = b.length - (pos + 1) :=
        List.length_drop _ _
      have hlenu : u.length + 1 + v.length = b.length - (pos + 1) := by
        rw [← hdl, hdec]
        simp
        omega
      have hlt : p + pos + 1 < b.length := by omega
      have hdrop2 : b.drop (p + pos + 1 + 1) = v := by
        have e1 : b.drop (p + pos + 1 + 1) = (b.drop (pos + 1)).drop (p + 1) := by
          rw [List.drop_drop]
          congr 1
          omega
        rw [e1, hdec, ← hlen]
        rw [show u ++ SEP_BYTE :: v = (u ++ [SEP_BYTE]) ++ v by simp]
        rw [show u.length + 1 = (u ++ [SEP_BYTE]).length by simp]
        exact List.drop_left _ _
      rw [hdec, sepPosAux_append hnot, List.map_cons]
      have e5 : pos + 1 + u.length = p + pos + 1 := by omega
      rw [e5]
      have hrec := @ih (p + pos + 1) b (by omega) hlt
      rw [hdrop2] at hrec
      rw [hrec, List.cons_append]

theorem facetTokens_eq_prefixes {b : List Nat} (hne : b ≠ [])
    (hh : b.head? ≠ some SEP_BYTE) : facetTokens b = facetPrefixes b := by
  cases b with
  | nil => exact absurd rfl hne
  | cons h t =>
    have hh2 : h ≠ SEP_BYTE := by
      intro he
      exact hh (by simp [he])
    unfold facetTokens facetPrefixes sepPositions
    rw [facetTokensF_spec ((h :: t).length + 1) (by omega) (by simp)]
    simp only [sepPosAux]
    rw [if_neg hh2]
    have hd : List.drop (0 + 1) (h :: t) = t := rfl
    rw [hd]

theorem bytesLt_sep_append (root rest : List Nat) :
    bytesLt (root ++ SEP_BYTE :: rest) (root ++ [1]) = false := by
  induction root with
  | nil => simp [bytesLt, SEP_BYTE]
  | cons r rs ih => simp [bytesLt, ih]

/-- C2: the claim says the facet depth of encoded bytes `b`, as used by
`FacetCounts::with_depth`, is `0` for empty `b` and otherwise the number of
`0x1F` bytes plus one.  The code counts `0x00` bytes instead: on
`top0<0x1F>mid0` it answers `1` where the claim (and the expectation of the
repository's own `with_depth(1)` test) requires `2`; consequently the
depth-bucketed iterator treats every facet as depth `1` and emits leaf keys
with accumulated counts instead of the top-level buckets. -/
theorem claim_C2_facet_depth_bug :
    facet_depth [116, 111, 112, 48] = 1 ∧
    facet_depth ([116, 111, 112, 48] ++ SEP_BYTE :: [109, 105, 100, 48]) = 1 ∧
    facetDepthSpec ([116, 111, 112, 48] ++ SEP_BYTE :: [109, 105, 100, 48]) = 2 ∧
    facetsWithDepth [] 1
      [([97], 0), ([97, 31, 98], 0), ([97, 31, 98, 31, 99], 10),
       ([97, 31, 98, 31, 100], 10), ([101], 0), ([101, 31, 102], 0),
       ([101, 31, 102, 31, 103], 10)]
      = [([97, 31, 98, 31, 99], 20), ([97, 31, 98, 31, 100], 10),
         ([101, 31, 102, 31, 103], 20)] := by decide

/-- C3: the claim says `FacetCounts::iter` for a non-root root `r` enumerates
the facets with encoded bytes in `[r, r ++ 0x01)` and that this set is `r`
itself plus all its descendants.  The range bound is as the code writes it,
but since the separator byte `0x1F = 31` sorts above `0x01`, every proper
descendant `r ++ 0x1F ++ ...` lies outside `[r, r ++ 0x01)`: the enumeration
misses all descendants (the repository's own `root(/top1)` collector test
expects the twenty `/top1/...` leaves). -/
theorem claim_C3_range_excludes_descendants :
    (∀ root rest : List Nat, inCodeRange root (root ++ SEP_BYTE :: rest) = false) ∧
    inCodeRange [116, 111, 112, 49] [116, 111, 112, 49, 31, 109, 105, 100, 48]
      = false ∧
    isSelfOrDescendant [116, 111, 112, 49]
      [116, 111, 112, 49, 31, 109, 105, 100, 48] = true ∧
    inCodeRange [116, 111, 112, 49] [116, 111, 112, 49] = true := by
  refine ⟨?_, by decide, by decide, by decide⟩
  intro root rest
  unfold inCodeRange
  rw [bytesLt_sep_append]
  simp

/-- C6: the claim says the cascaded `FstMap` returns `Some(v)` for every
inserted key — including keys that triggered a block flush — and `None`
otherwise.  With the flush threshold at one entry (standing in for the 2 MiB
`CACHE_SIZE`), inserting keys `[1]..[6]` flushes the leaf when `[3]` and `[5]`
arrive; the `ge`-descent of `get` then routes exactly those keys to the block
that was flushed *before* them, which only holds smaller keys, so both lookups
answer `None` even though the keys were inserted.  Keys that did not trigger a
flush, and absent keys, behave as claimed. -/
theorem claim_C6_fst_flush_key_lost :
    fstGet (fstBuild 1
      [([1], 11), ([2], 12), ([3], 13), ([4], 14), ([5], 15), ([6], 16)]) [3]
      = none ∧
    fstGet (fstBuild 1
      [([1], 11), ([2], 12), ([3], 13), ([4], 14), ([5], 15), ([6], 16)]) [5]
      = none ∧
    fstGet (fstBuild 1
      [([1], 11), ([2], 12), ([3], 13), ([4], 14), ([5], 15), ([6], 16)]) [1]
      = some 11 ∧
    fstGet (fstBuild 1
      [([1], 11), ([2], 12), ([3], 13), ([4], 14), ([5], 15), ([6], 16)]) [2]
      = some 12 ∧
    fstGet (fstBuild 1
      [([1], 11), ([2], 12), ([3], 13), ([4], 14), ([5], 15), ([6], 16)]) [4]
      = some 14 ∧
    fstGet (fstBuild 1
      [([1], 11), ([2], 12), ([3], 13), ([4], 14), ([5], 15), ([6], 16)]) [6]
      = some 16 ∧
    fstGet (fstBuild 1
      [([1], 11), ([2], 12), ([3], 13), ([4], 14), ([5], 15), ([6], 16)]) [2, 5]
      = none ∧
    fstGet (fstBuild 1000 [([97, 98, 99], 34), ([97, 98, 99, 100], 346)])
      [97, 98, 99] = some 34 ∧
    fstGet (fstBuild 1000 [([97, 98, 99], 34), ([97, 98, 99, 100], 346)])
      [97, 98, 99, 100] = some 346 ∧
    fstGet (fstBuild 1000 [([97, 98, 99], 34), ([97, 98, 99, 100], 346)])
      [97, 98] = none := by decide

/-- C7 counterexample: the claim promises `k + 1` tokens for *every*
facet-encoded input; the empty encoding (the root facet) has `k = 0` and would
owe one token, but the token stream ends immediately and emits none. -/
theorem claim_C7_counterexample :
    facetTokens [] = [] ∧
    (List.filter (fun c => c = SEP_BYTE) ([] : List Nat)).length + 1 = 1 := by
  decide

/-- C7 (amended): for every non-empty encoded input whose first byte is not a
separator — which covers every facet with a non-empty first step — the
tokenizer emits exactly the separator-bounded prefixes in deepest-last order
(the same list as `Facet::prefixes`), hence `k + 1` tokens for `k` separator
bytes; the empty (root) input instead yields no token, and the encoded
`top<0x1F>a<0x1F>b` yields the string forms `/top`, `/top/a`, `/top/a/b`. -/
theorem claim_C7_tokenizer_prefixes :
    (∀ b : List Nat, b ≠ [] → b.head? ≠ some SEP_BYTE →
      facetTokens b = facetPrefixes b ∧
      (facetTokens b).length
        = (b.filter (fun c => c = SEP_BYTE)).length + 1) ∧
    facetTokens [] = [] ∧
    (facetTokens [116, 111, 112, 31, 97, 31, 98]).map facetToStringBytes
      = [[47, 116, 111, 112], [47, 116, 111, 112, 47, 97],
         [47, 116, 111, 112, 47, 97, 47, 98]] := by
  refine ⟨?_, by decide, by decide⟩
  intro b hne hh
  have he := facetTokens_eq_prefixes hne hh
  refine ⟨he, ?_⟩
  rw [he]
  unfold facetPrefixes sepPositions
  simp [sepPosAux_length]

/-- C7 witness: the amended statement applied to the encoded facet
`top<0x1F>a<0x1F>b`. -/
theorem claim_C7_witness :
    facetTokens [116, 111, 112, 31, 97, 31, 98]
        = facetPrefixes [116, 111, 112, 31, 97, 31, 98] ∧
    (facetTokens [116, 111, 112, 31, 97, 31, 98]).length
        = (([116, 111, 112, 31, 97, 31, 98] : List Nat).filter
            (fun c => c = SEP_BYTE)).length + 1 :=
  claim_C7_tokenizer_prefixes.1 [116, 111, 112, 31, 97, 31, 98]
    (by decide) (by decide)

theorem docIndexAux_getD : ∀ (docs : List (List Nat)) (acc d : Nat),
    d < docs.length →
    (docIndexAux docs acc).getD d 0 = acc + ((docs.take (d + 1)).flatten).length := by
  intro docs
  induction docs with
  | nil => intro acc d hd; simp at hd
  | cons x rest ih =>
    intro acc d hd
    cases d with
    | zero => simp [docIndexAux]
    | succ d =>
      simp only [docIndexAux, List.getD_cons_succ, List.take_succ_cons,
        List.flatten_cons, List.length_append]
      rw [ih (acc + x.length) d (by simpa using hd)]
      omega

theorem idxColumn_getD (docs : List (List Nat)) (d : Nat)
    (h : d ≤ docs.length) :
    (idxColumn docs).getD d 0 = ((docs.take d).flatten).length := by
  cases d with
  | zero => simp [idxColumn]
  | succ d =>
    have hd : d < docs.length := by omega
    simp only [idxColumn, List.getD_cons_succ, writerDocIndex]
    rw [docIndexAux_getD docs 0 d hd]
    simp

theorem range'_map_getD : ∀ (mid pre post : List Nat),
    (List.range' pre.length mid.length).map
      (fun i => (pre ++ (mid ++ post)).getD i 0) = mid := by
  intro mid
  induction mid with
  | nil => intro pre post; simp
  | cons m ms ih =>
    intro pre post
    simp only [List.length_cons, List.range'_succ, List.map_cons]
    congr 1
    · rw [List.getD_append_right pre _ _ _ (Nat.le_refl _)]
      simp
    · have hre : pre ++ (m :: ms ++ post) = (pre ++ [m]) ++ (ms ++ post) := by
        simp
      have hlen : pre.length + 1 = (pre ++ [m]).length := by simp
      rw [hre, hlen, ih (pre ++ [m]) post]

theorem flatten_decompose : ∀ (docs : List (List Nat)) (d : Nat),
    d < docs.length →
    docs.flatten
      = (docs.take d).flatten ++ (docs.getD d [] ++ (docs.drop (d + 1)).flatten) := by
  intro docs
  induction docs with
  | nil => intro d hd; simp at hd
  | cons x rest ih =>
    intro d hd
    cases d with
    | zero => simp
    | succ d =>
      simp only [List.flatten_cons, List.take_succ_cons, List.getD_cons_succ,
        List.drop_succ_cons]
      rw [ih d (by simpa using hd)]
      simp

/-- C8: the multi-valued fast field.  The claim holds with the idx column
modelled from the spec: the writer's `doc_index` (an end offset per document,
pushed after the document's values) serialized behind a leading `0` yields a
column where `idx[d]` is the offset of doc `d`'s first value and
`idx[num_docs]` the `len(vals)` sentinel, and the reader's
`vals[idx[d] .. idx[d+1]]` slice recovers exactly doc `d`'s values. -/
theorem claim_C8_multivalue_roundtrip :
    ∀ (docs : List (List Nat)) (d : Nat), d < docs.length →
      getVals (idxColumn docs) (writerVals docs) d = docs.getD d [] ∧
      (idxColumn docs).getD d 0 = ((docs.take d).flatten).length ∧
      (idxColumn docs).getD docs.length 0 = (writerVals docs).length := by
  intro docs d hd
  have h1 := idxColumn_getD docs d (Nat.le_of_lt hd)
  have h2 := idxColumn_getD docs (d + 1) hd
  have htake : (docs.take (d + 1)).flatten
      = (docs.take d).flatten ++ docs.getD d [] := by
    rw [List.take_succ, List.flatten_append]
    congr 1
    have : docs[d]? = some (docs.getD d []) := by
      rw [List.getElem?_eq_getElem hd, List.getD_eq_getElem _ _ hd]
    rw [this]
    simp
  refine ⟨?_, h1, ?_⟩
  · unfold getVals writerVals
    dsimp only
    rw [h1, h2, htake]
    have hsub : ((docs.take d).flatten ++ docs.getD d []).length
        - ((docs.take d).flatten).length = (docs.getD d []).length := by
      simp
    rw [hsub, flatten_decompose docs d hd]
    exact range'_map_getD (docs.getD d []) ((docs.take d).flatten)
      ((docs.drop (d + 1)).flatten)
  · rw [idxColumn_getD docs docs.length (Nat.le_refl _)]
    unfold writerVals
    simp

/-- C8 witness: the statement applied to two documents with values `[7, 8]`
and `[9]`. -/
theorem claim_C8_witness :
    getVals (idxColumn [[7, 8], [9]]) (writerVals [[7, 8], [9]]) 0 = [7, 8] ∧
    getVals (idxColumn [[7, 8], [9]]) (writerVals [[7, 8], [9]]) 1 = [9] :=
  ⟨(claim_C8_multivalue_roundtrip [[7, 8], [9]] 0 (by decide)).1,
   (claim_C8_multivalue_roundtrip [[7, 8], [9]] 1 (by decide)).1⟩

/-- Byte-wise effect of rendering one encoded byte in the facet string form:
a separator renders as `/`, a slash or backslash as the two replacement bytes
`\` `/`, anything else as itself. -/
def stepByte (c : Nat) : List Nat :=
  if c = SEP_BYTE then [47] else if c = 47 ∨ c = 92 then [92, 47] else [c]

theorem facetToStringBytes_eq : ∀ b : List Nat,
    facetToStringBytes b = 47 :: b.flatMap stepByte := by
  intro b
  induction b with
  | nil => rfl
  | cons c rest ih =>
    unfold facetToStringBytes at *
    by_cases hc : c = SEP_BYTE
    · subst hc
      have hsplit : (SEP_BYTE :: rest).splitOn SEP_BYTE
          = [] :: rest.splitOn SEP_BYTE := by
        show (SEP_BYTE :: rest).splitOnP (fun x => x == SEP_BYTE) = _
        rw [List.splitOnP_cons]
        simp
        rfl
      rw [hsplit]
      simp only [List.map_cons, List.flatten_cons, ih]
      simp [stepByte, escapeSlashes]
    · have hne : rest.splitOn SEP_BYTE ≠ [] := List.splitOnP_ne_nil _ _
      cases hsp : rest.splitOn SEP_BYTE with
      | nil => exact absurd hsp hne
      | cons hchunk t =>
        have hsplit : (c :: rest).splitOn SEP_BYTE = (c :: hchunk) :: t := by
          show (c :: rest).splitOnP (fun x => x == SEP_BYTE) = _
          rw [List.splitOnP_cons]
          have : (c == SEP_BYTE) = false := by simp [hc]
          rw [this]
          simp only [Bool.false_eq_true, if_false]
          have : rest.splitOnP (fun x => x == SEP_BYTE) = hchunk :: t := hsp
          rw [this]
          rfl
        rw [hsp] at ih
        simp only [List.map_cons, List.flatten_cons] at ih
        rw [hsplit]
        simp only [List.map_cons, List.flatten_cons]
        have ihh : escapeSlashes hchunk ++ (t.map
            (fun step => 47 :: escapeSlashes step)).flatten
            = rest.flatMap stepByte := by
          have := ih
          simp only [List.cons_append, List.cons.injEq] at this
          exact this.2
        have hesc : escapeSlashes (c :: hchunk)
            = (if c = 47 ∨ c = 92 then [92, 47] else [c]) ++ escapeSlashes hchunk := by
          unfold escapeSlashes
          simp
        rw [hesc]
        simp only [List.flatMap_cons, stepByte, if_neg hc]
        rw [← ihh]
        simp

theorem mem_flatMap_stepByte {x : Nat} {b : List Nat}
    (h : x ∈ b.flatMap stepByte) : x ≠ SEP_BYTE := by
  induction b with
  | nil => simp at h
  | cons c rest ih =>
    simp only [List.flatMap_cons, List.mem_append] at h
    rcases h with h | h
    · unfold stepByte at h
      by_cases h31 : c = SEP_BYTE
      · rw [if_pos h31] at h
        simp at h
        simp [h, SEP_BYTE]
      · rw [if_neg h31] at h
        by_cases h47 : c = 47 ∨ c = 92
        · rw [if_pos h47] at h
          rcases List.mem_pair.mp h with h | h <;> simp [h, SEP_BYTE]
        · rw [if_neg h47] at h
          simp at h
          rw [h]
          exact h31
    · exact ih h

theorem fromStrLoop_flatMap : ∀ b : List Nat, 92 ∉ b →
    fromStrLoop PState.Idle (b.flatMap stepByte) = b := by
  intro b
  induction b with
  | nil => intro _; rfl
  | cons c rest ih =>
    intro h92
    simp only [List.mem_cons, not_or] at h92
    have ihr := ih h92.2
    simp only [List.flatMap_cons]
    unfold stepByte
    by_cases h31 : c = SEP_BYTE
    · rw [if_pos h31]
      show fromStrLoop PState.Idle (47 :: rest.flatMap stepByte) = c :: rest
      unfold fromStrLoop
      rw [if_neg (by omega), if_pos rfl, ihr, h31]
    · rw [if_neg h31]
      by_cases h47 : c = 47 ∨ c = 92
      · have hc47 : c = 47 := by
          rcases h47 with h | h
          · exact h
          · exact absurd h (fun he => h92.1 he.symm)
        rw [if_pos h47]
        show fromStrLoop PState.Idle (92 :: 47 :: rest.flatMap stepByte) = c :: rest
        unfold fromStrLoop
        rw [if_pos rfl]
        unfold fromStrLoop
        rw [ihr, hc47]
      · rw [if_neg h47]
        show fromStrLoop PState.Idle (c :: rest.flatMap stepByte) = c :: rest
        unfold fromStrLoop
        have hc92 : ¬c = 92 := fun he => h47 (Or.inr he)
        have hc47 : ¬c = 47 := fun he => h47 (Or.inl he)
        rw [if_neg hc92, if_neg hc47, ihr]

/-- C9 counterexample: a facet whose single step is one backslash renders as
`/\/` — the backslash is replaced by the literal two bytes `\` `/` instead of
being escaped — and parsing that string yields the facet whose step is `/`,
not the original backslash; the round trip is broken. -/
theorem claim_C9_counterexample :
    facetToStringBytes [92] = [47, 92, 47] ∧
    facetFromStr [47, 92, 47] = some [47] ∧
    ([47] : List Nat) ≠ [92] := by decide

/-- C9 (amended): rendering escapes `/` correctly (it becomes `\/`), and the
string form round-trips through `Facet::from_str` for every facet whose
encoded bytes contain no backslash `0x5C`; a backslash inside a step is also
rendered as `\/`, so it comes back as `/`. -/
theorem claim_C9_roundtrip_no_backslash :
    (∀ b : List Nat, 92 ∉ b →
      facetFromStr (facetToStringBytes b) = some b) ∧
    facetToStringBytes [97, 47, 98] = [47, 97, 92, 47, 98] ∧
    facetToStringBytes [] = [47] := by
  refine ⟨?_, by decide, by decide⟩
  intro b h92
  rw [facetToStringBytes_eq]
  unfold facetFromStr
  rw [if_neg ?hmem, if_neg (by simp)]
  case hmem =>
    intro hmem
    rcases List.mem_cons.mp hmem with h | h
    · simp [SEP_BYTE] at h
    · exact mem_flatMap_stepByte h rfl
  rw [List.drop_one, List.tail_cons, fromStrLoop_flatMap b h92]

/-- C9 witness: the round trip applied to the facet `/a/b\/c` (encoded
`a<0x1F>b/c`, a slash inside the second step). -/
theorem claim_C9_witness :
    92 ∉ ([97, 31, 98, 47, 99] : List Nat) ∧
    facetFromStr (facetToStringBytes [97, 31, 98, 47, 99])
      = some [97, 31, 98, 47, 99] :=
  ⟨by decide, claim_C9_roundtrip_no_backslash.1 _ (by decide)⟩

/-- C10 counterexample: construction does not reject forbidden step bytes —
`from_str` accepts a step containing `0x00` and `from_path` accepts a step
containing `0x1F` (splicing it into the encoding as an extra separator), so
neither input panics as the claim requires. -/
theorem claim_C10_counterexample :
    facetFromStr [47, 97, 0, 98] = some [97, 0, 98] ∧
    facetFromPath [[97, SEP_BYTE, 98]] = [97, SEP_BYTE, 98] := by decide

/-- C10 (amended): `Facet::from_str` panics exactly on inputs that contain the
separator byte `0x1F` (and on the empty string); a `0x00` byte is not rejected
by either constructor, and `Facet::from_path` performs no validation at all —
a step containing `0x1F` is written through, indistinguishable from an extra
path level. -/
theorem claim_C10_validation :
    (∀ p : List Nat, facetFromStr p = none ↔ (SEP_BYTE ∈ p ∨ p = [])) ∧
    facetFromStr [47, 97, 0, 98] = some [97, 0, 98] ∧
    facetFromPath [[97, 0, 98]] = [97, 0, 98] ∧
    facetFromPath [[97, SEP_BYTE, 98]] = facetFromPath [[97], [98]] := by
  refine ⟨?_, by decide, by decide, by decide⟩
  intro p
  unfold facetFromStr
  by_cases h31 : SEP_BYTE ∈ p
  · simp [h31]
  · by_cases hp : p = []
    · simp [h31, hp]
    · simp [h31, hp]

/-! Sorted-merge and de-duplication helpers used to characterise the union
emissions. -/

/-- Two-way sorted merge, preferring the left stream on ties — the doc order
in which `advance_head` drains two heap children (ties go to either child;
the emitted doc sequence is the same). -/
def mergeL (l r : List Nat) : List Nat := l.merge r (fun a b => decide (a ≤ b))

theorem mergeL_nil_left (r : List Nat) : mergeL [] r = r := List.nil_merge r

theorem mergeL_nil_right (l : List Nat) : mergeL l [] = l := by
  simp [mergeL]

theorem mergeL_cons_cons (a b : Nat) (l r : List Nat) :
    mergeL (a :: l) (b :: r)
      = if a ≤ b then a :: mergeL l (b :: r) else b :: mergeL (a :: l) r := by
  unfold mergeL
  rw [List.cons_merge_cons]
  by_cases hab : a ≤ b
  · rw [if_pos (by simpa using hab), if_pos hab]
  · rw [if_neg (by simpa using hab), if_neg hab]

theorem mergeL_perm (l r : List Nat) : (mergeL l r).Perm (l ++ r) :=
  List.perm_merge _ _ _

theorem mergeL_mem {x : Nat} (l r : List Nat) :
    x ∈ mergeL l r ↔ x ∈ l ∨ x ∈ r := by
  rw [(mergeL_perm l r).mem_iff]
  exact List.mem_append

theorem mergeL_sorted {l r : List Nat} (hl : List.Chain' (· ≤ ·) l)
    (hr : List.Chain' (· ≤ ·) r) : List.Chain' (· ≤ ·) (mergeL l r) := by
  rw [List.chain'_iff_pairwise] at hl hr ⊢
  exact List.Sorted.merge hl hr

theorem mergeL_dropWhile (t : Nat) : ∀ (n : Nat) (l r : List Nat),
    l.length + r.length ≤ n →
    (mergeL l r).dropWhile (fun x => x < t)
      = mergeL (l.dropWhile (fun x => x < t)) (r.dropWhile (fun x => x < t)) := by
  intro n
  induction n with
  | zero =>
    intro l r hn
    have hl : l = [] := by cases l <;> simp_all
    have hr : r = [] := by cases r <;> simp_all
    simp [hl, hr, mergeL_nil_left]
  | succ n ih =>
    intro l r hn
    cases l with
    | nil => simp [mergeL_nil_left]
    | cons a as =>
      cases r with
      | nil => simp [mergeL_nil_right]
      | cons b bs =>
        rw [mergeL_cons_cons]
        by_cases hab : a ≤ b
        · rw [if_pos hab, List.dropWhile_cons]
          by_cases hat : a < t
          · rw [if_pos (by simpa using hat)]
            rw [ih as (b :: bs) (by simp at hn ⊢; omega)]
            rw [List.dropWhile_cons (x := a), if_pos (by simpa using hat)]
          · rw [if_neg (by simpa using hat)]
            have hbt : ¬b < t := by omega
            rw [List.dropWhile_cons (x := a), if_neg (by simpa using hat)]
            rw [List.dropWhile_cons (x := b), if_neg (by simpa using hbt)]
            rw [mergeL_cons_cons, if_pos hab]
        · rw [if_neg hab, List.dropWhile_cons]
          by_cases hbt : b < t
          · rw [if_pos (by simpa using hbt)]
            rw [ih (a :: as) bs (by simp at hn ⊢; omega)]
            rw [List.dropWhile_cons (x := b), if_pos (by simpa using hbt)]
          · rw [if_neg (by simpa using hbt)]
            have hat : ¬a < t := by omega
            rw [List.dropWhile_cons (x := b), if_neg (by simpa using hbt)]
            rw [List.dropWhile_cons (x := a), if_neg (by simpa using hat)]
            rw [mergeL_cons_cons, if_neg hab]

/-- De-duplication against the last emitted doc, the effect of
`UnionDocSet`'s `current` field on an emission stream. -/
def dedupF : Option Nat → List Nat → List Nat
  | _, [] => []
  | c, x :: xs => if some x = c then dedupF c xs else x :: dedupF (some x) xs

theorem dedupF_all_eq {d : Nat} {l : List Nat} (h : ∀ x ∈ l, x = d) :
    dedupF (some d) l = [] := by
  induction l with
  | nil => rfl
  | cons x xs ih =>
    have hx : x = d := h x (by simp)
    simp only [dedupF, hx, if_pos rfl]
    exact ih (fun y hy => h y (by simp [hy]))

theorem dedupF_eq_dropWhile {d : Nat} {l : List Nat} (hall : ∀ x ∈ l, d ≤ x) :
    dedupF (some d) l = dedupF (some d) (l.dropWhile (fun x => x < d + 1)) := by
  induction l with
  | nil => rfl
  | cons x xs ih =>
    have hx : d ≤ x := hall x (by simp)
    by_cases hlt : x < d + 1
    · have hxd : x = d := by omega
      rw [List.dropWhile_cons, if_pos (by simpa using hlt)]
      simp only [dedupF, hxd, if_pos rfl]
      exact ih (fun y hy => hall y (by simp [hy]))
    · rw [List.dropWhile_cons, if_neg (by simpa using hlt)]

theorem dedupF_chain : ∀ (l : List Nat) (c : Option Nat),
    List.Chain' (· ≤ ·) l →
    (∀ v, c = some v → ∀ x ∈ l, v ≤ x) →
    List.Chain' (· < ·) (dedupF c l) ∧
      (∀ y ∈ dedupF c l, ∀ v, c = some v → v < y) ∧
      (∀ y ∈ dedupF c l, y ∈ l) ∧
      (∀ y ∈ l, (∀ v, c = some v → v < y) → y ∈ dedupF c l) := by
  intro l
  induction l with
  | nil =>
    intro c _ _
    refine ⟨List.chain'_nil, by simp [dedupF], by simp [dedupF], by simp⟩
  | cons x xs ih =>
    intro c hch hfloor
    have hch2 : List.Chain' (· ≤ ·) xs := hch.tail
    have hxle : ∀ y ∈ xs, x ≤ y := by
      intro y hy
      rw [List.chain'_iff_pairwise] at hch
      exact List.rel_of_pairwise_cons hch hy
    by_cases hc : some x = c
    · simp only [dedupF, if_pos hc]
      have hfloor2 : ∀ v, c = some v → ∀ y ∈ xs, v ≤ y := by
        intro v hv y hy
        have hvx : v = x := by rw [← hc] at hv; injection hv with h; omega
        rw [hvx]
        exact hxle y hy
      obtain ⟨h1, h2, h3, h4⟩ := ih c hch2 hfloor2
      refine ⟨h1, h2, fun y hy => by simp [h3 y hy], ?_⟩
      intro y hy hyv
      rcases List.mem_cons.mp hy with h | h
      · have h5 : x < y := hyv x hc.symm
        exact absurd (show x < x by omega) (lt_irrefl x)
      · exact h4 y h hyv
    · simp only [dedupF, if_neg hc]
      have hfloor2 : ∀ v, some x = some v → ∀ y ∈ xs, v ≤ y := by
        intro v hv y hy
        injection hv with h
        rw [← h]
        exact hxle y hy
      obtain ⟨h1, h2, h3, h4⟩ := ih (some x) hch2 hfloor2
      refine ⟨?_, ?_, ?_, ?_⟩
      · cases hd : dedupF (some x) xs with
        | nil => simp
        | cons z zs =>
          rw [List.chain'_cons]
          refine ⟨h2 z (by rw [hd]; simp) x rfl, by rw [← hd]; exact h1⟩
      · intro y hy v hcv
        rcases List.mem_cons.mp hy with h | h
        · subst h
          have h5 : v ≤ y := hfloor v hcv y (by simp)
          have h6 : v ≠ y := by
            intro he
            rw [he] at hcv
            exact hc hcv.symm
          omega
        · have h5 : x < y := h2 y h x rfl
          have h6 : v ≤ x := hfloor v hcv x (by simp)
          omega
      · intro y hy
        rcases List.mem_cons.mp hy with h | h
        · simp [h]
        · simp [h3 y h]
      · intro y hy _
        rcases List.mem_cons.mp hy with h | h
        · simp [h]
        · by_cases hyx : y = x
          · rw [hyx]
            exact List.mem_cons_self _ _
          · have h5 : x ≤ y := hxle y h
            have h6 : x < y := by omega
            refine List.mem_cons_of_mem _ (h4 y h ?_)
            intro v hv
            injection hv with h7
            rw [← h7]
            exact h6

theorem dedupF_dropWhile_comm : ∀ (l : List Nat) (c : Option Nat) (t : Nat),
    List.Chain' (· ≤ ·) l →
    (∀ v, c = some v → v < t ∧ ∀ x ∈ l, v ≤ x) →
    (dedupF c l).dropWhile (fun x => x < t)
      = dedupF none (l.dropWhile (fun x => x < t)) := by
  intro l
  induction l with
  | nil => intro c t _ _; cases c <;> rfl
  | cons x xs ih =>
    intro c t hch hc
    have hch2 : List.Chain' (· ≤ ·) xs := hch.tail
    have hxle : ∀ y ∈ xs, x ≤ y := by
      intro y hy
      rw [List.chain'_iff_pairwise] at hch
      exact List.rel_of_pairwise_cons hch hy
    by_cases hcx : some x = c
    · have hx := hc x hcx.symm
      simp only [dedupF, if_pos hcx]
      rw [ih c t hch2 ?floor2]
      case floor2 =>
        intro v hv
        have hvx : v = x := by rw [← hcx] at hv; injection hv with h; omega
        exact ⟨by rw [hvx]; exact hx.1, fun y hy => by rw [hvx]; exact hxle y hy⟩
      rw [List.dropWhile_cons, if_pos (by simpa using hx.1)]
    · simp only [dedupF, if_neg hcx]
      by_cases hxt : x < t
      · rw [List.dropWhile_cons, if_pos (by simpa using hxt)]
        rw [List.dropWhile_cons, if_pos (by simpa using hxt)]
        exact ih (some x) t hch2 (by
          intro v hv
          injection hv with h
          exact ⟨by omega, fun y hy => by rw [← h]; exact hxle y hy⟩)
      · rw [List.dropWhile_cons, if_neg (by simpa using hxt)]
        rw [List.dropWhile_cons, if_neg (by simpa using hxt)]
        rfl

theorem vecSkipGo_end : ∀ (rem : List Nat) (t : Nat) (c : Option Nat)
    {c2 : VecPostings},
    vecSkipGo t c rem = (SkipResult.SEnd, c2) →
    rem.dropWhile (fun x => x < t) = [] ∧ c2.remaining = [] := by
  intro rem
  induction rem with
  | nil =>
    intro t c c2 h
    simp only [vecSkipGo, Prod.mk.injEq] at h
    exact ⟨rfl, by rw [← h.2]⟩
  | cons x xs ih =>
    intro t c c2 h
    simp only [vecSkipGo] at h
    by_cases hgt : x > t
    · rw [if_pos hgt] at h; simp at h
    · rw [if_neg hgt] at h
      by_cases heq : x = t
      · rw [if_pos heq] at h; simp at h
      · rw [if_neg heq] at h
        have hlt : x < t := by omega
        rw [List.dropWhile_cons, if_pos (by simpa using hlt)]
        exact ih t (some x) h

theorem vecSkipGo_reached : ∀ (rem : List Nat) (t : Nat) (c : Option Nat)
    {c2 : VecPostings},
    vecSkipGo t c rem = (SkipResult.Reached, c2) →
    c2.cur = some t ∧ t :: c2.remaining = rem.dropWhile (fun x => x < t) := by
  intro rem
  induction rem with
  | nil => intro t c c2 h; simp [vecSkipGo] at h
  | cons x xs ih =>
    intro t c c2 h
    simp only [vecSkipGo] at h
    by_cases hgt : x > t
    · rw [if_pos hgt] at h; simp at h
    · rw [if_neg hgt] at h
      by_cases heq : x = t
      · rw [if_pos heq] at h
        simp only [Prod.mk.injEq] at h
        rw [← h.2]
        rw [List.dropWhile_cons, if_neg (by simp; omega)]
        exact ⟨by rw [heq], by rw [heq]⟩
      · rw [if_neg heq] at h
        have hlt : x < t := by omega
        rw [List.dropWhile_cons, if_pos (by simpa using hlt)]
        exact ih t (some x) h

theorem vecSkipGo_over : ∀ (rem : List Nat) (t : Nat) (c : Option Nat)
    {c2 : VecPostings},
    vecSkipGo t c rem = (SkipResult.OverStep, c2) →
    ∃ d, c2.cur = some d ∧ t < d ∧
      d :: c2.remaining = rem.dropWhile (fun x => x < t) := by
  intro rem
  induction rem with
  | nil => intro t c c2 h; simp [vecSkipGo] at h
  | cons x xs ih =>
    intro t c c2 h
    simp only [vecSkipGo] at h
    by_cases hgt : x > t
    · rw [if_pos hgt] at h
      simp only [Prod.mk.injEq] at h
      refine ⟨x, by rw [← h.2], hgt, ?_⟩
      rw [← h.2]
      rw [List.dropWhile_cons, if_neg (by simp; omega)]
    · rw [if_neg hgt] at h
      by_cases heq : x = t
      · rw [if_pos heq] at h; simp at h
      · rw [if_neg heq] at h
        have hlt : x < t := by omega
        rw [List.dropWhile_cons, if_pos (by simpa using hlt)]
        exact ih t (some x) h

theorem minHeapItem_le {q : List HeapItem} {it : HeapItem}
    (h : minHeapItem q = some it) : ∀ j ∈ q, it.doc ≤ j.doc := by
  induction q generalizing it with
  | nil => simp [minHeapItem] at h
  | cons a rest ih =>
    intro j hj
    simp only [minHeapItem] at h
    cases hr : minHeapItem rest with
    | none =>
      rw [hr] at h
      have hrest := minHeapItem_eq_none hr
      simp only [Option.some.injEq] at h
      rcases List.mem_cons.mp hj with hja | hjr
      · rw [← h, hja]
      · rw [hrest] at hjr; cases hjr
    | some it2 =>
      rw [hr] at h
      dsimp only at h
      by_cases hle : a.doc ≤ it2.doc
      · rw [if_pos hle] at h
        simp only [Option.some.injEq] at h
        rcases List.mem_cons.mp hj with hja | hjr
        · rw [← h, hja]
        · have := ih hr j hjr
          rw [← h]
          omega
      · rw [if_neg hle] at h
        simp only [Option.some.injEq] at h
        rcases List.mem_cons.mp hj with hja | hjr
        · rw [← h, hja]
          omega
        · rw [← h]
          exact ih hr j hjr

/-! Abstraction of `UnionAllDocSet` states: each live heap item denotes the
stream of its child's current doc followed by the child's pending docs; the
whole state denotes the sorted merge of the item streams. -/

/-- Order invariant of one child: current doc (when started) below all pending
docs, pending docs strictly ascending. -/
def vpOk (v : VecPostings) : Prop :=
  List.Pairwise (· < ·) (v.cur.toList ++ v.remaining)

/-- Stream denoted by one heap item. -/
def itemStream (s : UnionAllDocSet) (it : HeapItem) : List Nat :=
  it.doc :: (s.child it.ord).remaining

/-- Stream denoted by the whole union-all state: the merge of its item
streams. -/
def uaMerged (s : UnionAllDocSet) : List Nat :=
  match s.queue with
  | [] => []
  | [it] => itemStream s it
  | it0 :: it1 :: _ => mergeL (itemStream s it0) (itemStream s it1)

/-- Consistency of one heap item with its child. -/
def itemOk (s : UnionAllDocSet) (it : HeapItem) : Prop :=
  (s.child it.ord).cur = some it.doc ∧ vpOk (s.child it.ord) ∧ s.doc ≤ it.doc

/-- The queue shapes reachable from a two-child construction. -/
def uaShape (s : UnionAllDocSet) : Prop :=
  s.queue = [] ∨ (∃ d, s.queue = [⟨d, 0⟩]) ∨ (∃ d, s.queue = [⟨d, 1⟩]) ∨
    (∃ d0 d1, s.queue = [⟨d0, 0⟩, ⟨d1, 1⟩])

/-- Full state invariant of the two-child `UnionAllDocSet`. -/
def uaOk (s : UnionAllDocSet) : Prop :=
  uaShape s ∧ ∀ it ∈ s.queue, itemOk s it

theorem itemOk_stream_chain {s : UnionAllDocSet} {it : HeapItem}
    (h : itemOk s it) : List.Chain' (· < ·) (itemStream s it) := by
  obtain ⟨h1, h2, _⟩ := h
  unfold vpOk at h2
  rw [h1] at h2
  unfold itemStream
  rw [List.chain'_iff_pairwise]
  exact h2

theorem itemOk_stream_floor {s : UnionAllDocSet} {it : HeapItem}
    (h : itemOk s it) : ∀ x ∈ itemStream s it, s.doc ≤ x := by
  obtain ⟨h1, h2, h3⟩ := h
  unfold vpOk at h2
  rw [h1] at h2
  intro x hx
  unfold itemStream at hx
  rcases List.mem_cons.mp hx with hh | hh
  · omega
  · have := List.rel_of_pairwise_cons h2 hh
    omega

theorem uaMerged_sorted {s : UnionAllDocSet} (hok : uaOk s) :
    List.Chain' (· ≤ ·) (uaMerged s) := by
  obtain ⟨hshape, hitems⟩ := hok
  rcases hshape with h | ⟨d, h⟩ | ⟨d, h⟩ | ⟨d0, d1, h⟩ <;> unfold uaMerged <;> rw [h]
  · exact List.chain'_nil
  · exact (itemOk_stream_chain (hitems _ (by rw [h]; simp))).imp
      (fun _ _ hx => Nat.le_of_lt hx)
  · exact (itemOk_stream_chain (hitems _ (by rw [h]; simp))).imp
      (fun _ _ hx => Nat.le_of_lt hx)
  · exact mergeL_sorted
      ((itemOk_stream_chain (hitems _ (by rw [h]; simp))).imp
        (fun _ _ hx => Nat.le_of_lt hx))
      ((itemOk_stream_chain (hitems _ (by rw [h]; simp))).imp
        (fun _ _ hx => Nat.le_of_lt hx))

theorem uaMerged_floor {s : UnionAllDocSet} (hok : uaOk s) :
    ∀ x ∈ uaMerged s, s.doc ≤ x := by
  obtain ⟨hshape, hitems⟩ := hok
  intro x hx
  rcases hshape with h | ⟨d, h⟩ | ⟨d, h⟩ | ⟨d0, d1, h⟩ <;>
    unfold uaMerged at hx <;> rw [h] at hx
  · simp at hx
  · exact itemOk_stream_floor (hitems _ (by rw [h]; simp)) x hx
  · exact itemOk_stream_floor (hitems _ (by rw [h]; simp)) x hx
  · rcases (mergeL_mem _ _).mp hx with hm | hm
    · exact itemOk_stream_floor (hitems _ (by rw [h]; simp)) x hm
    · exact itemOk_stream_floor (hitems _ (by rw [h]; simp)) x hm

theorem advanceHead_single {s : UnionAllDocSet} {d o : Nat}
    (hq : s.queue = [⟨d, o⟩]) :
    s.advanceHead =
      match (s.child o).advance with
      | (true, c) =>
        (({ s with doc := d, queue := [⟨c.doc, o⟩] } : UnionAllDocSet).setChild o c)
      | (false, c) =>
        (({ s with doc := d, queue := [] } : UnionAllDocSet).setChild o c) := by
  unfold UnionAllDocSet.advanceHead
  rw [hq]
  have hmin : minHeapItem [⟨d, o⟩] = some ⟨d, o⟩ := rfl
  rw [hmin]
  dsimp only
  cases hadv : (s.child o).advance with
  | mk ok c =>
    cases ok <;> dsimp only <;> simp [hq]

theorem advanceHead_two_left {s : UnionAllDocSet} {d0 d1 : Nat}
    (hq : s.queue = [⟨d0, 0⟩, ⟨d1, 1⟩]) (hle : d0 ≤ d1) :
    s.advanceHead =
      match s.c0.advance with
      | (true, c) =>
        { s with doc := d0, queue := [⟨c.doc, 0⟩, ⟨d1, 1⟩], c0 := c }
      | (false, c) => { s with doc := d0, queue := [⟨d1, 1⟩], c0 := c } := by
  unfold UnionAllDocSet.advanceHead
  rw [hq]
  have hmin : minHeapItem [⟨d0, 0⟩, ⟨d1, 1⟩] = some ⟨d0, 0⟩ := by
    simp [minHeapItem, hle]
  rw [hmin]
  dsimp only
  have hch : s.child (0 : Nat) = s.c0 := rfl
  rw [hch]
  cases hadv : s.c0.advance with
  | mk ok c =>
    cases ok <;> dsimp only <;> simp [hq, UnionAllDocSet.setChild]

theorem advanceHead_two_right {s : UnionAllDocSet} {d0 d1 : Nat}
    (hq : s.queue = [⟨d0, 0⟩, ⟨d1, 1⟩]) (hgt : ¬d0 ≤ d1) :
    s.advanceHead =
      match s.c1.advance with
      | (true, c) =>
        { s with doc := d1, queue := [⟨d0, 0⟩, ⟨c.doc, 1⟩], c1 := c }
      | (false, c) => { s with doc := d1, queue := [⟨d0, 0⟩], c1 := c } := by
  unfold UnionAllDocSet.advanceHead
  rw [hq]
  have hmin : minHeapItem [⟨d0, 0⟩, ⟨d1, 1⟩] = some ⟨d1, 1⟩ := by
    simp [minHeapItem, hgt]
  rw [hmin]
  dsimp only
  have hch : s.child (1 : Nat) = s.c1 := rfl
  rw [hch]
  cases hadv : s.c1.advance with
  | mk ok c =>
    cases ok <;> dsimp only <;> simp [hq, UnionAllDocSet.setChild]


theorem vpOk_some {v : VecPostings} {d : Nat} (hc : v.cur = some d)
    (h : vpOk v) : List.Pairwise (· < ·) (d :: v.remaining) := by
  unfold vpOk at h
  rw [hc] at h
  simpa using h

theorem vpOk_of_pairwise {d : Nat} {rem : List Nat}
    (h : List.Pairwise (· < ·) (d :: rem)) :
    vpOk ⟨some d, rem⟩ := by
  unfold vpOk
  simpa using h

theorem vec_advance_eq (v : VecPostings) :
    v.advance = match v.remaining with
      | [] => (false, v)
      | x :: xs => (true, ⟨some x, xs⟩) := by
  cases v with
  | mk c rem => cases rem <;> rfl

theorem ua_advance_true {s s2 : UnionAllDocSet} (hok : uaOk s)
    (h : s.advance = (true, s2)) :
    uaOk s2 ∧ s2.finished = false ∧ s.doc ≤ s2.doc ∧
    uaMerged s = s2.doc :: uaMerged s2 := by
  obtain ⟨hshape, hitems⟩ := hok
  unfold UnionAllDocSet.advance at h
  by_cases hf : s.finished = true
  · rw [if_pos hf] at h; simp at h
  · have hf' : s.finished = false := by simpa using hf
    rw [if_neg hf] at h
    by_cases hq0 : s.queue.isEmpty = true
    · rw [if_pos hq0] at h; simp at h
    · rw [if_neg hq0] at h
      simp only [Prod.mk.injEq, true_and] at h
      rcases hshape with hq | ⟨d, hq⟩ | ⟨d, hq⟩ | ⟨d0, d1, hq⟩
      · rw [hq] at hq0; simp at hq0
      · -- single live child of ordinal 0
        obtain ⟨hcur, hvp, hdoc⟩ := hitems ⟨d, 0⟩ (by rw [hq]; simp)
        simp [UnionAllDocSet.child] at hcur hvp
        have hp := vpOk_some hcur hvp
        have hms : uaMerged s = d :: s.c0.remaining := by
          unfold uaMerged itemStream
          rw [hq]
          rfl
        rw [advanceHead_single hq] at h
        rw [show s.child (0 : Nat) = s.c0 from rfl, vec_advance_eq] at h
        cases hrem : s.c0.remaining with
        | nil =>
          rw [hrem] at h
          try dsimp only at h
          try simp [UnionAllDocSet.setChild] at h
          subst h
          refine ⟨⟨Or.inl rfl, ?_⟩, hf', hdoc, ?_⟩
          · intro it hit
            simp at hit
          · rw [hms, hrem]
            simp [uaMerged]
        | cons x xs =>
          rw [hrem] at h
          try dsimp only at h
          try simp [UnionAllDocSet.setChild] at h
          subst h
          rw [hrem] at hp
          have hdx : (d : Nat) < x :=
            List.rel_of_pairwise_cons hp (List.mem_cons_self x xs)
          refine ⟨⟨Or.inr (Or.inl ⟨x, by simp [VecPostings.doc]⟩), ?_⟩,
            hf', hdoc, ?_⟩
          · intro it hit
            simp only [List.mem_singleton] at hit
            subst hit
            refine ⟨?_, ?_, ?_⟩
            · simp [UnionAllDocSet.child, VecPostings.doc]
            · exact vpOk_of_pairwise hp.tail
            · exact (by omega : (d : Nat) ≤ x)
          · rw [hms, hrem]
            simp [uaMerged, itemStream, UnionAllDocSet.child, VecPostings.doc]
      · -- single live child of ordinal 1
        obtain ⟨hcur, hvp, hdoc⟩ := hitems ⟨d, 1⟩ (by rw [hq]; simp)
        simp [UnionAllDocSet.child] at hcur hvp
        have hp := vpOk_some hcur hvp
        have hms : uaMerged s = d :: s.c1.remaining := by
          unfold uaMerged itemStream
          rw [hq]
          rfl
        rw [advanceHead_single hq] at h
        rw [show s.child (1 : Nat) = s.c1 from rfl, vec_advance_eq] at h
        cases hrem : s.c1.remaining with
        | nil =>
          rw [hrem] at h
          try dsimp only at h
          try simp [UnionAllDocSet.setChild] at h
          subst h
          refine ⟨⟨Or.inl rfl, ?_⟩, hf', hdoc, ?_⟩
          · intro it hit
            simp at hit
          · rw [hms, hrem]
            simp [uaMerged]
        | cons x xs =>
          rw [hrem] at h
          try dsimp only at h
          try simp [UnionAllDocSet.setChild] at h
          subst h
          rw [hrem] at hp
          have hdx : (d : Nat) < x :=
            List.rel_of_pairwise_cons hp (List.mem_cons_self x xs)
          refine ⟨⟨Or.inr (Or.inr (Or.inl ⟨x, by simp [VecPostings.doc]⟩)), ?_⟩,
            hf', hdoc, ?_⟩
          · intro it hit
            simp only [List.mem_singleton] at hit
            subst hit
            refine ⟨?_, ?_, ?_⟩
            · simp [UnionAllDocSet.child, VecPostings.doc]
            · exact vpOk_of_pairwise hp.tail
            · exact (by omega : (d : Nat) ≤ x)
          · rw [hms, hrem]
            simp [uaMerged, itemStream, UnionAllDocSet.child, VecPostings.doc]
      · -- two live children
        obtain ⟨hcur0, hvp0, hdoc0⟩ := hitems ⟨d0, 0⟩ (by rw [hq]; simp)
        obtain ⟨hcur1, hvp1, hdoc1⟩ := hitems ⟨d1, 1⟩ (by rw [hq]; simp)
        simp [UnionAllDocSet.child] at hcur0 hvp0 hcur1 hvp1
        have hp0 := vpOk_some hcur0 hvp0
        have hp1 := vpOk_some hcur1 hvp1
        have hms : uaMerged s
            = mergeL (d0 :: s.c0.remaining) (d1 :: s.c1.remaining) := by
          unfold uaMerged itemStream
          rw [hq]
          rfl
        by_cases hle : d0 ≤ d1
        · rw [advanceHead_two_left hq hle, vec_advance_eq] at h
          cases hrem : s.c0.remaining with
          | nil =>
            rw [hrem] at h
            try dsimp only at h
            subst h
            refine ⟨⟨Or.inr (Or.inr (Or.inl ⟨d1, rfl⟩)), ?_⟩, hf', hdoc0, ?_⟩
            · intro it hit
              simp only [List.mem_singleton] at hit
              subst hit
              exact ⟨hcur1, hvp1, hle⟩
            · rw [hms, hrem, mergeL_cons_cons, if_pos hle, mergeL_nil_left]
              simp [uaMerged, itemStream, UnionAllDocSet.child]
          | cons x xs =>
            rw [hrem] at h
            try dsimp only at h
            subst h
            rw [hrem] at hp0
            have hdx : (d0 : Nat) < x :=
              List.rel_of_pairwise_cons hp0 (List.mem_cons_self x xs)
            refine ⟨⟨Or.inr (Or.inr (Or.inr
              ⟨x, d1, by simp [VecPostings.doc]⟩)), ?_⟩, hf', hdoc0, ?_⟩
            · intro it hit
              simp [VecPostings.doc] at hit
              rcases hit with hit | hit
              · subst hit
                refine ⟨?_, ?_, ?_⟩
                · simp [UnionAllDocSet.child, VecPostings.doc]
                · exact vpOk_of_pairwise hp0.tail
                · exact (by omega : (d0 : Nat) ≤ x)
              · subst hit
                exact ⟨hcur1, hvp1, hle⟩
            · rw [hms, hrem, mergeL_cons_cons, if_pos hle]
              simp [uaMerged, itemStream, UnionAllDocSet.child, VecPostings.doc]
        · rw [advanceHead_two_right hq hle, vec_advance_eq] at h
          cases hrem : s.c1.remaining with
          | nil =>
            rw [hrem] at h
            try dsimp only at h
            subst h
            refine ⟨⟨Or.inr (Or.inl ⟨d0, rfl⟩), ?_⟩, hf', hdoc1, ?_⟩
            · intro it hit
              simp only [List.mem_singleton] at hit
              subst hit
              exact ⟨hcur0, hvp0, (by omega : (d1 : Nat) ≤ d0)⟩
            · rw [hms, hrem, mergeL_cons_cons, if_neg hle, mergeL_nil_right]
              simp [uaMerged, itemStream, UnionAllDocSet.child]
          | cons y ys =>
            rw [hrem] at h
            try dsimp only at h
            subst h
            rw [hrem] at hp1
            have hdy : (d1 : Nat) < y :=
              List.rel_of_pairwise_cons hp1 (List.mem_cons_self y ys)
            refine ⟨⟨Or.inr (Or.inr (Or.inr
              ⟨d0, y, by simp [VecPostings.doc]⟩)), ?_⟩, hf', hdoc1, ?_⟩
            · intro it hit
              simp [VecPostings.doc] at hit
              rcases hit with hit | hit
              · subst hit
                exact ⟨hcur0, hvp0, (by omega : (d1 : Nat) ≤ d0)⟩
              · subst hit
                refine ⟨?_, ?_, ?_⟩
                · simp [UnionAllDocSet.child, VecPostings.doc]
                · exact vpOk_of_pairwise hp1.tail
                · exact (by omega : (d1 : Nat) ≤ y)
            · rw [hms, hrem, mergeL_cons_cons, if_neg hle]
              simp [uaMerged, itemStream, UnionAllDocSet.child, VecPostings.doc]

theorem ua_advance_false {s s2 : UnionAllDocSet} (hok : uaOk s)
    (h : s.advance = (false, s2)) :
    uaOk s2 ∧ s2.doc = s.doc ∧ uaMerged s2 = uaMerged s ∧
      (s.finished = false → uaMerged s = []) := by
  obtain ⟨hshape, hitems⟩ := hok
  unfold UnionAllDocSet.advance at h
  by_cases hf : s.finished = true
  · rw [if_pos hf] at h
    simp only [Prod.mk.injEq, true_and] at h
    subst h
    refine ⟨⟨hshape, hitems⟩, rfl, rfl, ?_⟩
    intro hff
    rw [hf] at hff
    simp at hff
  · rw [if_neg hf] at h
    by_cases hq0 : s.queue.isEmpty = true
    · rw [if_pos hq0] at h
      simp only [Prod.mk.injEq, true_and] at h
      subst h
      have hqnil : s.queue = [] := by
        cases hq : s.queue with
        | nil => rfl
        | cons a l => rw [hq] at hq0; simp at hq0
      refine ⟨⟨Or.inl hqnil, ?_⟩, rfl, ?_, fun _ => ?_⟩
      · intro it hit
        rw [hqnil] at hit
        simp at hit
      · simp [uaMerged, hqnil]
      · simp [uaMerged, hqnil]
    · rw [if_neg hq0] at h
      simp at h

theorem ua_emit_merged_aux : ∀ (n : Nat) (s : UnionAllDocSet), uaM s ≤ n →
    uaOk s → s.finished = false → s.emit = uaMerged s := by
  intro n
  induction n with
  | zero =>
    intro s hle hok hf
    rw [ua_emit_eq]
    cases hadv : s.advance with
    | mk ok s2 =>
      cases ok with
      | false =>
        obtain ⟨_, _, _, hnil⟩ := ua_advance_false hok hadv
        dsimp only
        rw [hnil hf]
      | true =>
        have hlt := ua_advance_uaM hadv
        omega
  | succ n ih =>
    intro s hle hok hf
    rw [ua_emit_eq]
    cases hadv : s.advance with
    | mk ok s2 =>
      cases ok with
      | false =>
        obtain ⟨_, _, _, hnil⟩ := ua_advance_false hok hadv
        dsimp only
        rw [hnil hf]
      | true =>
        obtain ⟨hok2, hf2, _, hm⟩ := ua_advance_true hok hadv
        have hlt := ua_advance_uaM hadv
        dsimp only
        rw [hm, ih s2 (by omega) hok2 hf2]

theorem ua_emit_merged {s : UnionAllDocSet} (hok : uaOk s)
    (hf : s.finished = false) : s.emit = uaMerged s :=
  ua_emit_merged_aux (uaM s) s (Nat.le_refl _) hok hf

theorem mkUnionAll_nil_nil : mkUnionAll [] [] =
    { c0 := ⟨none, []⟩, c1 := ⟨none, []⟩, queue := [],
      finished := false, doc := 0 } := rfl

theorem mkUnionAll_cons_nil (x : Nat) (xs : List Nat) :
    mkUnionAll (x :: xs) [] =
    { c0 := ⟨some x, xs⟩, c1 := ⟨none, []⟩, queue := [⟨x, 0⟩],
      finished := false, doc := 0 } := rfl

theorem mkUnionAll_nil_cons (y : Nat) (ys : List Nat) :
    mkUnionAll [] (y :: ys) =
    { c0 := ⟨none, []⟩, c1 := ⟨some y, ys⟩, queue := [⟨y, 1⟩],
      finished := false, doc := 0 } := rfl

theorem mkUnionAll_cons_cons (x y : Nat) (xs ys : List Nat) :
    mkUnionAll (x :: xs) (y :: ys) =
    { c0 := ⟨some x, xs⟩, c1 := ⟨some y, ys⟩, queue := [⟨x, 0⟩, ⟨y, 1⟩],
      finished := false, doc := 0 } := rfl

theorem mkUnionAll_spec {a b : List Nat} (ha : List.Pairwise (· < ·) a)
    (hb : List.Pairwise (· < ·) b) :
    uaOk (mkUnionAll a b) ∧ (mkUnionAll a b).finished = false ∧
      uaMerged (mkUnionAll a b) = mergeL a b := by
  cases a with
  | nil =>
    cases b with
    | nil =>
      rw [mkUnionAll_nil_nil]
      refine ⟨⟨Or.inl rfl, ?_⟩, rfl, ?_⟩
      · intro it hit
        simp at hit
      · rw [mergeL_nil_left]
        simp [uaMerged]
    | cons y ys =>
      rw [mkUnionAll_nil_cons]
      refine ⟨⟨Or.inr (Or.inr (Or.inl ⟨y, rfl⟩)), ?_⟩, rfl, ?_⟩
      · intro it hit
        simp only [List.mem_singleton] at hit
        subst hit
        exact ⟨rfl, vpOk_of_pairwise hb, Nat.zero_le _⟩
      · rw [mergeL_nil_left]
        simp [uaMerged]
        rfl
  | cons x xs =>
    cases b with
    | nil =>
      rw [mkUnionAll_cons_nil]
      refine ⟨⟨Or.inr (Or.inl ⟨x, rfl⟩), ?_⟩, rfl, ?_⟩
      · intro it hit
        simp only [List.mem_singleton] at hit
        subst hit
        exact ⟨rfl, vpOk_of_pairwise ha, Nat.zero_le _⟩
      · rw [mergeL_nil_right]
        rfl
    | cons y ys =>
      rw [mkUnionAll_cons_cons]
      refine ⟨⟨Or.inr (Or.inr (Or.inr ⟨x, y, rfl⟩)), ?_⟩, rfl, ?_⟩
      · intro it hit
        simp only [List.mem_cons, List.mem_singleton] at hit
        rcases hit with hit | hit | hit
        · subst hit
          exact ⟨rfl, vpOk_of_pairwise ha, Nat.zero_le _⟩
        · subst hit
          exact ⟨rfl, vpOk_of_pairwise hb, Nat.zero_le _⟩
        · simp at hit
      · simp [uaMerged, itemStream, UnionAllDocSet.child]

theorem pairwise_dropWhile_cons {l : List Nat} {p : Nat → Bool} {d : Nat}
    {rem : List Nat} (hl : List.Pairwise (· < ·) l)
    (h : l.dropWhile p = d :: rem) :
    List.Pairwise (· < ·) (d :: rem) := by
  rw [← h]
  exact hl.sublist (List.dropWhile_sublist p)

theorem skipNextItem_spec {t : Nat} {it : HeapItem} {c : VecPostings}
    (hcur : c.cur = some it.doc) (hvp : vpOk c) :
    ∀ it2 c2 f, skipNextItem t it c = (it2, c2, f) →
      ((it.doc :: c.remaining).dropWhile (fun x => x < t) = [] ∧
        it2 = none ∧ f = false) ∨
      (∃ d rem, (it.doc :: c.remaining).dropWhile (fun x => x < t) = d :: rem ∧
        it2 = some ⟨d, it.ord⟩ ∧ c2.cur = some d ∧ c2.remaining = rem ∧
        vpOk c2 ∧ (f = true ↔ d = t)) := by
  intro it2 c2 f h
  have hpw : List.Pairwise (· < ·) (it.doc :: c.remaining) := vpOk_some hcur hvp
  unfold skipNextItem at h
  by_cases h1 : it.doc = t
  · rw [if_pos h1] at h
    simp only [Prod.mk.injEq] at h
    obtain ⟨e1, e2, e3⟩ := h
    refine Or.inr ⟨it.doc, c.remaining, ?_, ?_, ?_, ?_, ?_, ?_⟩
    · rw [List.dropWhile_cons]
      simp [h1]
    · rw [← e1]
    · rw [← e2, hcur]
    · rw [← e2]
    · rw [← e2]; exact hvp
    · simp [← e3, h1]
  · by_cases h2 : it.doc > t
    · rw [if_neg h1, if_pos h2] at h
      simp only [Prod.mk.injEq] at h
      obtain ⟨e1, e2, e3⟩ := h
      refine Or.inr ⟨it.doc, c.remaining, ?_, ?_, ?_, ?_, ?_, ?_⟩
      · rw [List.dropWhile_cons]
        simp
        omega
      · rw [← e1]
      · rw [← e2, hcur]
      · rw [← e2]
      · rw [← e2]; exact hvp
      · simp [← e3]
        omega
    · have hlt : it.doc < t := by omega
      rw [if_neg h1, if_neg h2] at h
      have hdw : (it.doc :: c.remaining).dropWhile (fun x => x < t)
          = c.remaining.dropWhile (fun x => x < t) := by
        rw [List.dropWhile_cons]
        simp [hlt]
      cases hskip : c.skipNext t with
      | mk r cc =>
        unfold VecPostings.skipNext at hskip
        cases r with
        | SEnd =>
          rw [VecPostings.skipNext, hskip] at h
          simp only [Prod.mk.injEq] at h
          obtain ⟨e1, _, e3⟩ := h
          obtain ⟨hd1, _⟩ := vecSkipGo_end c.remaining t c.cur hskip
          exact Or.inl ⟨by rw [hdw, hd1], e1.symm, e3.symm⟩
        | Reached =>
          rw [VecPostings.skipNext, hskip] at h
          simp only [Prod.mk.injEq] at h
          obtain ⟨e1, e2, e3⟩ := h
          obtain ⟨hc1, hc2⟩ := vecSkipGo_reached c.remaining t c.cur hskip
          refine Or.inr ⟨t, cc.remaining, ?_, ?_, ?_, ?_, ?_, ?_⟩
          · rw [hdw, ← hc2]
          · rw [← e1]
          · rw [← e2, hc1]
          · rw [← e2]
          · rw [← e2]
            unfold vpOk
            rw [hc1]
            exact pairwise_dropWhile_cons hpw.tail hc2.symm
          · simp [← e3]
        | OverStep =>
          rw [VecPostings.skipNext, hskip] at h
          simp only [Prod.mk.injEq] at h
          obtain ⟨e1, e2, e3⟩ := h
          obtain ⟨d, hc1, hc2, hc3⟩ := vecSkipGo_over c.remaining t c.cur hskip
          refine Or.inr ⟨d, cc.remaining, ?_, ?_, ?_, ?_, ?_, ?_⟩
          · rw [hdw, ← hc3]
          · rw [← e1]
            have : cc.doc = d := by
              unfold VecPostings.doc
              rw [hc1]
              rfl
            rw [this]
          · rw [← e2, hc1]
          · rw [← e2]
          · rw [← e2]
            unfold vpOk
            rw [hc1]
            exact pairwise_dropWhile_cons hpw.tail hc3.symm
          · constructor
            · intro hff
              rw [← e3] at hff
              simp at hff
            · intro hdt
              omega

theorem dropWhile_head_false {p : Nat → Bool} : ∀ {l : List Nat} {d : Nat}
    {rem : List Nat}, l.dropWhile p = d :: rem → p d = false := by
  intro l
  induction l with
  | nil => intro d rem h; simp at h
  | cons x xs ih =>
    intro d rem h
    rw [List.dropWhile_cons] at h
    by_cases hp : p x = true
    · rw [if_pos hp] at h
      exact ih h
    · rw [if_neg hp] at h
      obtain ⟨h1, _⟩ := List.cons.injEq .. ▸ h
      rw [← h1]
      simpa using hp

theorem dropWhile_head_mem {p : Nat → Bool} {l : List Nat} {d : Nat}
    {rem : List Nat} (h : l.dropWhile p = d :: rem) : d ∈ l := by
  have : d ∈ l.dropWhile p := by rw [h]; exact List.mem_cons_self d rem
  exact (List.dropWhile_sublist p).subset this

theorem skipNextQueue_char {s : UnionAllDocSet} {t : Nat} (hok : uaOk s) :
    ∀ q2 s2 f, skipNextQueue t s s.queue = (q2, s2, f) →
      s2.queue = s.queue ∧ s2.finished = s.finished ∧ s2.doc = s.doc ∧
      uaShape { s2 with queue := q2 } ∧
      (∀ it ∈ q2, ({ s2 with queue := q2 }.child it.ord).cur = some it.doc ∧
        vpOk ({ s2 with queue := q2 }.child it.ord) ∧ t ≤ it.doc ∧
        s.doc ≤ it.doc) ∧
      uaMerged { s2 with queue := q2 }
        = (uaMerged s).dropWhile (fun x => x < t) ∧
      (f = true ↔ ∃ it ∈ q2, it.doc = t) := by
  obtain ⟨hshape, hitems⟩ := hok
  intro q2 s2 f h
  rcases hshape with hq | ⟨d, hq⟩ | ⟨d, hq⟩ | ⟨d0, d1, hq⟩
  · rw [hq] at h
    simp only [skipNextQueue, Prod.mk.injEq] at h
    obtain ⟨e1, e2, e3⟩ := h
    subst e1; subst e2; subst e3
    refine ⟨rfl, rfl, rfl, Or.inl rfl, ?_, ?_, ?_⟩
    · intro it hit
      simp at hit
    · simp [uaMerged, hq]
    · simp
  · -- singleton queue, ordinal 0
    obtain ⟨hcur, hvp, hdoc⟩ := hitems ⟨d, 0⟩ (by rw [hq]; simp)
    simp [UnionAllDocSet.child] at hcur hvp
    have hdoc' : s.doc ≤ d := hdoc
    have hms : uaMerged s = d :: s.c0.remaining := by
      unfold uaMerged itemStream
      rw [hq]
      rfl
    rw [hq] at h
    simp only [skipNextQueue] at h
    cases hit0 : skipNextItem t ⟨d, 0⟩ (s.child (⟨d, 0⟩ : HeapItem).ord) with
    | mk it2 rest0 =>
      cases rest0 with
      | mk c2 f1 =>
        rw [hit0] at h
        dsimp only at h
        simp only [Prod.mk.injEq] at h
        obtain ⟨e1, e2, e3⟩ := h
        have hch : s.child (⟨d, 0⟩ : HeapItem).ord = s.c0 := rfl
        rw [hch] at hit0
        have hspec := skipNextItem_spec hcur hvp it2 c2 f1 hit0
        rcases hspec with ⟨hd1, hd2, hd3⟩ | ⟨dd, rem, hd1, hd2, hd3, hd4, hd5, hd6⟩
        · have hd1' : (d :: s.c0.remaining).dropWhile (fun x => x < t)
              = [] := hd1
          subst hd2
          simp only [Option.toList_none, List.nil_append] at e1
          subst e1; subst e2; subst e3
          refine ⟨setChild_queue .., setChild_finished .., setChild_doc ..,
            Or.inl rfl, ?_, ?_, ?_⟩
          · intro it hit
            simp at hit
          · rw [hms, hd1']
            simp [uaMerged]
          · simp [hd3]
        · have hd1' : (d :: s.c0.remaining).dropWhile (fun x => x < t)
              = dd :: rem := hd1
          subst hd2
          simp only [Option.toList_some, List.singleton_append] at e1
          subst e1; subst e2; subst e3
          have htle : t ≤ dd := by
            have := dropWhile_head_false hd1'
            simp at this
            omega
          have hsle : s.doc ≤ dd := by
            have hmem := dropWhile_head_mem hd1'
            rcases List.mem_cons.mp hmem with hh | hh
            · omega
            · have := List.rel_of_pairwise_cons (vpOk_some hcur hvp) hh
              omega
          refine ⟨setChild_queue .., setChild_finished .., setChild_doc ..,
            Or.inr (Or.inl ⟨dd, rfl⟩), ?_, ?_, ?_⟩
          · intro it hit
            simp only [List.mem_singleton] at hit
            subst hit
            refine ⟨?_, ?_, htle, hsle⟩
            · simp [UnionAllDocSet.child, setChild_c0_eq, hd3]
            · simp [UnionAllDocSet.child, setChild_c0_eq]
              exact hd5
          · rw [hms, hd1']
            simp [uaMerged, itemStream, UnionAllDocSet.child, setChild_c0_eq,
              hd4]
          · simp [hd6]
  · -- singleton queue, ordinal 1
    obtain ⟨hcur, hvp, hdoc⟩ := hitems ⟨d, 1⟩ (by rw [hq]; simp)
    simp [UnionAllDocSet.child] at hcur hvp
    have hdoc' : s.doc ≤ d := hdoc
    have hms : uaMerged s = d :: s.c1.remaining := by
      unfold uaMerged itemStream
      rw [hq]
      rfl
    rw [hq] at h
    simp only [skipNextQueue] at h
    cases hit0 : skipNextItem t ⟨d, 1⟩ (s.child (⟨d, 1⟩ : HeapItem).ord) with
    | mk it2 rest0 =>
      cases rest0 with
      | mk c2 f1 =>
        rw [hit0] at h
        dsimp only at h
        simp only [Prod.mk.injEq] at h
        obtain ⟨e1, e2, e3⟩ := h
        have hch : s.child (⟨d, 1⟩ : HeapItem).ord = s.c1 := rfl
        rw [hch] at hit0
        have hspec := skipNextItem_spec hcur hvp it2 c2 f1 hit0
        rcases hspec with ⟨hd1, hd2, hd3⟩ | ⟨dd, rem, hd1, hd2, hd3, hd4, hd5, hd6⟩
        · have hd1' : (d :: s.c1.remaining).dropWhile (fun x => x < t)
              = [] := hd1
          subst hd2
          simp only [Option.toList_none, List.nil_append] at e1
          subst e1; subst e2; subst e3
          refine ⟨setChild_queue .., setChild_finished .., setChild_doc ..,
            Or.inl rfl, ?_, ?_, ?_⟩
          · intro it hit
            simp at hit
          · rw [hms, hd1']
            simp [uaMerged]
          · simp [hd3]
        · have hd1' : (d :: s.c1.remaining).dropWhile (fun x => x < t)
              = dd :: rem := hd1
          subst hd2
          simp only [Option.toList_some, List.singleton_append] at e1
          subst e1; subst e2; subst e3
          have htle : t ≤ dd := by
            have := dropWhile_head_false hd1'
            simp at this
            omega
          have hsle : s.doc ≤ dd := by
            have hmem := dropWhile_head_mem hd1'
            rcases List.mem_cons.mp hmem with hh | hh
            · omega
            · have := List.rel_of_pairwise_cons (vpOk_some hcur hvp) hh
              omega
          refine ⟨setChild_queue .., setChild_finished .., setChild_doc ..,
            Or.inr (Or.inr (Or.inl ⟨dd, rfl⟩)), ?_, ?_, ?_⟩
          · intro it hit
            simp only [List.mem_singleton] at hit
            subst hit
            refine ⟨?_, ?_, htle, hsle⟩
            · simp [UnionAllDocSet.child, setChild_c1_eq, hd3]
            · simp [UnionAllDocSet.child, setChild_c1_eq]
              exact hd5
          · rw [hms, hd1']
            simp [uaMerged, itemStream, UnionAllDocSet.child, setChild_c1_eq,
              hd4]
          · simp [hd6]
  · -- two-item queue
    obtain ⟨hcur0, hvp0, hdoc0⟩ := hitems ⟨d0, 0⟩ (by rw [hq]; simp)
    obtain ⟨hcur1, hvp1, hdoc1⟩ := hitems ⟨d1, 1⟩ (by rw [hq]; simp)
    simp [UnionAllDocSet.child] at hcur0 hvp0 hcur1 hvp1
    have hdoc0' : s.doc ≤ d0 := hdoc0
    have hdoc1' : s.doc ≤ d1 := hdoc1
    have hms : uaMerged s
        = mergeL (d0 :: s.c0.remaining) (d1 :: s.c1.remaining) := by
      unfold uaMerged itemStream
      rw [hq]
      rfl
    have hmdw : (uaMerged s).dropWhile (fun x => x < t)
        = mergeL ((d0 :: s.c0.remaining).dropWhile (fun x => x < t))
            ((d1 :: s.c1.remaining).dropWhile (fun x => x < t)) := by
      rw [hms]
      exact mergeL_dropWhile t
        ((d0 :: s.c0.remaining).length + (d1 :: s.c1.remaining).length) _ _
        (Nat.le_refl _)
    rw [hq] at h
    simp only [skipNextQueue] at h
    cases hit0 : skipNextItem t ⟨d0, 0⟩ (s.child (⟨d0, 0⟩ : HeapItem).ord) with
    | mk it2 rest0 =>
      cases rest0 with
      | mk c2 f1 =>
        rw [hit0] at h
        dsimp only at h
        cases hit1 : skipNextItem t ⟨d1, 1⟩
            ((s.setChild (⟨d0, 0⟩ : HeapItem).ord c2).child
              (⟨d1, 1⟩ : HeapItem).ord) with
        | mk it3 rest1 =>
          cases rest1 with
          | mk c3 f2 =>
            rw [hit1] at h
            dsimp only at h
            simp only [Prod.mk.injEq] at h
            obtain ⟨e1, e2, e3⟩ := h
            have hch0 : s.child (⟨d0, 0⟩ : HeapItem).ord = s.c0 := rfl
            rw [hch0] at hit0
            have hch1 : (s.setChild (⟨d0, 0⟩ : HeapItem).ord c2).child
                (⟨d1, 1⟩ : HeapItem).ord = s.c1 := by
              show (s.setChild 0 c2).child 1 = s.c1
              rw [child_eq, setChild_c1_eq]
              simp
            rw [hch1] at hit1
            have hspec0 := skipNextItem_spec hcur0 hvp0 it2 c2 f1 hit0
            have hspec1 := skipNextItem_spec hcur1 hvp1 it3 c3 f2 hit1
            have hsq : ((s.setChild (⟨d0, 0⟩ : HeapItem).ord c2).setChild
                (⟨d1, 1⟩ : HeapItem).ord c3) = s2 := e2
            have hc0f : s2.c0 = c2 := by
              rw [← hsq]
              show (((s.setChild 0 c2).setChild 1 c3)).c0 = c2
              rw [setChild_c0_eq]
              simp [setChild_c0_eq]
            have hc1f : s2.c1 = c3 := by
              rw [← hsq]
              show (((s.setChild 0 c2).setChild 1 c3)).c1 = c3
              rw [setChild_c1_eq]
              simp
            have hq2 : s2.queue = s.queue := by
              rw [← hsq]
              show (((s.setChild 0 c2).setChild 1 c3)).queue = s.queue
              rw [setChild_queue, setChild_queue]
            have hfin : s2.finished = s.finished := by
              rw [← hsq]
              show (((s.setChild 0 c2).setChild 1 c3)).finished = s.finished
              rw [setChild_finished, setChild_finished]
            have hdoc : s2.doc = s.doc := by
              rw [← hsq]
              show (((s.setChild 0 c2).setChild 1 c3)).doc = s.doc
              rw [setChild_doc, setChild_doc]
            subst e1; subst e3
            rcases hspec0 with ⟨ha1, ha2, ha3⟩ |
                ⟨dA, remA, ha1, ha2, ha3, ha4, ha5, ha6⟩ <;>
              rcases hspec1 with ⟨hb1, hb2, hb3⟩ |
                ⟨dB, remB, hb1, hb2, hb3, hb4, hb5, hb6⟩ <;>
              subst ha2 <;> subst hb2
            · have ha1' : (d0 :: s.c0.remaining).dropWhile (fun x => x < t)
                  = [] := ha1
              have hb1' : (d1 :: s.c1.remaining).dropWhile (fun x => x < t)
                  = [] := hb1
              refine ⟨hq2, hfin, hdoc, Or.inl rfl, ?_, ?_, ?_⟩
              · intro it hit
                simp at hit
              · rw [hmdw, ha1', hb1', mergeL_nil_left]
                simp [uaMerged]
              · simp [ha3, hb3]
            · have ha1' : (d0 :: s.c0.remaining).dropWhile (fun x => x < t)
                  = [] := ha1
              have hb1' : (d1 :: s.c1.remaining).dropWhile (fun x => x < t)
                  = dB :: remB := hb1
              have htleB : t ≤ dB := by
                have := dropWhile_head_false hb1'
                simp at this
                omega
              have hsleB : s.doc ≤ dB := by
                have hmem := dropWhile_head_mem hb1'
                rcases List.mem_cons.mp hmem with hh | hh
                · omega
                · have := List.rel_of_pairwise_cons (vpOk_some hcur1 hvp1) hh
                  omega
              refine ⟨hq2, hfin, hdoc, Or.inr (Or.inr (Or.inl ⟨dB, rfl⟩)),
                ?_, ?_, ?_⟩
              · intro it hit
                simp at hit
                subst hit
                refine ⟨?_, ?_, htleB, hsleB⟩
                · simp [UnionAllDocSet.child, hc1f, hb3]
                · simp [UnionAllDocSet.child, hc1f]
                  exact hb5
              · rw [hmdw, ha1', hb1', mergeL_nil_left]
                simp [uaMerged, itemStream, UnionAllDocSet.child, hc1f, hb4]
              · simp [ha3, hb6]
            · have ha1' : (d0 :: s.c0.remaining).dropWhile (fun x => x < t)
                  = dA :: remA := ha1
              have hb1' : (d1 :: s.c1.remaining).dropWhile (fun x => x < t)
                  = [] := hb1
              have htleA : t ≤ dA := by
                have := dropWhile_head_false ha1'
                simp at this
                omega
              have hsleA : s.doc ≤ dA := by
                have hmem := dropWhile_head_mem ha1'
                rcases List.mem_cons.mp hmem with hh | hh
                · omega
                · have := List.rel_of_pairwise_cons (vpOk_some hcur0 hvp0) hh
                  omega
              refine ⟨hq2, hfin, hdoc, Or.inr (Or.inl ⟨dA, rfl⟩), ?_, ?_, ?_⟩
              · intro it hit
                simp at hit
                subst hit
                refine ⟨?_, ?_, htleA, hsleA⟩
                · simp [UnionAllDocSet.child, hc0f, ha3]
                · simp [UnionAllDocSet.child, hc0f]
                  exact ha5
              · rw [hmdw, ha1', hb1', mergeL_nil_right]
                simp [uaMerged, itemStream, UnionAllDocSet.child, hc0f, ha4]
              · simp [ha6, hb3]
            · have ha1' : (d0 :: s.c0.remaining).dropWhile (fun x => x < t)
                  = dA :: remA := ha1
              have hb1' : (d1 :: s.c1.remaining).dropWhile (fun x => x < t)
                  = dB :: remB := hb1
              have htleA : t ≤ dA := by
                have := dropWhile_head_false ha1'
                simp at this
                omega
              have hsleA : s.doc ≤ dA := by
                have hmem := dropWhile_head_mem ha1'
                rcases List.mem_cons.mp hmem with hh | hh
                · omega
                · have := List.rel_of_pairwise_cons (vpOk_some hcur0 hvp0) hh
                  omega
              have htleB : t ≤ dB := by
                have := dropWhile_head_false hb1'
                simp at this
                omega
              have hsleB : s.doc ≤ dB := by
                have hmem := dropWhile_head_mem hb1'
                rcases List.mem_cons.mp hmem with hh | hh
                · omega
                · have := List.rel_of_pairwise_cons (vpOk_some hcur1 hvp1) hh
                  omega
              refine ⟨hq2, hfin, hdoc,
                Or.inr (Or.inr (Or.inr ⟨dA, dB, rfl⟩)), ?_, ?_, ?_⟩
              · intro it hit
                simp at hit
                rcases hit with hit | hit
                · subst hit
                  refine ⟨?_, ?_, htleA, hsleA⟩
                  · simp [UnionAllDocSet.child, hc0f, ha3]
                  · simp [UnionAllDocSet.child, hc0f]
                    exact ha5
                · subst hit
                  refine ⟨?_, ?_, htleB, hsleB⟩
                  · simp [UnionAllDocSet.child, hc1f, hb3]
                  · simp [UnionAllDocSet.child, hc1f]
                    exact hb5
              · rw [hmdw, ha1', hb1']
                simp [uaMerged, itemStream, UnionAllDocSet.child, hc0f, hc1f,
                  ha4, hb4]
              · simp [ha6, hb6]

theorem uaMerged_eq_of {s s' : UnionAllDocSet} (h0 : s.c0 = s'.c0)
    (h1 : s.c1 = s'.c1) (hq : s.queue = s'.queue) :
    uaMerged s = uaMerged s' := by
  unfold uaMerged itemStream UnionAllDocSet.child
  rw [h0, h1, hq]

theorem uaShape_of_queue_eq {s s' : UnionAllDocSet} (h : s.queue = s'.queue)
    (hs : uaShape s) : uaShape s' := by
  unfold uaShape at hs ⊢
  rw [h] at hs
  exact hs

theorem sorted_head_eq {l : List Nat} {t : Nat} (hs : List.Chain' (· ≤ ·) l)
    (hmem : t ∈ l) (hfl : ∀ x ∈ l, t ≤ x) : ∃ rest, l = t :: rest := by
  cases l with
  | nil => simp at hmem
  | cons a l =>
    have h1 : t ≤ a := hfl a (List.mem_cons_self a l)
    have h2 : a ≤ t := by
      rcases List.mem_cons.mp hmem with hh | hh
      · omega
      · rw [List.chain'_iff_pairwise] at hs
        exact List.rel_of_pairwise_cons hs hh
    have : a = t := by omega
    exact ⟨l, by rw [this]⟩

theorem uaMerged_mem {s : UnionAllDocSet} (hshape : uaShape s) {x : Nat}
    (hx : x ∈ uaMerged s) : ∃ it ∈ s.queue, x ∈ itemStream s it := by
  rcases hshape with hq | ⟨d, hq⟩ | ⟨d, hq⟩ | ⟨d0, d1, hq⟩ <;>
    unfold uaMerged at hx <;> rw [hq] at hx
  · simp at hx
  · exact ⟨⟨d, 0⟩, by rw [hq]; simp, hx⟩
  · exact ⟨⟨d, 1⟩, by rw [hq]; simp, hx⟩
  · rcases (mergeL_mem _ _).mp hx with hm | hm
    · exact ⟨⟨d0, 0⟩, by rw [hq]; simp, hm⟩
    · exact ⟨⟨d1, 1⟩, by rw [hq]; simp, hm⟩

theorem mem_uaMerged_of_item {s : UnionAllDocSet} (hshape : uaShape s)
    {it : HeapItem} (hit : it ∈ s.queue) : it.doc ∈ uaMerged s := by
  rcases hshape with hq | ⟨d, hq⟩ | ⟨d, hq⟩ | ⟨d0, d1, hq⟩ <;>
    unfold uaMerged <;> rw [hq] <;> rw [hq] at hit
  · simp at hit
  · simp only [List.mem_singleton] at hit
    subst hit
    exact List.mem_cons_self _ _
  · simp only [List.mem_singleton] at hit
    subst hit
    exact List.mem_cons_self _ _
  · simp only [List.mem_cons, List.mem_singleton] at hit
    rcases hit with hit | hit | hit
    · subst hit
      exact (mergeL_mem _ _).mpr (Or.inl (List.mem_cons_self _ _))
    · subst hit
      exact (mergeL_mem _ _).mpr (Or.inr (List.mem_cons_self _ _))
    · simp at hit

theorem stream_mem_floor {s : UnionAllDocSet} {it : HeapItem} {t x : Nat}
    (hcur : (s.child it.ord).cur = some it.doc) (hvp : vpOk (s.child it.ord))
    (hle : t ≤ it.doc) (hx : x ∈ itemStream s it) : t ≤ x ∧ (x = t → it.doc = t) := by
  have hpw := vpOk_some hcur hvp
  unfold itemStream at hx
  rcases List.mem_cons.mp hx with hh | hh
  · constructor
    · omega
    · intro h2; omega
  · have := List.rel_of_pairwise_cons hpw hh
    constructor
    · omega
    · intro h2; omega

theorem ua_skipNext_spec {s : UnionAllDocSet} {t : Nat} (hok : uaOk s)
    (hf : s.finished = false) :
    ∀ res s2, UnionAllDocSet.skipNext t s = (res, s2) →
      (res = SkipResult.SEnd →
        uaOk s2 ∧ s2.finished = true ∧ s2.doc = s.doc ∧ uaMerged s2 = [] ∧
        (uaMerged s).dropWhile (fun x => x < t) = []) ∧
      (res = SkipResult.Reached →
        uaOk s2 ∧ s2.finished = false ∧ s2.doc = t ∧ s.doc ≤ t ∧
        uaMerged s2 = (uaMerged s).dropWhile (fun x => x < t) ∧
        ∃ rest, uaMerged s2 = t :: rest) ∧
      (res = SkipResult.OverStep →
        uaOk s2 ∧ s2.finished = false ∧ t < s2.doc ∧ s.doc ≤ s2.doc ∧
        (uaMerged s).dropWhile (fun x => x < t) = s2.doc :: uaMerged s2) := by
  intro res s2 h
  unfold UnionAllDocSet.skipNext at h
  rw [if_neg (by simp [hf] : ¬s.finished = true)] at h
  cases hskq : skipNextQueue t s s.queue with
  | mk q2' rest =>
    cases rest with
    | mk s2' found =>
      rw [hskq] at h
      try dsimp only at h
      obtain ⟨hq2, hfin2, hdoc2, hshape3, hitems3, hmerged3, hfound⟩ :=
        skipNextQueue_char hok q2' s2' found hskq
      have hoksq : uaOk { s2' with queue := q2' } := by
        refine ⟨hshape3, ?_⟩
        intro it hit
        obtain ⟨hc, hvpc, htl, hsl⟩ := hitems3 it hit
        refine ⟨hc, hvpc, ?_⟩
        show s2'.doc ≤ it.doc
        rw [hdoc2]
        exact hsl
      have hfloor : ∀ x ∈ uaMerged { s2' with queue := q2' },
          t ≤ x ∧ (x = t → ∃ it ∈ q2', it.doc = t) := by
        intro x hx
        obtain ⟨it, hitq, hstr⟩ := uaMerged_mem hshape3 hx
        obtain ⟨hc, hvpc, htl, _⟩ := hitems3 it hitq
        have hsm := stream_mem_floor hc hvpc htl hstr
        exact ⟨hsm.1, fun he => ⟨it, hitq, hsm.2 he⟩⟩
      by_cases hqe : q2'.isEmpty = true
      · rw [if_pos hqe] at h
        simp only [Prod.mk.injEq] at h
        obtain ⟨hres, hs2⟩ := h
        subst hres
        subst hs2
        have hqnil : q2' = [] := by
          cases hqq : q2' with
          | nil => rfl
          | cons a l => rw [hqq] at hqe; simp at hqe
        refine ⟨fun _ => ?_, fun hr => absurd hr (by simp),
          fun hr => absurd hr (by simp)⟩
        refine ⟨⟨Or.inl rfl, ?_⟩, rfl, hdoc2, ?_, ?_⟩
        · intro it hit
          simp at hit
        · simp [uaMerged]
        · rw [← hmerged3]
          simp [uaMerged, hqnil]
      · rw [if_neg hqe] at h
        try dsimp only at h
        by_cases hfd : found = true
        · rw [hfd] at h
          have hres : SkipResult.Reached = res := congrArg Prod.fst h
          have hs2 : ({ s2' with queue := q2', doc := t } :
              UnionAllDocSet) = s2 := congrArg Prod.snd h
          subst hres
          subst hs2
          obtain ⟨itf, hitfq, hitft⟩ := hfound.mp hfd
          refine ⟨fun hr => absurd hr (by simp), fun _ => ?_,
            fun hr => absurd hr (by simp)⟩
        
          have hok2 : uaOk { s2' with queue := q2', doc := t } := by
            refine ⟨uaShape_of_queue_eq rfl hshape3, ?_⟩
            intro it hit
            obtain ⟨hc, hvpc, htl, _⟩ := hitems3 it hit
            exact ⟨hc, hvpc, htl⟩
          have hmeq : uaMerged { s2' with queue := q2', doc := t }
              = uaMerged { s2' with queue := q2' } :=
            uaMerged_eq_of rfl rfl rfl
          refine ⟨hok2, hfin2.trans hf, rfl, ?_, ?_, ?_⟩
          · obtain ⟨_, _, _, hsl⟩ := hitems3 itf hitfq
            rw [← hitft]
            exact hsl
          · rw [hmeq]
            exact hmerged3
          · refine sorted_head_eq (uaMerged_sorted hok2) ?_ ?_
            · have := mem_uaMerged_of_item (uaShape_of_queue_eq rfl hshape3)
                (show itf ∈ ({ s2' with queue := q2', doc := t } :
                  UnionAllDocSet).queue from hitfq)
              rw [← hitft]
              exact this
            · intro x hx
              rw [hmeq] at hx
              exact (hfloor x hx).1
        · have hfd0 : found = false := by simpa using hfd
          rw [hfd0] at h
          simp only [Bool.false_eq_true, if_false, Prod.mk.injEq] at h
          obtain ⟨hres, hs2⟩ := h
          subst hres
          have hs2' : ({ s2' with queue := q2' } :
              UnionAllDocSet).advanceHead = s2 := hs2
          have hfs : s2'.finished = false := hfin2.trans hf
          have hadv : ({ s2' with queue := q2' } :
              UnionAllDocSet).advance = (true, s2) := by
            unfold UnionAllDocSet.advance
            rw [if_neg (by simp [hfs] : ¬({ s2' with queue := q2' } :
              UnionAllDocSet).finished = true)]
            rw [if_neg hqe, hs2']
          obtain ⟨hok4, hfin4, hdle4, hm4⟩ := ua_advance_true hoksq hadv
          refine ⟨fun hr => absurd hr (by simp),
            fun hr => absurd hr (by simp), fun _ => ?_⟩
          have hdmem : s2.doc ∈ uaMerged { s2' with queue := q2' } := by
            rw [hm4]
            exact List.mem_cons_self _ _
          have hfl := hfloor s2.doc hdmem
          have hne : s2.doc ≠ t := by
            intro he
            exact hfd (hfound.mpr (hfl.2 he))
          refine ⟨hok4, hfin4, by omega, ?_, ?_⟩
          · rw [← hdoc2]
            exact hdle4
          · rw [← hmerged3]
            exact hm4

theorem chain_le_head_floor {d : Nat} {l : List Nat}
    (h : List.Chain' (· ≤ ·) (d :: l)) : ∀ x ∈ l, d ≤ x := by
  rw [List.chain'_iff_pairwise] at h
  exact fun x hx => List.rel_of_pairwise_cons h hx

/-- Invariant of a reachable `UnionDocSet` state: the inner state is
consistent, a finished inner state has nothing left, and the recorded
last-emitted doc bounds everything still pending. -/
def uOk (s : UnionDocSet) : Prop :=
  uaOk s.inner ∧ (s.inner.finished = true → uaMerged s.inner = []) ∧
  (∀ v, s.current = some v → ∀ x ∈ uaMerged s.inner, v ≤ x)

theorem u_emit_char_aux : ∀ (n : Nat) (s : UnionDocSet), uaM s.inner ≤ n →
    uOk s → s.emit = dedupF s.current (uaMerged s.inner) := by
  intro n
  induction n with
  | zero =>
    intro s hle hok
    obtain ⟨hok1, hfin1, hcur1⟩ := hok
    rw [u_emit_eq]
    simp only [UnionDocSet.advance]
    cases hadv : s.inner.advance with
    | mk ok inner =>
      cases ok with
      | false =>
        dsimp only [Bool.not_false]
        by_cases hfin : s.inner.finished = true
        · rw [hfin1 hfin]
          cases s.current <;> rfl
        · obtain ⟨_, _, _, hnil⟩ := ua_advance_false hok1 hadv
          rw [hnil (by simpa using hfin)]
          cases s.current <;> rfl
      | true =>
        have := ua_advance_uaM hadv
        omega
  | succ n ih =>
    intro s hle hok
    obtain ⟨hok1, hfin1, hcur1⟩ := hok
    rw [u_emit_eq]
    simp only [UnionDocSet.advance]
    cases hadv : s.inner.advance with
    | mk ok inner =>
      cases ok with
      | false =>
        dsimp only [Bool.not_false]
        by_cases hfin : s.inner.finished = true
        · rw [hfin1 hfin]
          cases s.current <;> rfl
        · obtain ⟨_, _, _, hnil⟩ := ua_advance_false hok1 hadv
          rw [hnil (by simpa using hfin)]
          cases s.current <;> rfl
      | true =>
        obtain ⟨hok2, hfin2, _, hm⟩ := ua_advance_true hok1 hadv
        have hlt := ua_advance_uaM hadv
        have hsorted := uaMerged_sorted hok1
        rw [hm] at hsorted
        have hfloor2 : ∀ x ∈ uaMerged inner, inner.doc ≤ x :=
          chain_le_head_floor hsorted
        dsimp only [Bool.not_true]
        rw [if_neg (by simp)]
        by_cases hcur : some inner.doc = s.current
        · rw [if_pos hcur]
          cases hskip : UnionAllDocSet.skipNext (inner.doc + 1) inner with
          | mk r inner3 =>
            have hspec := ua_skipNext_spec hok2 hfin2 r inner3 hskip
            cases r with
            | SEnd =>
              dsimp only
              rw [hm, ← hcur]
              obtain ⟨_, _, _, _, hdw⟩ := hspec.1 rfl
              have hstep : dedupF (some inner.doc)
                  (inner.doc :: uaMerged inner)
                  = dedupF (some inner.doc) (uaMerged inner) := by
                simp [dedupF]
              rw [hstep, dedupF_eq_dropWhile hfloor2, hdw]
              rfl
            | Reached =>
              dsimp only
              obtain ⟨hok3, hfin3, hdoc3, _, hm3, rest, hr⟩ := hspec.2.1 rfl
              rw [hm, ← hcur]
              simp only [dedupF, if_pos rfl]
              rw [dedupF_eq_dropWhile hfloor2, ← hm3, hr]
              have hne : ¬(some (inner.doc + 1) : Option Nat)
                  = some inner.doc := by simp
              simp only [dedupF, if_neg hne]
              have hfl3 : ∀ x ∈ uaMerged inner3, inner3.doc ≤ x := by
                have hs3 := uaMerged_sorted hok3
                rw [hr] at hs3
                intro x hx
                rw [hr] at hx
                rcases List.mem_cons.mp hx with hh | hh
                · omega
                · have := chain_le_head_floor hs3 x hh
                  omega
              have hihe := ih ⟨inner3, some inner3.doc⟩
                (by have := ua_skipNext_uaM (inner.doc + 1) inner
                    rw [hskip] at this
                    simp at this
                    show uaM inner3 ≤ n
                    omega)
                ⟨hok3, by rw [hfin3]; simp, by
                  intro v hv x hx
                  simp only [Option.some.injEq] at hv
                  subst hv
                  exact hfl3 x hx⟩
              rw [show (⟨inner3, some inner3.doc⟩ : UnionDocSet).emit
                  = dedupF (some inner3.doc) (uaMerged inner3) from hihe]
              rw [hr, hdoc3]
              simp [dedupF, UnionDocSet.doc]
              exact hdoc3
            | OverStep =>
              dsimp only
              obtain ⟨hok3, hfin3, hgt3, _, hm3⟩ := hspec.2.2 rfl
              rw [hm, ← hcur]
              simp only [dedupF, if_pos rfl]
              rw [dedupF_eq_dropWhile hfloor2, hm3]
              have hne : ¬(some inner3.doc : Option Nat)
                  = some inner.doc := by
                simp
                omega
              simp only [dedupF, if_neg hne]
              have hfl3 : ∀ x ∈ uaMerged inner3, inner3.doc ≤ x :=
                chain_le_head_floor (by
                  have := uaMerged_sorted hok2
                  rw [List.chain'_iff_pairwise] at this ⊢
                  have hsub : (inner3.doc :: uaMerged inner3).Sublist
                      (uaMerged inner) := by
                    rw [← hm3]
                    exact List.dropWhile_sublist _
                  exact this.sublist hsub)
              have hihe := ih ⟨inner3, some inner3.doc⟩
                (by have := ua_skipNext_uaM (inner.doc + 1) inner
                    rw [hskip] at this
                    simp at this
                    show uaM inner3 ≤ n
                    omega)
                ⟨hok3, by rw [hfin3]; simp, by
                  intro v hv x hx
                  simp only [Option.some.injEq] at hv
                  subst hv
                  exact hfl3 x hx⟩
              rw [show (⟨inner3, some inner3.doc⟩ : UnionDocSet).emit
                  = dedupF (some inner3.doc) (uaMerged inner3) from hihe]
              simp [UnionDocSet.doc]
        · rw [if_neg hcur]
          dsimp only
          rw [hm]
          simp only [dedupF, if_neg hcur]
          have hihe := ih ⟨inner, some inner.doc⟩
            (by show uaM inner ≤ n; omega)
            ⟨hok2, by rw [hfin2]; simp, by
              intro v hv x hx
              simp only [Option.some.injEq] at hv
              subst hv
              exact hfloor2 x hx⟩
          rw [show (⟨inner, some inner.doc⟩ : UnionDocSet).emit
              = dedupF (some inner.doc) (uaMerged inner) from hihe]
          simp [UnionDocSet.doc]

/-- C1: for finite strictly-ascending (duplicate-free) inputs `A` and `B`,
the two-child `UnionAllDocSet` emits across successive `advance() == true`
calls the sorted multiset union of `A` and `B` (a non-decreasing permutation
of `A ++ B`, keeping one occurrence per child containing the doc), and
`UnionDocSet` emits the sorted duplicate-free union (strictly increasing and
containing exactly the docs of `A` or `B`); in particular for
`left = [1,3,9]` and `right = [3,4,9,18]`, `UnionAll` emits
`[1,3,3,4,9,9,18]` and `Union` emits `[1,3,4,9,18]`. -/
theorem claim_C1_union_emission (a b : List Nat)
    (ha : List.Pairwise (· < ·) a) (hb : List.Pairwise (· < ·) b) :
    List.Chain' (· ≤ ·) (mkUnionAll a b).emit ∧
    ((mkUnionAll a b).emit).Perm (a ++ b) ∧
    List.Chain' (· < ·) (mkUnion a b).emit ∧
    (∀ x, x ∈ (mkUnion a b).emit ↔ x ∈ a ∨ x ∈ b) ∧
    (mkUnionAll [1, 3, 9] [3, 4, 9, 18]).emit = [1, 3, 3, 4, 9, 9, 18] ∧
    (mkUnion [1, 3, 9] [3, 4, 9, 18]).emit = [1, 3, 4, 9, 18] := by
  obtain ⟨hok, hfin, hm⟩ := mkUnionAll_spec ha hb
  have hemit : (mkUnionAll a b).emit = mergeL a b := by
    rw [ua_emit_merged hok hfin, hm]
  have hchA : List.Chain' (· ≤ ·) a := by
    rw [List.chain'_iff_pairwise]
    exact ha.imp (fun h => Nat.le_of_lt h)
  have hchB : List.Chain' (· ≤ ·) b := by
    rw [List.chain'_iff_pairwise]
    exact hb.imp (fun h => Nat.le_of_lt h)
  have hsor : List.Chain' (· ≤ ·) (mergeL a b) := mergeL_sorted hchA hchB
  have huemit : (mkUnion a b).emit = dedupF none (mergeL a b) := by
    have he := u_emit_char_aux (uaM (mkUnion a b).inner) (mkUnion a b)
      (Nat.le_refl _)
      ⟨hok, by
        intro hc
        have hc2 : (mkUnionAll a b).finished = true := hc
        rw [hfin] at hc2
        simp at hc2,
        by intro v hv; simp [mkUnion] at hv⟩
    rw [he]
    show dedupF none (uaMerged (mkUnionAll a b)) = _
    rw [hm]
  have hded := dedupF_chain (mergeL a b) none hsor
    (by intro v hv; simp at hv)
  refine ⟨?_, ?_, ?_, ?_, by decide, by decide⟩
  · rw [hemit]
    exact hsor
  · rw [hemit]
    exact mergeL_perm a b
  · rw [huemit]
    exact hded.1
  · intro x
    rw [huemit]
    constructor
    · intro hx
      exact (mergeL_mem a b).mp (hded.2.2.1 x hx)
    · intro hx
      exact hded.2.2.2 x ((mergeL_mem a b).mpr hx)
        (by intro v hv; simp at hv)

theorem claim_C1_witness :
    List.Chain' (· ≤ ·) (mkUnionAll [1, 3, 9] [3, 4, 9, 18]).emit ∧
    ((mkUnionAll [1, 3, 9] [3, 4, 9, 18]).emit).Perm
      ([1, 3, 9] ++ [3, 4, 9, 18]) ∧
    List.Chain' (· < ·) (mkUnion [1, 3, 9] [3, 4, 9, 18]).emit ∧
    (∀ x, x ∈ (mkUnion [1, 3, 9] [3, 4, 9, 18]).emit ↔
      x ∈ [1, 3, 9] ∨ x ∈ [3, 4, 9, 18]) ∧
    (mkUnionAll [1, 3, 9] [3, 4, 9, 18]).emit = [1, 3, 3, 4, 9, 9, 18] ∧
    (mkUnion [1, 3, 9] [3, 4, 9, 18]).emit = [1, 3, 4, 9, 18] :=
  claim_C1_union_emission [1, 3, 9] [3, 4, 9, 18] (by decide) (by decide)

theorem ua_advance_false_finished {s s2 : UnionAllDocSet}
    (h : s.advance = (false, s2)) : s2.finished = true := by
  unfold UnionAllDocSet.advance at h
  by_cases hf : s.finished = true
  · rw [if_pos hf] at h
    simp only [Prod.mk.injEq, true_and] at h
    rw [← h]
    exact hf
  · rw [if_neg hf] at h
    by_cases hq : s.queue.isEmpty = true
    · rw [if_pos hq] at h
      simp only [Prod.mk.injEq, true_and] at h
      rw [← h]
    · rw [if_neg hq] at h
      simp at h

theorem ua_emit_finished {s : UnionAllDocSet} (h : s.finished = true) :
    s.emit = [] := by
  rw [ua_emit_eq]
  unfold UnionAllDocSet.advance
  rw [if_pos h]

theorem ua_skipNext_SEnd_finished {t : Nat} {s s2 : UnionAllDocSet}
    (h : UnionAllDocSet.skipNext t s = (SkipResult.SEnd, s2)) :
    s2.finished = true := by
  unfold UnionAllDocSet.skipNext at h
  by_cases hf : s.finished = true
  · rw [if_pos hf] at h
    simp only [Prod.mk.injEq, true_and] at h
    rw [← h]
    exact hf
  · rw [if_neg hf] at h
    cases hskq : skipNextQueue t s s.queue with
    | mk q2 rest =>
      cases rest with
      | mk s2' found =>
        rw [hskq] at h
        dsimp only at h
        by_cases hqe : q2.isEmpty = true
        · rw [if_pos hqe] at h
          simp only [Prod.mk.injEq, true_and] at h
          rw [← h]
        · rw [if_neg hqe] at h
          try dsimp only at h
          by_cases hfd : found = true
          · rw [hfd] at h
            simp at h
          · have hfd0 : found = false := by simpa using hfd
            rw [hfd0] at h
            simp at h

theorem ua_advanceUntil_char_aux : ∀ (n : Nat) (s : UnionAllDocSet),
    uaM s ≤ n → ∀ (t : Nat) res s2, s.advanceUntil t = (res, s2) →
    (res = SkipResult.SEnd →
      (s.emit).dropWhile (fun x => x < t) = [] ∧ s2.emit = []) ∧
    (res = SkipResult.Reached →
      s2.doc = t ∧ (s.emit).dropWhile (fun x => x < t) = t :: s2.emit) ∧
    (res = SkipResult.OverStep →
      t < s2.doc ∧
      (s.emit).dropWhile (fun x => x < t) = s2.doc :: s2.emit) := by
  intro n
  induction n with
  | zero =>
    intro s hle t res s2 h
    rw [ua_advanceUntil_eq] at h
    cases hadv : s.advance with
    | mk ok s3 =>
      cases ok with
      | false =>
        rw [hadv] at h
        dsimp only at h
        simp only [Prod.mk.injEq] at h
        obtain ⟨h1, h2⟩ := h
        subst h1
        subst h2
        rw [ua_emit_eq, hadv]
        refine ⟨fun _ => ⟨rfl, ?_⟩, fun hr => absurd hr.symm (by simp),
          fun hr => absurd hr.symm (by simp)⟩
        exact ua_emit_finished (ua_advance_false_finished hadv)
      | true =>
        have := ua_advance_uaM hadv
        omega
  | succ n ih =>
    intro s hle t res s2 h
    rw [ua_advanceUntil_eq] at h
    cases hadv : s.advance with
    | mk ok s3 =>
      cases ok with
      | false =>
        rw [hadv] at h
        dsimp only at h
        simp only [Prod.mk.injEq] at h
        obtain ⟨h1, h2⟩ := h
        subst h1
        subst h2
        rw [ua_emit_eq, hadv]
        refine ⟨fun _ => ⟨rfl, ?_⟩, fun hr => absurd hr.symm (by simp),
          fun hr => absurd hr.symm (by simp)⟩
        exact ua_emit_finished (ua_advance_false_finished hadv)
      | true =>
        rw [hadv] at h
        dsimp only at h
        have hemit : s.emit = s3.doc :: s3.emit := by
          rw [ua_emit_eq, hadv]
        have hlt := ua_advance_uaM hadv
        by_cases hgt : s3.doc > t
        · rw [if_pos hgt] at h
          simp only [Prod.mk.injEq] at h
          obtain ⟨h1, h2⟩ := h
          subst h1
          subst h2
          refine ⟨fun hr => absurd hr.symm (by simp),
            fun hr => absurd hr.symm (by simp), fun _ => ⟨hgt, ?_⟩⟩
          rw [hemit, List.dropWhile_cons, if_neg (by simp; omega)]
        · rw [if_neg hgt] at h
          by_cases heq : s3.doc = t
          · rw [if_pos heq] at h
            simp only [Prod.mk.injEq] at h
            obtain ⟨h1, h2⟩ := h
            subst h1
            subst h2
            refine ⟨fun hr => absurd hr.symm (by simp), fun _ => ⟨heq, ?_⟩,
              fun hr => absurd hr.symm (by simp)⟩
            rw [hemit, List.dropWhile_cons, if_neg (by simp; omega), heq]
          · rw [if_neg heq] at h
            have hrec := ih s3 (by omega) t res s2 h
            have hdw : (s.emit).dropWhile (fun x => x < t)
                = (s3.emit).dropWhile (fun x => x < t) := by
              rw [hemit, List.dropWhile_cons, if_pos (by simp; omega)]
            refine ⟨fun hr => ?_, fun hr => ?_, fun hr => ?_⟩
            · obtain ⟨hh1, hh2⟩ := hrec.1 hr
              exact ⟨by rw [hdw]; exact hh1, hh2⟩
            · obtain ⟨hh1, hh2⟩ := hrec.2.1 hr
              exact ⟨hh1, by rw [hdw]; exact hh2⟩
            · obtain ⟨hh1, hh2⟩ := hrec.2.2 hr
              exact ⟨hh1, by rw [hdw]; exact hh2⟩

theorem u_advance_false_inner_finished {s s2 : UnionDocSet}
    (h : s.advance = (false, s2)) : s2.inner.finished = true := by
  unfold UnionDocSet.advance at h
  cases hadv : s.inner.advance with
  | mk ok inner =>
    rw [hadv] at h
    cases ok with
    | false =>
      simp at h
      rw [← h]
      exact ua_advance_false_finished hadv
    | true =>
      simp only [Bool.not_true, Bool.false_eq_true, if_false] at h
      by_cases hcur : some inner.doc = s.current
      · rw [if_pos hcur] at h
        cases hskip : UnionAllDocSet.skipNext (inner.doc + 1) inner with
        | mk r inner3 =>
          rw [hskip] at h
          cases r with
          | SEnd =>
            simp at h
            rw [← h]
            exact ua_skipNext_SEnd_finished hskip
          | Reached => simp at h
          | OverStep => simp at h
      · rw [if_neg hcur] at h
        simp at h

theorem u_emit_finished {s : UnionDocSet} (h : s.inner.finished = true) :
    s.emit = [] := by
  rw [u_emit_eq]
  unfold UnionDocSet.advance
  have hadv : s.inner.advance = (false, s.inner) := by
    unfold UnionAllDocSet.advance
    rw [if_pos h]
  rw [hadv]
  simp

theorem advanceUntilUF_congr : ∀ (n : Nat) {m t : Nat} {s : UnionDocSet},
    uaM s.inner < n → uaM s.inner < m →
    advanceUntilUF n t s = advanceUntilUF m t s := by
  intro n
  induction n with
  | zero => intro m t s h1 _; exact absurd h1 (Nat.not_lt_zero _)
  | succ n ih =>
    intro m t s h1 h2
    cases m with
    | zero => exact absurd h2 (Nat.not_lt_zero _)
    | succ m =>
      simp only [advanceUntilUF]
      cases hadv : s.advance with
      | mk ok s2 =>
        cases ok with
        | false => rfl
        | true =>
          have hm := u_advance_uaM hadv
          dsimp only
          by_cases hgt : s2.doc > t
          · rw [if_pos hgt, if_pos hgt]
          · rw [if_neg hgt, if_neg hgt]
            by_cases heq : s2.doc = t
            · rw [if_pos heq, if_pos heq]
            · rw [if_neg heq, if_neg heq]
              exact ih (by omega) (by omega)

theorem u_advanceUntil_eq (t : Nat) (s : UnionDocSet) :
    s.advanceUntil t = match s.advance with
      | (false, s2) => (SkipResult.SEnd, s2)
      | (true, s2) =>
        if s2.doc > t then (SkipResult.OverStep, s2)
        else if s2.doc = t then (SkipResult.Reached, s2)
        else s2.advanceUntil t := by
  unfold UnionDocSet.advanceUntil
  conv_lhs => rw [advanceUntilUF]
  cases hadv : s.advance with
  | mk ok s2 =>
    cases ok with
    | false => rfl
    | true =>
      have hm := u_advance_uaM hadv
      dsimp only
      by_cases hgt : s2.doc > t
      · rw [if_pos hgt, if_pos hgt]
      · rw [if_neg hgt, if_neg hgt]
        by_cases heq : s2.doc = t
        · rw [if_pos heq, if_pos heq]
        · rw [if_neg heq, if_neg heq]
          exact advanceUntilUF_congr _ (by omega) (by omega)

theorem u_advanceUntil_char_aux : ∀ (n : Nat) (s : UnionDocSet),
    uaM s.inner ≤ n → ∀ (t : Nat) res s2, s.advanceUntil t = (res, s2) →
    (res = SkipResult.SEnd →
      (s.emit).dropWhile (fun x => x < t) = [] ∧ s2.emit = []) ∧
    (res = SkipResult.Reached →
      s2.doc = t ∧ (s.emit).dropWhile (fun x => x < t) = t :: s2.emit) ∧
    (res = SkipResult.OverStep →
      t < s2.doc ∧
      (s.emit).dropWhile (fun x => x < t) = s2.doc :: s2.emit) := by
  intro n
  induction n with
  | zero =>
    intro s hle t res s2 h
    rw [u_advanceUntil_eq] at h
    cases hadv : s.advance with
    | mk ok s3 =>
      cases ok with
      | false =>
        rw [hadv] at h
        dsimp only at h
        simp only [Prod.mk.injEq] at h
        obtain ⟨h1, h2⟩ := h
        subst h1
        subst h2
        rw [u_emit_eq, hadv]
        refine ⟨fun _ => ⟨rfl, ?_⟩, fun hr => absurd hr.symm (by simp),
          fun hr => absurd hr.symm (by simp)⟩
        exact u_emit_finished (u_advance_false_inner_finished hadv)
      | true =>
        have := u_advance_uaM hadv
        omega
  | succ n ih =>
    intro s hle t res s2 h
    rw [u_advanceUntil_eq] at h
    cases hadv : s.advance with
    | mk ok s3 =>
      cases ok with
      | false =>
        rw [hadv] at h
        dsimp only at h
        simp only [Prod.mk.injEq] at h
        obtain ⟨h1, h2⟩ := h
        subst h1
        subst h2
        rw [u_emit_eq, hadv]
        refine ⟨fun _ => ⟨rfl, ?_⟩, fun hr => absurd hr.symm (by simp),
          fun hr => absurd hr.symm (by simp)⟩
        exact u_emit_finished (u_advance_false_inner_finished hadv)
      | true =>
        rw [hadv] at h
        dsimp only at h
        have hemit : s.emit = s3.doc :: s3.emit := by
          rw [u_emit_eq, hadv]
        have hlt := u_advance_uaM hadv
        by_cases hgt : s3.doc > t
        · rw [if_pos hgt] at h
          simp only [Prod.mk.injEq] at h
          obtain ⟨h1, h2⟩ := h
          subst h1
          subst h2
          refine ⟨fun hr => absurd hr.symm (by simp),
            fun hr => absurd hr.symm (by simp), fun _ => ⟨hgt, ?_⟩⟩
          rw [hemit, List.dropWhile_cons, if_neg (by simp; omega)]
        · rw [if_neg hgt] at h
          by_cases heq : s3.doc = t
          · rw [if_pos heq] at h
            simp only [Prod.mk.injEq] at h
            obtain ⟨h1, h2⟩ := h
            subst h1
            subst h2
            refine ⟨fun hr => absurd hr.symm (by simp), fun _ => ⟨heq, ?_⟩,
              fun hr => absurd hr.symm (by simp)⟩
            rw [hemit, List.dropWhile_cons, if_neg (by simp; omega), heq]
          · rw [if_neg heq] at h
            have hrec := ih s3 (by omega) t res s2 h
            have hdw : (s.emit).dropWhile (fun x => x < t)
                = (s3.emit).dropWhile (fun x => x < t) := by
              rw [hemit, List.dropWhile_cons, if_pos (by simp; omega)]
            refine ⟨fun hr => ?_, fun hr => ?_, fun hr => ?_⟩
            · obtain ⟨hh1, hh2⟩ := hrec.1 hr
              exact ⟨by rw [hdw]; exact hh1, hh2⟩
            · obtain ⟨hh1, hh2⟩ := hrec.2.1 hr
              exact ⟨hh1, by rw [hdw]; exact hh2⟩
            · obtain ⟨hh1, hh2⟩ := hrec.2.2 hr
              exact ⟨hh1, by rw [hdw]; exact hh2⟩

theorem u_skipNext_char {s : UnionDocSet} {t : Nat} (hok : uOk s)
    (hf : s.inner.finished = false)
    (hcurlt : ∀ v, s.current = some v → v < t) :
    ∀ res s2, UnionDocSet.skipNext t s = (res, s2) →
      (res = SkipResult.SEnd → s2.emit = [] ∧
        (s.emit).dropWhile (fun x => x < t) = []) ∧
      (res = SkipResult.Reached → s2.doc = t ∧
        (s.emit).dropWhile (fun x => x < t) = t :: s2.emit) ∧
      (res = SkipResult.OverStep → t < s2.doc ∧
        (s.emit).dropWhile (fun x => x < t) = s2.doc :: s2.emit) := by
  intro res s2 h
  obtain ⟨hok1, hfin1, hcur1⟩ := hok
  have hM := uaMerged_sorted hok1
  have hsemit : s.emit = dedupF s.current (uaMerged s.inner) :=
    u_emit_char_aux (uaM s.inner) s (Nat.le_refl _) ⟨hok1, hfin1, hcur1⟩
  have hcomm : (s.emit).dropWhile (fun x => x < t)
      = dedupF none ((uaMerged s.inner).dropWhile (fun x => x < t)) := by
    rw [hsemit]
    exact dedupF_dropWhile_comm (uaMerged s.inner) s.current t hM
      (fun v hv => ⟨hcurlt v hv, hcur1 v hv⟩)
  unfold UnionDocSet.skipNext at h
  cases hskip : UnionAllDocSet.skipNext t s.inner with
  | mk r inner2 =>
    rw [hskip] at h
    have hspec := ua_skipNext_spec hok1 hf r inner2 hskip
    cases r with
    | SEnd =>
      dsimp only at h
      simp only [Prod.mk.injEq] at h
      obtain ⟨h1, h2⟩ := h
      subst h1
      subst h2
      obtain ⟨_, hfin2, _, _, hdw⟩ := hspec.1 rfl
      refine ⟨fun _ => ⟨u_emit_finished hfin2, ?_⟩,
        fun hr => absurd hr.symm (by simp), fun hr => absurd hr.symm (by simp)⟩
      rw [hcomm, hdw]
      rfl
    | Reached =>
      dsimp only at h
      simp only [Prod.mk.injEq] at h
      obtain ⟨h1, h2⟩ := h
      subst h1
      subst h2
      obtain ⟨hok2, hfin2, hdoc2, _, hm2, rest, hr⟩ := hspec.2.1 rfl
      have hfl2 : ∀ x ∈ uaMerged inner2, inner2.doc ≤ x := by
        have hs2 := uaMerged_sorted hok2
        rw [hr] at hs2
        intro x hx
        rw [hr] at hx
        rcases List.mem_cons.mp hx with hh | hh
        · omega
        · have := chain_le_head_floor hs2 x hh
          rw [hdoc2]
          omega
      have hemit2 : (⟨inner2, some inner2.doc⟩ : UnionDocSet).emit
          = dedupF (some inner2.doc) (uaMerged inner2) :=
        u_emit_char_aux (uaM inner2) ⟨inner2, some inner2.doc⟩
          (Nat.le_refl _)
          ⟨hok2, by rw [hfin2]; simp, by
            intro v hv x hx
            simp only [Option.some.injEq] at hv
            subst hv
            exact hfl2 x hx⟩
      refine ⟨fun hr2 => absurd hr2.symm (by simp), fun _ => ⟨?_, ?_⟩,
        fun hr2 => absurd hr2.symm (by simp)⟩
      · show inner2.doc = t
        exact hdoc2
      · rw [hcomm, ← hm2, hr, hemit2, hr, hdoc2]
        simp [dedupF]
    | OverStep =>
      dsimp only at h
      simp only [Prod.mk.injEq] at h
      obtain ⟨h1, h2⟩ := h
      subst h1
      subst h2
      obtain ⟨hok2, hfin2, hgt2, _, hm2⟩ := hspec.2.2 rfl
      have hfl2 : ∀ x ∈ uaMerged inner2, inner2.doc ≤ x :=
        chain_le_head_floor (by
          rw [List.chain'_iff_pairwise]
          have hM2 := uaMerged_sorted hok1
          rw [List.chain'_iff_pairwise] at hM2
          have hsub : (inner2.doc :: uaMerged inner2).Sublist
              (uaMerged s.inner) := by
            rw [← hm2]
            exact List.dropWhile_sublist _
          exact hM2.sublist hsub)
      have hemit2 : (⟨inner2, some inner2.doc⟩ : UnionDocSet).emit
          = dedupF (some inner2.doc) (uaMerged inner2) :=
        u_emit_char_aux (uaM inner2) ⟨inner2, some inner2.doc⟩
          (Nat.le_refl _)
          ⟨hok2, by rw [hfin2]; simp, by
            intro v hv x hx
            simp only [Option.some.injEq] at hv
            subst hv
            exact hfl2 x hx⟩
      refine ⟨fun hr2 => absurd hr2.symm (by simp),
        fun hr2 => absurd hr2.symm (by simp), fun _ => ⟨hgt2, ?_⟩⟩
      rw [hcomm, hm2, hemit2]
      simp [dedupF]
      rfl

/-- C4 counterexample: on children `[1,3]` and `[1,4]` with target `1`,
`UnionAllDocSet::skip_next` answers `Reached` like the advance-until
reference, but it consumes nothing from the queue, so the docs emitted
afterwards are `[1,1,3,4]` — the reached doc `1` is emitted twice more —
while advancing until the target leaves `[1,3,4]`. -/
theorem claim_C4_counterexample :
    (UnionAllDocSet.skipNext 1 (mkUnionAll [1, 3] [1, 4])).1
      = SkipResult.Reached ∧
    (UnionAllDocSet.advanceUntil 1 (mkUnionAll [1, 3] [1, 4])).1
      = SkipResult.Reached ∧
    ((UnionAllDocSet.skipNext 1 (mkUnionAll [1, 3] [1, 4])).2).emit
      = [1, 1, 3, 4] ∧
    ((UnionAllDocSet.advanceUntil 1 (mkUnionAll [1, 3] [1, 4])).2).emit
      = [1, 3, 4] ∧
    ((UnionAllDocSet.skipNext 1 (mkUnionAll [1, 3] [1, 4])).2).emit
      ≠ ((UnionAllDocSet.advanceUntil 1 (mkUnionAll [1, 3] [1, 4])).2).emit
    := by decide

/-- C4 (amended): from a freshly built two-child set and any target,
`UnionDocSet::skip_next` is fully equivalent to advancing until the first
doc `≥ target` (same classification, same doc on success, same subsequent
emissions); `UnionAllDocSet::skip_next` matches the classification, and on
`OverStep` also the doc and the emissions, but on `Reached` it fails to
consume the reached doc, so it subsequently emits an extra leading `target`;
`DifferenceDocSet::skip_next` diverges outright: on left `[5,6]` minus right
`[5,6]` with target `5` it answers `OverStep` at doc `6` — a doc of the
right-hand set — where the reference process is exhausted (`End`). -/
theorem claim_C4_skip_equivalence (a b : List Nat) (t : Nat)
    (ha : List.Pairwise (· < ·) a) (hb : List.Pairwise (· < ·) b) :
    ((UnionAllDocSet.skipNext t (mkUnionAll a b)).1
      = (UnionAllDocSet.advanceUntil t (mkUnionAll a b)).1) ∧
    ((UnionAllDocSet.skipNext t (mkUnionAll a b)).1 = SkipResult.OverStep →
      ((UnionAllDocSet.skipNext t (mkUnionAll a b)).2).doc
        = ((UnionAllDocSet.advanceUntil t (mkUnionAll a b)).2).doc ∧
      ((UnionAllDocSet.skipNext t (mkUnionAll a b)).2).emit
        = ((UnionAllDocSet.advanceUntil t (mkUnionAll a b)).2).emit) ∧
    ((UnionAllDocSet.skipNext t (mkUnionAll a b)).1 = SkipResult.Reached →
      ((UnionAllDocSet.skipNext t (mkUnionAll a b)).2).doc
        = ((UnionAllDocSet.advanceUntil t (mkUnionAll a b)).2).doc ∧
      ((UnionAllDocSet.skipNext t (mkUnionAll a b)).2).emit
        = t :: ((UnionAllDocSet.advanceUntil t (mkUnionAll a b)).2).emit) ∧
    ((UnionAllDocSet.skipNext t (mkUnionAll a b)).1 = SkipResult.SEnd →
      ((UnionAllDocSet.skipNext t (mkUnionAll a b)).2).emit = [] ∧
      ((UnionAllDocSet.advanceUntil t (mkUnionAll a b)).2).emit = []) ∧
    ((UnionDocSet.skipNext t (mkUnion a b)).1
      = (UnionDocSet.advanceUntil t (mkUnion a b)).1) ∧
    ((UnionDocSet.skipNext t (mkUnion a b)).1 ≠ SkipResult.SEnd →
      ((UnionDocSet.skipNext t (mkUnion a b)).2).doc
        = ((UnionDocSet.advanceUntil t (mkUnion a b)).2).doc) ∧
    (((UnionDocSet.skipNext t (mkUnion a b)).2).emit
      = ((UnionDocSet.advanceUntil t (mkUnion a b)).2).emit) ∧
    (DifferenceDocSet.skipNext 5 (mkDifference [5, 6] [5, 6])).1
      = SkipResult.OverStep ∧
    ((DifferenceDocSet.skipNext 5 (mkDifference [5, 6] [5, 6])).2).doc = 6 ∧
    (6 : Nat) ∈ [5, 6] ∧
    (DifferenceDocSet.advanceUntil 5 (mkDifference [5, 6] [5, 6])).1
      = SkipResult.SEnd := by
  obtain ⟨hok, hfin, hm⟩ := mkUnionAll_spec ha hb
  have hsemit : (mkUnionAll a b).emit = uaMerged (mkUnionAll a b) :=
    ua_emit_merged hok hfin
  cases hsk : UnionAllDocSet.skipNext t (mkUnionAll a b) with
  | mk r1 s1 =>
    cases hau : UnionAllDocSet.advanceUntil t (mkUnionAll a b) with
    | mk r2 s2 =>
      have hspecS := ua_skipNext_spec hok hfin r1 s1 hsk
      have hspecA := ua_advanceUntil_char_aux (uaM (mkUnionAll a b))
        (mkUnionAll a b) (Nat.le_refl _) t r2 s2 hau
      have hdwe : ((mkUnionAll a b).emit).dropWhile (fun x => x < t)
          = (uaMerged (mkUnionAll a b)).dropWhile (fun x => x < t) := by
        rw [hsemit]
      have huok : uOk (mkUnion a b) :=
        ⟨hok, by
          intro hc
          have hc2 : (mkUnionAll a b).finished = true := hc
          rw [hfin] at hc2
          simp at hc2,
          by intro v hv; simp [mkUnion] at hv⟩
      have hucur : ∀ v, (mkUnion a b).current = some v → v < t := by
        intro v hv
        simp [mkUnion] at hv
      cases husk : UnionDocSet.skipNext t (mkUnion a b) with
      | mk q1 u1 =>
        cases huau : UnionDocSet.advanceUntil t (mkUnion a b) with
        | mk q2 u2 =>
          have hspecUS := u_skipNext_char huok hfin hucur q1 u1 husk
          have hspecUA := u_advanceUntil_char_aux
            (uaM (mkUnion a b).inner) (mkUnion a b) (Nat.le_refl _)
            t q2 u2 huau
          dsimp only
          refine ⟨?_, ?_, ?_, ?_, ?_, ?_, ?_, by decide, by decide,
            by decide, by decide⟩
          · -- union-all classification
            cases r1 with
            | SEnd =>
              obtain ⟨_, _, _, _, hdw⟩ := hspecS.1 rfl
              cases r2 with
              | SEnd => rfl
              | Reached =>
                obtain ⟨_, hc⟩ := hspecA.2.1 rfl
                rw [hdwe, hdw] at hc
                simp at hc
              | OverStep =>
                obtain ⟨_, hc⟩ := hspecA.2.2 rfl
                rw [hdwe, hdw] at hc
                simp at hc
            | Reached =>
              obtain ⟨_, _, _, _, hm1, rest, hr⟩ := hspecS.2.1 rfl
              cases r2 with
              | SEnd =>
                obtain ⟨hc, _⟩ := hspecA.1 rfl
                rw [hdwe, ← hm1, hr] at hc
                simp at hc
              | Reached => rfl
              | OverStep =>
                obtain ⟨hgt, hc⟩ := hspecA.2.2 rfl
                rw [hdwe, ← hm1, hr] at hc
                simp at hc
                omega
            | OverStep =>
              obtain ⟨_, _, hgt, _, hdw⟩ := hspecS.2.2 rfl
              cases r2 with
              | SEnd =>
                obtain ⟨hc, _⟩ := hspecA.1 rfl
                rw [hdwe, hdw] at hc
                simp at hc
              | Reached =>
                obtain ⟨_, hc⟩ := hspecA.2.1 rfl
                rw [hdwe, hdw] at hc
                simp at hc
                omega
              | OverStep => rfl
          · -- union-all OverStep: doc and emissions agree
            intro hr1
            subst hr1
            obtain ⟨hok1, hfin1, hgt, _, hdw⟩ := hspecS.2.2 rfl
            have hr2 : r2 = SkipResult.OverStep := by
              cases r2 with
              | SEnd =>
                obtain ⟨hc, _⟩ := hspecA.1 rfl
                rw [hdwe, hdw] at hc
                simp at hc
              | Reached =>
                obtain ⟨_, hc⟩ := hspecA.2.1 rfl
                rw [hdwe, hdw] at hc
                simp at hc
                omega
              | OverStep => rfl
            subst hr2
            obtain ⟨_, hc⟩ := hspecA.2.2 rfl
            rw [hdwe, hdw] at hc
            have hemit1 : s1.emit = uaMerged s1 := ua_emit_merged hok1 hfin1
            rw [← hemit1] at hc
            simp only [List.cons.injEq] at hc
            exact ⟨hc.1, hc.2⟩
          · -- union-all Reached: doc agrees, one extra leading target
            intro hr1
            subst hr1
            obtain ⟨hok1, hfin1, hd1, _, hm1, rest, hr⟩ := hspecS.2.1 rfl
            have hr2 : r2 = SkipResult.Reached := by
              cases r2 with
              | SEnd =>
                obtain ⟨hc, _⟩ := hspecA.1 rfl
                rw [hdwe, ← hm1, hr] at hc
                simp at hc
              | Reached => rfl
              | OverStep =>
                obtain ⟨hgt, hc⟩ := hspecA.2.2 rfl
                rw [hdwe, ← hm1, hr] at hc
                simp at hc
                omega
            subst hr2
            obtain ⟨hd2, hc⟩ := hspecA.2.1 rfl
            have hemit1 : s1.emit = uaMerged s1 := ua_emit_merged hok1 hfin1
            refine ⟨by rw [hd1, hd2], ?_⟩
            rw [hemit1, hm1, ← hdwe, hc]
          · -- union-all SEnd: nothing further from either side
            intro hr1
            subst hr1
            obtain ⟨_, hfin1, _, _, hdw⟩ := hspecS.1 rfl
            have hr2 : r2 = SkipResult.SEnd := by
              cases r2 with
              | SEnd => rfl
              | Reached =>
                obtain ⟨_, hc⟩ := hspecA.2.1 rfl
                rw [hdwe, hdw] at hc
                simp at hc
              | OverStep =>
                obtain ⟨_, hc⟩ := hspecA.2.2 rfl
                rw [hdwe, hdw] at hc
                simp at hc
            subst hr2
            exact ⟨ua_emit_finished hfin1, (hspecA.1 rfl).2⟩
          · -- union classification
            cases hq1 : q1 with
            | SEnd =>
              obtain ⟨_, hdw⟩ := hspecUS.1 hq1
              cases q2 with
              | SEnd => rfl
              | Reached =>
                obtain ⟨_, hc⟩ := hspecUA.2.1 rfl
                rw [hdw] at hc
                simp at hc
              | OverStep =>
                obtain ⟨_, hc⟩ := hspecUA.2.2 rfl
                rw [hdw] at hc
                simp at hc
            | Reached =>
              obtain ⟨_, hdw⟩ := hspecUS.2.1 hq1
              cases q2 with
              | SEnd =>
                obtain ⟨hc, _⟩ := hspecUA.1 rfl
                rw [hdw] at hc
                simp at hc
              | Reached => rfl
              | OverStep =>
                obtain ⟨hgt, hc⟩ := hspecUA.2.2 rfl
                rw [hdw] at hc
                simp at hc
                omega
            | OverStep =>
              obtain ⟨hgt, hdw⟩ := hspecUS.2.2 hq1
              cases q2 with
              | SEnd =>
                obtain ⟨hc, _⟩ := hspecUA.1 rfl
                rw [hdw] at hc
                simp at hc
              | Reached =>
                obtain ⟨_, hc⟩ := hspecUA.2.1 rfl
                rw [hdw] at hc
                simp at hc
                omega
              | OverStep => rfl
          · -- union doc on success
            intro hne
            cases hq1 : q1 with
            | SEnd => exact absurd hq1 hne
            | Reached =>
              obtain ⟨hd1, hdw⟩ := hspecUS.2.1 hq1
              have hq2 : q2 = SkipResult.Reached := by
                cases q2 with
                | SEnd =>
                  obtain ⟨hc, _⟩ := hspecUA.1 rfl
                  rw [hdw] at hc
                  simp at hc
                | Reached => rfl
                | OverStep =>
                  obtain ⟨hgt, hc⟩ := hspecUA.2.2 rfl
                  rw [hdw] at hc
                  simp at hc
                  omega
              subst hq2
              obtain ⟨hd2, _⟩ := hspecUA.2.1 rfl
              rw [hd1, hd2]
            | OverStep =>
              obtain ⟨hgt, hdw⟩ := hspecUS.2.2 hq1
              have hq2 : q2 = SkipResult.OverStep := by
                cases q2 with
                | SEnd =>
                  obtain ⟨hc, _⟩ := hspecUA.1 rfl
                  rw [hdw] at hc
                  simp at hc
                | Reached =>
                  obtain ⟨_, hc⟩ := hspecUA.2.1 rfl
                  rw [hdw] at hc
                  simp at hc
                  omega
                | OverStep => rfl
              subst hq2
              obtain ⟨_, hc⟩ := hspecUA.2.2 rfl
              rw [hdw] at hc
              simp only [List.cons.injEq] at hc
              exact hc.1
          · -- union emissions
            cases hq1 : q1 with
            | SEnd =>
              obtain ⟨he1, hdw⟩ := hspecUS.1 hq1
              have hq2 : q2 = SkipResult.SEnd := by
                cases q2 with
                | SEnd => rfl
                | Reached =>
                  obtain ⟨_, hc⟩ := hspecUA.2.1 rfl
                  rw [hdw] at hc
                  simp at hc
                | OverStep =>
                  obtain ⟨_, hc⟩ := hspecUA.2.2 rfl
                  rw [hdw] at hc
                  simp at hc
              subst hq2
              rw [he1, (hspecUA.1 rfl).2]
            | Reached =>
              obtain ⟨hd1, hdw⟩ := hspecUS.2.1 hq1
              have hq2 : q2 = SkipResult.Reached := by
                cases q2 with
                | SEnd =>
                  obtain ⟨hc, _⟩ := hspecUA.1 rfl
                  rw [hdw] at hc
                  simp at hc
                | Reached => rfl
                | OverStep =>
                  obtain ⟨hgt, hc⟩ := hspecUA.2.2 rfl
                  rw [hdw] at hc
                  simp at hc
                  omega
              subst hq2
              obtain ⟨_, hc⟩ := hspecUA.2.1 rfl
              rw [hdw] at hc
              simp only [List.cons.injEq, true_and] at hc
              exact hc
            | OverStep =>
              obtain ⟨hgt, hdw⟩ := hspecUS.2.2 hq1
              have hq2 : q2 = SkipResult.OverStep := by
                cases q2 with
                | SEnd =>
                  obtain ⟨hc, _⟩ := hspecUA.1 rfl
                  rw [hdw] at hc
                  simp at hc
                | Reached =>
                  obtain ⟨_, hc⟩ := hspecUA.2.1 rfl
                  rw [hdw] at hc
                  simp at hc
                  omega
                | OverStep => rfl
              subst hq2
              obtain ⟨_, hc⟩ := hspecUA.2.2 rfl
              rw [hdw] at hc
              simp only [List.cons.injEq] at hc
              exact hc.2

theorem claim_C4_witness :
    ((UnionAllDocSet.skipNext 5 (mkUnionAll [1, 3, 9] [3, 4, 9, 18])).1
      = (UnionAllDocSet.advanceUntil 5 (mkUnionAll [1, 3, 9] [3, 4, 9, 18])).1) ∧
    ((UnionAllDocSet.skipNext 5 (mkUnionAll [1, 3, 9] [3, 4, 9, 18])).1
        = SkipResult.OverStep →
      ((UnionAllDocSet.skipNext 5 (mkUnionAll [1, 3, 9] [3, 4, 9, 18])).2).doc
        = ((UnionAllDocSet.advanceUntil 5
            (mkUnionAll [1, 3, 9] [3, 4, 9, 18])).2).doc ∧
      ((UnionAllDocSet.skipNext 5 (mkUnionAll [1, 3, 9] [3, 4, 9, 18])).2).emit
        = ((UnionAllDocSet.advanceUntil 5
            (mkUnionAll [1, 3, 9] [3, 4, 9, 18])).2).emit) ∧
    ((UnionAllDocSet.skipNext 5 (mkUnionAll [1, 3, 9] [3, 4, 9, 18])).1
        = SkipResult.Reached →
      ((UnionAllDocSet.skipNext 5 (mkUnionAll [1, 3, 9] [3, 4, 9, 18])).2).doc
        = ((UnionAllDocSet.advanceUntil 5
            (mkUnionAll [1, 3, 9] [3, 4, 9, 18])).2).doc ∧
      ((UnionAllDocSet.skipNext 5 (mkUnionAll [1, 3, 9] [3, 4, 9, 18])).2).emit
        = 5 :: ((UnionAllDocSet.advanceUntil 5
            (mkUnionAll [1, 3, 9] [3, 4, 9, 18])).2).emit) ∧
    ((UnionAllDocSet.skipNext 5 (mkUnionAll [1, 3, 9] [3, 4, 9, 18])).1
        = SkipResult.SEnd →
      ((UnionAllDocSet.skipNext 5 (mkUnionAll [1, 3, 9] [3, 4, 9, 18])).2).emit
        = [] ∧
      ((UnionAllDocSet.advanceUntil 5
          (mkUnionAll [1, 3, 9] [3, 4, 9, 18])).2).emit = []) ∧
    ((UnionDocSet.skipNext 5 (mkUnion [1, 3, 9] [3, 4, 9, 18])).1
      = (UnionDocSet.advanceUntil 5 (mkUnion [1, 3, 9] [3, 4, 9, 18])).1) ∧
    ((UnionDocSet.skipNext 5 (mkUnion [1, 3, 9] [3, 4, 9, 18])).1
        ≠ SkipResult.SEnd →
      ((UnionDocSet.skipNext 5 (mkUnion [1, 3, 9] [3, 4, 9, 18])).2).doc
        = ((UnionDocSet.advanceUntil 5
            (mkUnion [1, 3, 9] [3, 4, 9, 18])).2).doc) ∧
    (((UnionDocSet.skipNext 5 (mkUnion [1, 3, 9] [3, 4, 9, 18])).2).emit
      = ((UnionDocSet.advanceUntil 5 (mkUnion [1, 3, 9] [3, 4, 9, 18])).2).emit) ∧
    (DifferenceDocSet.skipNext 5 (mkDifference [5, 6] [5, 6])).1
      = SkipResult.OverStep ∧
    ((DifferenceDocSet.skipNext 5 (mkDifference [5, 6] [5, 6])).2).doc = 6 ∧
    (6 : Nat) ∈ [5, 6] ∧
    (DifferenceDocSet.advanceUntil 5 (mkDifference [5, 6] [5, 6])).1
      = SkipResult.SEnd :=
  claim_C4_skip_equivalence [1, 3, 9] [3, 4, 9, 18] 5 (by decide) (by decide)

theorem chain'_cons_of_head {d : Nat} {l : List Nat}
    (hc : List.Chain' (· ≤ ·) l) (hh : ∀ x ∈ l, d ≤ x) :
    List.Chain' (· ≤ ·) (d :: l) := by
  cases l with
  | nil => simp
  | cons a l =>
    exact List.Chain'.cons (hh a (List.mem_cons_self a l)) hc

theorem chain'_lt_cons_of_head {d : Nat} {l : List Nat}
    (hc : List.Chain' (· < ·) l) (hh : ∀ x ∈ l, d < x) :
    List.Chain' (· < ·) (d :: l) := by
  cases l with
  | nil => simp
  | cons a l =>
    exact List.Chain'.cons (hh a (List.mem_cons_self a l)) hc

theorem ua_skipNext_mono {t : Nat} {s : UnionAllDocSet} (hok : uaOk s) :
    ∀ r s2, UnionAllDocSet.skipNext t s = (r, s2) →
      uaOk s2 ∧ s.doc ≤ s2.doc := by
  intro r s2 h
  by_cases hf : s.finished = true
  · unfold UnionAllDocSet.skipNext at h
    rw [if_pos hf] at h
    simp only [Prod.mk.injEq] at h
    rw [← h.2]
    exact ⟨hok, Nat.le_refl _⟩
  · have hf' : s.finished = false := by simpa using hf
    have hspec := ua_skipNext_spec hok hf' r s2 h
    cases r with
    | SEnd =>
      obtain ⟨hok2, _, hdoc, _, _⟩ := hspec.1 rfl
      exact ⟨hok2, by omega⟩
    | Reached =>
      obtain ⟨hok2, _, hdoc, hle, _, _⟩ := hspec.2.1 rfl
      exact ⟨hok2, by omega⟩
    | OverStep =>
      obtain ⟨hok2, _, _, hle, _⟩ := hspec.2.2 rfl
      exact ⟨hok2, hle⟩

theorem runUA_mono : ∀ (ops : List DocSetOp) (s : UnionAllDocSet),
    uaOk s → List.Chain' (· ≤ ·) (runUA s ops) ∧
      ∀ x ∈ runUA s ops, s.doc ≤ x := by
  intro ops
  induction ops with
  | nil => intro s _; simp [runUA]
  | cons op ops ih =>
    intro s hok
    cases op with
    | adv =>
      cases hadv : s.advance with
      | mk ok s2 =>
        cases ok with
        | false =>
          obtain ⟨hok2, hdoc2, _, _⟩ := ua_advance_false hok hadv
          have hrec := ih s2 hok2
          constructor
          · show List.Chain' _ (runUA s (DocSetOp.adv :: ops))
            unfold runUA
            rw [hadv]
            exact hrec.1
          · intro x hx
            unfold runUA at hx
            rw [hadv] at hx
            have := hrec.2 x hx
            omega
        | true =>
          obtain ⟨hok2, _, hdle, _⟩ := ua_advance_true hok hadv
          have hrec := ih s2 hok2
          constructor
          · show List.Chain' _ (runUA s (DocSetOp.adv :: ops))
            unfold runUA
            rw [hadv]
            exact chain'_cons_of_head hrec.1 hrec.2
          · intro x hx
            unfold runUA at hx
            rw [hadv] at hx
            rcases List.mem_cons.mp hx with hh | hh
            · omega
            · have := hrec.2 x hh
              omega
    | skip t =>
      cases hsk : UnionAllDocSet.skipNext t s with
      | mk r s2 =>
        obtain ⟨hok2, hdle⟩ := ua_skipNext_mono hok r s2 hsk
        have hrec := ih s2 hok2
        constructor
        · show List.Chain' _ (runUA s (DocSetOp.skip t :: ops))
          unfold runUA
          rw [hsk]
          exact hrec.1
        · intro x hx
          unfold runUA at hx
          rw [hsk] at hx
          have := hrec.2 x hx
          omega

theorem u_emit_gt {s : UnionDocSet} {v : Nat} (hok : uOk s)
    (hc : s.current = some v) : ∀ x ∈ s.emit, v < x := by
  obtain ⟨hok1, hfin1, hcur1⟩ := hok
  have he : s.emit = dedupF s.current (uaMerged s.inner) :=
    u_emit_char_aux (uaM s.inner) s (Nat.le_refl _) ⟨hok1, hfin1, hcur1⟩
  intro x hx
  rw [he, hc] at hx
  have hd := dedupF_chain (uaMerged s.inner) (some v)
    (uaMerged_sorted hok1)
    (by intro w hw; simp only [Option.some.injEq] at hw; subst hw
        exact hcur1 v hc)
  exact hd.2.1 x hx v rfl

theorem u_advance_true_ok {s s2 : UnionDocSet} (hok : uOk s)
    (h : s.advance = (true, s2)) :
    uOk s2 ∧ s2.current = some s2.doc := by
  obtain ⟨hok1, hfin1, hcur1⟩ := hok
  unfold UnionDocSet.advance at h
  cases hadv : s.inner.advance with
  | mk ok inner =>
    rw [hadv] at h
    cases ok with
    | false => simp at h
    | true =>
      obtain ⟨hok2, hfin2, _, hm⟩ := ua_advance_true hok1 hadv
      have hsorted := uaMerged_sorted hok1
      rw [hm] at hsorted
      have hfloor2 : ∀ x ∈ uaMerged inner, inner.doc ≤ x :=
        chain_le_head_floor hsorted
      simp only [Bool.not_true, Bool.false_eq_true, if_false] at h
      by_cases hcur : some inner.doc = s.current
      · rw [if_pos hcur] at h
        cases hskip : UnionAllDocSet.skipNext (inner.doc + 1) inner with
        | mk r inner3 =>
          rw [hskip] at h
          have hspec := ua_skipNext_spec hok2 hfin2 r inner3 hskip
          cases r with
          | SEnd => simp at h
          | Reached =>
            simp only [Prod.mk.injEq, true_and] at h
            rw [← h]
            obtain ⟨hok3, hfin3, hdoc3, _, hm3, rest, hr⟩ := hspec.2.1 rfl
            have hfl3 : ∀ x ∈ uaMerged inner3, inner3.doc ≤ x := by
              have hs3 := uaMerged_sorted hok3
              rw [hr] at hs3
              intro x hx
              rw [hr] at hx
              rcases List.mem_cons.mp hx with hh | hh
              · omega
              · have := chain_le_head_floor hs3 x hh
                rw [hdoc3]
                omega
            exact ⟨⟨hok3, by rw [hfin3]; simp, by
              intro v hv x hx
              simp only [Option.some.injEq] at hv
              subst hv
              exact hfl3 x hx⟩, rfl⟩
          | OverStep =>
            simp only [Prod.mk.injEq, true_and] at h
            rw [← h]
            obtain ⟨hok3, hfin3, _, _, hm3⟩ := hspec.2.2 rfl
            have hfl3 : ∀ x ∈ uaMerged inner3, inner3.doc ≤ x :=
              chain_le_head_floor (by
                rw [List.chain'_iff_pairwise]
                have hM2 := uaMerged_sorted hok2
                rw [List.chain'_iff_pairwise] at hM2
                have hsub : (inner3.doc :: uaMerged inner3).Sublist
                    (uaMerged inner) := by
                  rw [← hm3]
                  exact List.dropWhile_sublist _
                exact hM2.sublist hsub)
            exact ⟨⟨hok3, by rw [hfin3]; simp, by
              intro v hv x hx
              simp only [Option.some.injEq] at hv
              subst hv
              exact hfl3 x hx⟩, rfl⟩
      · rw [if_neg hcur] at h
        simp only [Prod.mk.injEq, true_and] at h
        rw [← h]
        exact ⟨⟨hok2, by rw [hfin2]; simp, by
          intro v hv x hx
          simp only [Option.some.injEq] at hv
          subst hv
          exact hfloor2 x hx⟩, rfl⟩

theorem u_advance_false_ok {s s2 : UnionDocSet} (hok : uOk s)
    (h : s.advance = (false, s2)) : uOk s2 ∧ s2.emit = [] := by
  obtain ⟨hok1, hfin1, hcur1⟩ := hok
  have hfin2 := u_advance_false_inner_finished h
  have hemit2 : s2.emit = [] := u_emit_finished hfin2
  unfold UnionDocSet.advance at h
  cases hadv : s.inner.advance with
  | mk ok inner =>
    rw [hadv] at h
    cases ok with
    | false =>
      simp at h
      rw [← h] at hemit2
      rw [← h]
      obtain ⟨hoki, hdoci, hmi, himp⟩ := ua_advance_false hok1 hadv
      refine ⟨⟨hoki, fun _ => ?_, ?_⟩, hemit2⟩
      · rw [hmi]
        by_cases hsf : s.inner.finished = true
        · exact hfin1 hsf
        · exact himp (by simpa using hsf)
      · intro v hv x hx
        rw [hmi] at hx
        exact hcur1 v hv x hx
    | true =>
      obtain ⟨hok2, hfin2i, _, hm⟩ := ua_advance_true hok1 hadv
      simp only [Bool.not_true, Bool.false_eq_true, if_false] at h
      by_cases hcur : some inner.doc = s.current
      · rw [if_pos hcur] at h
        cases hskip : UnionAllDocSet.skipNext (inner.doc + 1) inner with
        | mk r inner3 =>
          rw [hskip] at h
          have hspec := ua_skipNext_spec hok2 hfin2i r inner3 hskip
          cases r with
          | SEnd =>
            simp at h
            rw [← h] at hemit2
            rw [← h]
            obtain ⟨hok3, _, _, hm3, _⟩ := hspec.1 rfl
            exact ⟨⟨hok3, fun _ => hm3, by
              intro v hv x hx
              rw [hm3] at hx
              simp at hx⟩, hemit2⟩
          | Reached => simp at h
          | OverStep => simp at h
      · rw [if_neg hcur] at h
        simp at h

theorem u_skipNext_ok {t : Nat} {s : UnionDocSet} (hok : uOk s) :
    ∀ r s3, UnionDocSet.skipNext t s = (r, s3) →
      uOk s3 ∧ ∀ x ∈ s3.emit, x ∈ s.emit := by
  intro r s3 h
  obtain ⟨hok1, hfin1, hcur1⟩ := hok
  have hemit : s.emit = dedupF s.current (uaMerged s.inner) :=
    u_emit_char_aux (uaM s.inner) s (Nat.le_refl _) ⟨hok1, hfin1, hcur1⟩
  unfold UnionDocSet.skipNext at h
  by_cases hf : s.inner.finished = true
  · have hid : UnionAllDocSet.skipNext t s.inner
        = (SkipResult.SEnd, s.inner) := by
      unfold UnionAllDocSet.skipNext
      rw [if_pos hf]
    rw [hid] at h
    simp only [Prod.mk.injEq] at h
    rw [← h.2]
    exact ⟨⟨hok1, hfin1, hcur1⟩, fun x hx => hx⟩
  · have hf' : s.inner.finished = false := by simpa using hf
    cases hskip : UnionAllDocSet.skipNext t s.inner with
    | mk r0 inner2 =>
      rw [hskip] at h
      have hspec := ua_skipNext_spec hok1 hf' r0 inner2 hskip
      cases r0 with
      | SEnd =>
        dsimp only at h
        simp only [Prod.mk.injEq] at h
        rw [← h.2]
        obtain ⟨hok2, hfin2, _, hm2, _⟩ := hspec.1 rfl
        refine ⟨⟨hok2, fun _ => hm2, by
          intro v hv x hx
          rw [hm2] at hx
          simp at hx⟩, ?_⟩
        intro x hx
        rw [show ({ s with inner := inner2 } : UnionDocSet).emit = []
          from u_emit_finished hfin2] at hx
        simp at hx
      | Reached =>
        dsimp only at h
        simp only [Prod.mk.injEq] at h
        rw [← h.2]
        obtain ⟨hok2, hfin2, hdoc2, _, hm2, rest, hr⟩ := hspec.2.1 rfl
        have hfl2 : ∀ x ∈ uaMerged inner2, inner2.doc ≤ x := by
          have hs2 := uaMerged_sorted hok2
          rw [hr] at hs2
          intro x hx
          rw [hr] at hx
          rcases List.mem_cons.mp hx with hh | hh
          · omega
          · have := chain_le_head_floor hs2 x hh
            rw [hdoc2]
            omega
        have huok2 : uOk ⟨inner2, some inner2.doc⟩ :=
          ⟨hok2, by rw [hfin2]; simp, by
            intro v hv x hx
            simp only [Option.some.injEq] at hv
            subst hv
            exact hfl2 x hx⟩
        refine ⟨huok2, ?_⟩
        intro x hx
        have hemit2 : (⟨inner2, some inner2.doc⟩ : UnionDocSet).emit
            = dedupF (some inner2.doc) (uaMerged inner2) :=
          u_emit_char_aux (uaM inner2) _ (Nat.le_refl _) huok2
        rw [hemit2] at hx
        have hd2 := dedupF_chain (uaMerged inner2) (some inner2.doc)
          (uaMerged_sorted hok2)
          (by intro w hw; simp only [Option.some.injEq] at hw; subst hw
              exact hfl2)
        have hxin2 : x ∈ uaMerged inner2 := hd2.2.2.1 x hx
        have hxgt : inner2.doc < x := hd2.2.1 x hx inner2.doc rfl
        have hsub : (uaMerged inner2).Sublist (uaMerged s.inner) := by
          rw [hm2]
          exact List.dropWhile_sublist _
        have hxin : x ∈ uaMerged s.inner := hsub.subset hxin2
        rw [hemit]
        have hdS := dedupF_chain (uaMerged s.inner) s.current
          (uaMerged_sorted hok1) hcur1
        refine hdS.2.2.2 x hxin ?_
        intro v hv
        have hvle : v ≤ inner2.doc := by
          have htin : inner2.doc ∈ uaMerged s.inner := by
            refine hsub.subset ?_
            rw [hr, hdoc2]
            exact List.mem_cons_self _ _
          exact hcur1 v hv inner2.doc htin
        omega
      | OverStep =>
        dsimp only at h
        simp only [Prod.mk.injEq] at h
        rw [← h.2]
        obtain ⟨hok2, hfin2, hgt2, _, hm2⟩ := hspec.2.2 rfl
        have hsubc : (inner2.doc :: uaMerged inner2).Sublist
            (uaMerged s.inner) := by
          rw [← hm2]
          exact List.dropWhile_sublist _
        have hfl2 : ∀ x ∈ uaMerged inner2, inner2.doc ≤ x :=
          chain_le_head_floor (by
            rw [List.chain'_iff_pairwise]
            have hM2 := uaMerged_sorted hok1
            rw [List.chain'_iff_pairwise] at hM2
            exact hM2.sublist hsubc)
        have huok2 : uOk ⟨inner2, some inner2.doc⟩ :=
          ⟨hok2, by rw [hfin2]; simp, by
            intro v hv x hx
            simp only [Option.some.injEq] at hv
            subst hv
            exact hfl2 x hx⟩
        refine ⟨huok2, ?_⟩
        intro x hx
        have hemit2 : (⟨inner2, some inner2.doc⟩ : UnionDocSet).emit
            = dedupF (some inner2.doc) (uaMerged inner2) :=
          u_emit_char_aux (uaM inner2) _ (Nat.le_refl _) huok2
        rw [hemit2] at hx
        have hd2 := dedupF_chain (uaMerged inner2) (some inner2.doc)
          (uaMerged_sorted hok2)
          (by intro w hw; simp only [Option.some.injEq] at hw; subst hw
              exact hfl2)
        have hxin2 : x ∈ uaMerged inner2 := hd2.2.2.1 x hx
        have hxgt : inner2.doc < x := hd2.2.1 x hx inner2.doc rfl
        have hxin : x ∈ uaMerged s.inner :=
          hsubc.subset (List.mem_cons.mpr (Or.inr hxin2))
        rw [hemit]
        have hdS := dedupF_chain (uaMerged s.inner) s.current
          (uaMerged_sorted hok1) hcur1
        refine hdS.2.2.2 x hxin ?_
        intro v hv
        have hvle : v ≤ inner2.doc := by
          have htin : inner2.doc ∈ uaMerged s.inner :=
            hsubc.subset (List.mem_cons_self _ _)
          exact hcur1 v hv inner2.doc htin
        omega

theorem runU_mono : ∀ (ops : List DocSetOp) (s : UnionDocSet)
    (c : Option Nat), uOk s →
    (∀ v, c = some v → ∀ x ∈ s.emit, v < x) →
    List.Chain' (· < ·) (runU s ops) ∧
      (∀ v, c = some v → ∀ x ∈ runU s ops, v < x) := by
  intro ops
  induction ops with
  | nil => intro s c _ _; simp [runU]
  | cons op ops ih =>
    intro s c hok hfl
    cases op with
    | adv =>
      cases hadv : s.advance with
      | mk ok s2 =>
        cases ok with
        | false =>
          obtain ⟨hok2, hemit2⟩ := u_advance_false_ok hok hadv
          have hrec := ih s2 c hok2 (by
            intro v hv x hx
            rw [hemit2] at hx
            simp at hx)
          constructor
          · show List.Chain' _ (runU s (DocSetOp.adv :: ops))
            unfold runU
            rw [hadv]
            exact hrec.1
          · intro v hv x hx
            unfold runU at hx
            rw [hadv] at hx
            exact hrec.2 v hv x hx
        | true =>
          obtain ⟨hok2, hcur2⟩ := u_advance_true_ok hok hadv
          have hgt2 : ∀ x ∈ s2.emit, s2.doc < x := u_emit_gt hok2 hcur2
          have hemit : s.emit = s2.doc :: s2.emit := by
            rw [u_emit_eq, hadv]
          have hrec := ih s2 (some s2.doc) hok2 (by
            intro v hv x hx
            simp only [Option.some.injEq] at hv
            subst hv
            exact hgt2 x hx)
          constructor
          · show List.Chain' _ (runU s (DocSetOp.adv :: ops))
            unfold runU
            rw [hadv]
            exact chain'_lt_cons_of_head hrec.1
              (fun x hx => hrec.2 s2.doc rfl x hx)
          · intro v hv x hx
            unfold runU at hx
            rw [hadv] at hx
            have hvd : v < s2.doc := by
              refine hfl v hv s2.doc ?_
              rw [hemit]
              exact List.mem_cons_self _ _
            rcases List.mem_cons.mp hx with hh | hh
            · omega
            · have := hrec.2 s2.doc rfl x hh
              omega
    | skip t =>
      cases hsk : UnionDocSet.skipNext t s with
      | mk r s3 =>
        obtain ⟨hok3, hsub⟩ := u_skipNext_ok hok r s3 hsk
        have hrec := ih s3 c hok3 (by
          intro v hv x hx
          exact hfl v hv x (hsub x hx))
        constructor
        · show List.Chain' _ (runU s (DocSetOp.skip t :: ops))
          unfold runU
          rw [hsk]
          exact hrec.1
        · intro v hv x hx
          unfold runU at hx
          rw [hsk] at hx
          exact hrec.2 v hv x hx

theorem vec_advance_mono {v v2 : VecPostings} {b : Bool}
    (h : v.advance = (b, v2)) (hvp : vpOk v) :
    vpOk v2 ∧ (∀ w, v.cur = some w → ∃ w2, v2.cur = some w2 ∧ w ≤ w2) ∧
    (b = true → ∃ d, v2.cur = some d ∧ v2.doc = d ∧
      (∀ w, v.cur = some w → w < d)) := by
  rw [vec_advance_eq] at h
  cases hrem : v.remaining with
  | nil =>
    rw [hrem] at h
    simp only [Prod.mk.injEq] at h
    obtain ⟨hb, hv⟩ := h
    subst hb
    rw [← hv]
    refine ⟨hvp, fun w hw => ⟨w, hw, Nat.le_refl _⟩, by simp⟩
  | cons x xs =>
    rw [hrem] at h
    simp only [Prod.mk.injEq] at h
    obtain ⟨hb, hv⟩ := h
    subst hb
    rw [← hv]
    have hpw : List.Pairwise (· < ·) (v.cur.toList ++ v.remaining) := hvp
    rw [hrem] at hpw
    refine ⟨?_, ?_, ?_⟩
    · unfold vpOk
      simp only [Option.toList_some, List.singleton_append]
      cases hc : v.cur with
      | none =>
        rw [hc] at hpw
        simpa using hpw
      | some w =>
        rw [hc] at hpw
        simp only [Option.toList_some, List.singleton_append] at hpw
        exact hpw.tail
    · intro w hw
      refine ⟨x, rfl, ?_⟩
      rw [hw] at hpw
      simp only [Option.toList_some, List.singleton_append] at hpw
      have := List.rel_of_pairwise_cons hpw (List.mem_cons_self x xs)
      omega
    · intro _
      refine ⟨x, rfl, rfl, ?_⟩
      intro w hw
      rw [hw] at hpw
      simp only [Option.toList_some, List.singleton_append] at hpw
      exact List.rel_of_pairwise_cons hpw (List.mem_cons_self x xs)

theorem vecSkipGo_mono : ∀ (rem : List Nat) (t : Nat) (c : Option Nat)
    {r : SkipResult} {v2 : VecPostings},
    vecSkipGo t c rem = (r, v2) →
    List.Pairwise (· < ·) (c.toList ++ rem) →
    vpOk v2 ∧ (∀ w, c = some w → ∃ w2, v2.cur = some w2 ∧ w ≤ w2) := by
  intro rem
  induction rem with
  | nil =>
    intro t c r v2 h hpw
    simp only [vecSkipGo, Prod.mk.injEq] at h
    rw [← h.2]
    refine ⟨by simpa [vpOk] using hpw, fun w hw => ⟨w, hw, Nat.le_refl _⟩⟩
  | cons x xs ih =>
    intro t c r v2 h hpw
    have hpx : List.Pairwise (· < ·) (x :: xs) := by
      have hsub : (x :: xs).Sublist (c.toList ++ x :: xs) :=
        List.sublist_append_right _ _
      exact hpw.sublist hsub
    have hcx : ∀ w, c = some w → w < x := by
      intro w hw
      rw [hw] at hpw
      simp only [Option.toList_some, List.singleton_append] at hpw
      exact List.rel_of_pairwise_cons hpw (List.mem_cons_self x xs)
    simp only [vecSkipGo] at h
    by_cases hgt : x > t
    · rw [if_pos hgt] at h
      simp only [Prod.mk.injEq] at h
      rw [← h.2]
      refine ⟨by simpa [vpOk] using hpx, ?_⟩
      intro w hw
      exact ⟨x, rfl, Nat.le_of_lt (hcx w hw)⟩
    · rw [if_neg hgt] at h
      by_cases heq : x = t
      · rw [if_pos heq] at h
        simp only [Prod.mk.injEq] at h
        rw [← h.2]
        refine ⟨by simpa [vpOk] using hpx, ?_⟩
        intro w hw
        exact ⟨x, rfl, Nat.le_of_lt (hcx w hw)⟩
      · rw [if_neg heq] at h
        have hrec := ih t (some x) h (by simpa using hpx)
        refine ⟨hrec.1, ?_⟩
        intro w hw
        obtain ⟨w2, hw2, hle⟩ := hrec.2 x rfl
        exact ⟨w2, hw2, by have := hcx w hw; omega⟩

theorem diff_advanceF_mono : ∀ (n : Nat) (s : DifferenceDocSet) {b : Bool}
    {s2 : DifferenceDocSet}, DifferenceDocSet.advanceF n s = (b, s2) →
    vpOk s.left →
    vpOk s2.left ∧
    (∀ w, s.left.cur = some w → ∃ w2, s2.left.cur = some w2 ∧ w ≤ w2) ∧
    (b = true → ∃ d, s2.left.cur = some d ∧ s2.doc = d ∧
      (∀ w, s.left.cur = some w → w < d)) := by
  intro n
  induction n with
  | zero =>
    intro s b s2 h hvp
    simp only [DifferenceDocSet.advanceF, Prod.mk.injEq] at h
    obtain ⟨hb, hs⟩ := h
    subst hb
    rw [← hs]
    exact ⟨hvp, fun w hw => ⟨w, hw, Nat.le_refl _⟩, by simp⟩
  | succ n ih =>
    intro s b s2 h hvp
    simp only [DifferenceDocSet.advanceF] at h
    cases hadv : s.left.advance with
    | mk okl l2 =>
      rw [hadv] at h
      cases okl with
      | false =>
        dsimp only at h
        simp only [Prod.mk.injEq] at h
        obtain ⟨hb, hs⟩ := h
        subst hb
        rw [← hs]
        obtain ⟨hvp2, hmono, _⟩ := vec_advance_mono hadv hvp
        exact ⟨hvp2, hmono, by simp⟩
      | true =>
        obtain ⟨hvp2, hmono, hstrict⟩ := vec_advance_mono hadv hvp
        obtain ⟨d, hd1, hd2, hd3⟩ := hstrict rfl
        dsimp only at h
        by_cases hc1 : (s.rightFinished || decide (l2.doc < s.right.doc)) = true
        · rw [if_pos hc1] at h
          simp only [Prod.mk.injEq] at h
          obtain ⟨hb, hs⟩ := h
          subst hb
          rw [← hs]
          exact ⟨hvp2, fun w hw => ⟨d, hd1, by
              have := hd3 w hw
              omega⟩,
            fun _ => ⟨d, hd1, hd2, hd3⟩⟩
        · rw [if_neg hc1] at h
          by_cases hc2 : l2.doc = s.right.doc
          · rw [if_pos hc2] at h
            have hrec := ih { s with left := l2 } h hvp2
            refine ⟨hrec.1, ?_, ?_⟩
            · intro w hw
              obtain ⟨w2, hw2, hle⟩ := hrec.2.1 d hd1
              exact ⟨w2, hw2, by have := hd3 w hw; omega⟩
            · intro hb
              obtain ⟨d2, he1, he2, he3⟩ := hrec.2.2 hb
              refine ⟨d2, he1, he2, ?_⟩
              intro w hw
              have h1 := hd3 w hw
              have h2 := he3 d hd1
              omega
          · rw [if_neg hc2] at h
            cases hskipr : VecPostings.skipNext l2.doc s.right with
            | mk rr r2 =>
              rw [hskipr] at h
              cases rr with
              | Reached =>
                dsimp only at h
                have hrec := ih { s with left := l2, right := r2 } h hvp2
                refine ⟨hrec.1, ?_, ?_⟩
                · intro w hw
                  obtain ⟨w2, hw2, hle⟩ := hrec.2.1 d hd1
                  exact ⟨w2, hw2, by have := hd3 w hw; omega⟩
                · intro hb
                  obtain ⟨d2, he1, he2, he3⟩ := hrec.2.2 hb
                  refine ⟨d2, he1, he2, ?_⟩
                  intro w hw
                  have h1 := hd3 w hw
                  have h2 := he3 d hd1
                  omega
              | OverStep =>
                dsimp only at h
                simp only [Prod.mk.injEq] at h
                obtain ⟨hb, hs⟩ := h
                subst hb
                rw [← hs]
                exact ⟨hvp2, fun w hw => ⟨d, hd1, by
                    have := hd3 w hw
                    omega⟩,
                  fun _ => ⟨d, hd1, hd2, hd3⟩⟩
              | SEnd =>
                dsimp only at h
                simp only [Prod.mk.injEq] at h
                obtain ⟨hb, hs⟩ := h
                subst hb
                rw [← hs]
                exact ⟨hvp2, fun w hw => ⟨d, hd1, by
                    have := hd3 w hw
                    omega⟩,
                  fun _ => ⟨d, hd1, hd2, hd3⟩⟩

theorem diff_skipNext_mono {t : Nat} {s : DifferenceDocSet} {r : SkipResult}
    {s2 : DifferenceDocSet} (h : DifferenceDocSet.skipNext t s = (r, s2))
    (hvp : vpOk s.left) :
    vpOk s2.left ∧
    (∀ w, s.left.cur = some w → ∃ w2, s2.left.cur = some w2 ∧ w ≤ w2) := by
  unfold DifferenceDocSet.skipNext at h
  cases hlsk : VecPostings.skipNext t s.left with
  | mk res l2 =>
    rw [hlsk] at h
    obtain ⟨hvp2, hmono⟩ :=
      vecSkipGo_mono s.left.remaining t s.left.cur hlsk hvp
    cases res with
    | SEnd =>
      dsimp only at h
      simp only [Prod.mk.injEq] at h
      rw [← h.2]
      exact ⟨hvp2, hmono⟩
    | Reached =>
      dsimp only at h
      by_cases hc1 : (s.rightFinished || decide (l2.doc < s.right.doc)) = true
      · rw [if_pos hc1] at h
        simp only [Prod.mk.injEq] at h
        rw [← h.2]
        exact ⟨hvp2, hmono⟩
      · rw [if_neg hc1] at h
        by_cases hc2 : l2.doc = s.right.doc
        · rw [if_pos hc2] at h
          cases hadv : VecPostings.advance l2 with
          | mk okl l3 =>
            rw [show ({ s with left := l2 } :
                DifferenceDocSet).left.advance = (okl, l3) from hadv] at h
            obtain ⟨hvp3, hmono3, _⟩ := vec_advance_mono hadv hvp2
            cases okl with
            | true =>
              dsimp only at h
              simp only [Prod.mk.injEq] at h
              rw [← h.2]
              refine ⟨hvp3, ?_⟩
              intro w hw
              obtain ⟨w2, hw2, hle⟩ := hmono w hw
              obtain ⟨w3, hw3, hle3⟩ := hmono3 w2 hw2
              exact ⟨w3, hw3, by omega⟩
            | false =>
              dsimp only at h
              simp only [Prod.mk.injEq] at h
              rw [← h.2]
              refine ⟨hvp3, ?_⟩
              intro w hw
              obtain ⟨w2, hw2, hle⟩ := hmono w hw
              obtain ⟨w3, hw3, hle3⟩ := hmono3 w2 hw2
              exact ⟨w3, hw3, by omega⟩
        · rw [if_neg hc2] at h
          cases hrsk : VecPostings.skipNext l2.doc s.right with
          | mk rr r2 =>
            rw [hrsk] at h
            cases rr with
            | Reached =>
              dsimp only at h
              cases hda : DifferenceDocSet.advance
                  { s with left := l2, right := r2 } with
              | mk okd s3 =>
                rw [hda] at h
                obtain ⟨hvp3, hmono3, _⟩ := diff_advanceF_mono _ _ hda hvp2
                cases okd with
                | true =>
                  dsimp only at h
                  simp only [Prod.mk.injEq] at h
                  rw [← h.2]
                  refine ⟨hvp3, ?_⟩
                  intro w hw
                  obtain ⟨w2, hw2, hle⟩ := hmono w hw
                  obtain ⟨w3, hw3, hle3⟩ := hmono3 w2 hw2
                  exact ⟨w3, hw3, by omega⟩
                | false =>
                  dsimp only at h
                  simp only [Prod.mk.injEq] at h
                  rw [← h.2]
                  refine ⟨hvp3, ?_⟩
                  intro w hw
                  obtain ⟨w2, hw2, hle⟩ := hmono w hw
                  obtain ⟨w3, hw3, hle3⟩ := hmono3 w2 hw2
                  exact ⟨w3, hw3, by omega⟩
            | OverStep =>
              dsimp only at h
              simp only [Prod.mk.injEq] at h
              rw [← h.2]
              exact ⟨hvp2, hmono⟩
            | SEnd =>
              dsimp only at h
              simp only [Prod.mk.injEq] at h
              rw [← h.2]
              exact ⟨hvp2, hmono⟩
    | OverStep =>
      dsimp only at h
      by_cases hc1 : (s.rightFinished || decide (l2.doc < s.right.doc)) = true
      · rw [if_pos hc1] at h
        simp only [Prod.mk.injEq] at h
        rw [← h.2]
        exact ⟨hvp2, hmono⟩
      · rw [if_neg hc1] at h
        by_cases hc2 : l2.doc = s.right.doc
        · rw [if_pos hc2] at h
          cases hadv : VecPostings.advance l2 with
          | mk okl l3 =>
            rw [show ({ s with left := l2 } :
                DifferenceDocSet).left.advance = (okl, l3) from hadv] at h
            obtain ⟨hvp3, hmono3, _⟩ := vec_advance_mono hadv hvp2
            cases okl with
            | true =>
              dsimp only at h
              simp only [Prod.mk.injEq] at h
              rw [← h.2]
              refine ⟨hvp3, ?_⟩
              intro w hw
              obtain ⟨w2, hw2, hle⟩ := hmono w hw
              obtain ⟨w3, hw3, hle3⟩ := hmono3 w2 hw2
              exact ⟨w3, hw3, by omega⟩
            | false =>
              dsimp only at h
              simp only [Prod.mk.injEq] at h
              rw [← h.2]
              refine ⟨hvp3, ?_⟩
              intro w hw
              obtain ⟨w2, hw2, hle⟩ := hmono w hw
              obtain ⟨w3, hw3, hle3⟩ := hmono3 w2 hw2
              exact ⟨w3, hw3, by omega⟩
        · rw [if_neg hc2] at h
          cases hrsk : VecPostings.skipNext l2.doc s.right with
          | mk rr r2 =>
            rw [hrsk] at h
            cases rr with
            | Reached =>
              dsimp only at h
              cases hda : DifferenceDocSet.advance
                  { s with left := l2, right := r2 } with
              | mk okd s3 =>
                rw [hda] at h
                obtain ⟨hvp3, hmono3, _⟩ := diff_advanceF_mono _ _ hda hvp2
                cases okd with
                | true =>
                  dsimp only at h
                  simp only [Prod.mk.injEq] at h
                  rw [← h.2]
                  refine ⟨hvp3, ?_⟩
                  intro w hw
                  obtain ⟨w2, hw2, hle⟩ := hmono w hw
                  obtain ⟨w3, hw3, hle3⟩ := hmono3 w2 hw2
                  exact ⟨w3, hw3, by omega⟩
                | false =>
                  dsimp only at h
                  simp only [Prod.mk.injEq] at h
                  rw [← h.2]
                  refine ⟨hvp3, ?_⟩
                  intro w hw
                  obtain ⟨w2, hw2, hle⟩ := hmono w hw
                  obtain ⟨w3, hw3, hle3⟩ := hmono3 w2 hw2
                  exact ⟨w3, hw3, by omega⟩
            | OverStep =>
              dsimp only at h
              simp only [Prod.mk.injEq] at h
              rw [← h.2]
              exact ⟨hvp2, hmono⟩
            | SEnd =>
              dsimp only at h
              simp only [Prod.mk.injEq] at h
              rw [← h.2]
              exact ⟨hvp2, hmono⟩

theorem runD_mono : ∀ (ops : List DocSetOp) (s : DifferenceDocSet)
    (c : Option Nat), vpOk s.left →
    (∀ v, c = some v → ∃ w, s.left.cur = some w ∧ v ≤ w) →
    List.Chain' (· < ·) (runD s ops) ∧
      (∀ v, c = some v → ∀ x ∈ runD s ops, v < x) := by
  intro ops
  induction ops with
  | nil => intro s c _ _; simp [runD]
  | cons op ops ih =>
    intro s c hvp hlink
    cases op with
    | adv =>
      cases hadv : s.advance with
      | mk ok s2 =>
        obtain ⟨hvp2, hmono, hstrict⟩ := diff_advanceF_mono _ _ hadv hvp
        cases ok with
        | false =>
          have hrec := ih s2 c hvp2 (by
            intro v hv
            obtain ⟨w, hw, hle⟩ := hlink v hv
            obtain ⟨w2, hw2, hle2⟩ := hmono w hw
            exact ⟨w2, hw2, by omega⟩)
          constructor
          · show List.Chain' _ (runD s (DocSetOp.adv :: ops))
            unfold runD
            rw [hadv]
            exact hrec.1
          · intro v hv x hx
            unfold runD at hx
            rw [hadv] at hx
            exact hrec.2 v hv x hx
        | true =>
          obtain ⟨d, hd1, hd2, hd3⟩ := hstrict rfl
          have hrec := ih s2 (some s2.doc) hvp2 (by
            intro v hv
            simp only [Option.some.injEq] at hv
            subst hv
            exact ⟨d, hd1, by omega⟩)
          constructor
          · show List.Chain' _ (runD s (DocSetOp.adv :: ops))
            unfold runD
            rw [hadv]
            exact chain'_lt_cons_of_head hrec.1
              (fun x hx => hrec.2 s2.doc rfl x hx)
          · intro v hv x hx
            unfold runD at hx
            rw [hadv] at hx
            have hvd : v < s2.doc := by
              obtain ⟨w, hw, hle⟩ := hlink v hv
              have := hd3 w hw
              omega
            rcases List.mem_cons.mp hx with hh | hh
            · omega
            · have := hrec.2 s2.doc rfl x hh
              omega
    | skip t =>
      cases hsk : DifferenceDocSet.skipNext t s with
      | mk r s3 =>
        obtain ⟨hvp3, hmono3⟩ := diff_skipNext_mono hsk hvp
        have hrec := ih s3 c hvp3 (by
          intro v hv
          obtain ⟨w, hw, hle⟩ := hlink v hv
          obtain ⟨w2, hw2, hle2⟩ := hmono3 w hw
          exact ⟨w2, hw2, by omega⟩)
        constructor
        · show List.Chain' _ (runD s (DocSetOp.skip t :: ops))
          unfold runD
          rw [hsk]
          exact hrec.1
        · intro v hv x hx
          unfold runD at hx
          rw [hsk] at hx
          exact hrec.2 v hv x hx

/-- C5 counterexample: driving the two-child `UnionAllDocSet` over
`left = [1,3,9]`, `right = [3,4,9,18]` with seven `advance()` calls
observes the docs `[1,3,3,4,9,9,18]`: the sequence repeats `3` and `9`
(one occurrence per child holding the doc), so it is not strictly
increasing. -/
theorem claim_C5_counterexample :
    runUA (mkUnionAll [1, 3, 9] [3, 4, 9, 18])
      [DocSetOp.adv, DocSetOp.adv, DocSetOp.adv, DocSetOp.adv,
        DocSetOp.adv, DocSetOp.adv, DocSetOp.adv] = [1, 3, 3, 4, 9, 9, 18] ∧
    ¬ List.Chain' (· < ·)
      (runUA (mkUnionAll [1, 3, 9] [3, 4, 9, 18])
        [DocSetOp.adv, DocSetOp.adv, DocSetOp.adv, DocSetOp.adv,
          DocSetOp.adv, DocSetOp.adv, DocSetOp.adv]) := by
  have he : runUA (mkUnionAll [1, 3, 9] [3, 4, 9, 18])
      [DocSetOp.adv, DocSetOp.adv, DocSetOp.adv, DocSetOp.adv,
        DocSetOp.adv, DocSetOp.adv, DocSetOp.adv] = [1, 3, 3, 4, 9, 9, 18] :=
    by decide
  refine ⟨he, ?_⟩
  rw [he]
  simp [List.chain'_cons]

/-- C5 (amended): over strictly-ascending inputs and an arbitrary sequence
of `advance` and `skip_next` operations, the docs observed at
`advance() == true` returns are strictly increasing for `UnionDocSet` and
for `DifferenceDocSet`, but only non-decreasing for `UnionAllDocSet`, which
revisits a doc once per further child containing it. -/
theorem claim_C5_ordering (a b : List Nat) (ops : List DocSetOp)
    (ha : List.Pairwise (· < ·) a) (hb : List.Pairwise (· < ·) b) :
    List.Chain' (· ≤ ·) (runUA (mkUnionAll a b) ops) ∧
    List.Chain' (· < ·) (runU (mkUnion a b) ops) ∧
    List.Chain' (· < ·) (runD (mkDifference a b) ops) := by
  obtain ⟨hok, hfin, _⟩ := mkUnionAll_spec ha hb
  refine ⟨(runUA_mono ops (mkUnionAll a b) hok).1, ?_, ?_⟩
  · have huok : uOk (mkUnion a b) :=
      ⟨hok, by
        intro hc
        have hc2 : (mkUnionAll a b).finished = true := hc
        rw [hfin] at hc2
        simp at hc2,
        by intro v hv; simp [mkUnion] at hv⟩
    exact (runU_mono ops (mkUnion a b) none huok (by intro v hv; simp at hv)).1
  · have hvp : vpOk (mkDifference a b).left := by
      show vpOk (VecPostings.fromList a)
      unfold vpOk VecPostings.fromList
      simpa using ha
    exact (runD_mono ops (mkDifference a b) none hvp
      (by intro v hv; simp at hv)).1

theorem claim_C5_witness :
    List.Chain' (· ≤ ·) (runUA (mkUnionAll [1, 3, 9] [3, 4, 9, 18])
      [DocSetOp.adv, DocSetOp.skip 4, DocSetOp.adv, DocSetOp.adv]) ∧
    List.Chain' (· < ·) (runU (mkUnion [1, 3, 9] [3, 4, 9, 18])
      [DocSetOp.adv, DocSetOp.skip 4, DocSetOp.adv, DocSetOp.adv]) ∧
    List.Chain' (· < ·) (runD (mkDifference [1, 3, 9] [3, 4, 9, 18])
      [DocSetOp.adv, DocSetOp.skip 4, DocSetOp.adv, DocSetOp.adv]) :=
  claim_C5_ordering [1, 3, 9] [3, 4, 9, 18]
    [DocSetOp.adv, DocSetOp.skip 4, DocSetOp.adv, DocSetOp.adv]
    (by decide) (by decide)
